import Mathlib

/-!
Verification of the sus-compiler front-end flattening core.

This file shallowly embeds the compilation core of the repository:

* `src/flattening/parse.rs` — the flattener (`flatten_expr`,
  `flatten_wire_reference`, `flatten_func_call`, `flatten_declaration`,
  `flatten_if_statement`, `flatten_code_keep_context`,
  `flatten_write_modifiers`, `flatten`, …), modelled as state-passing
  functions over an explicit `FState`, with `Option` for panics
  (`unwrap`, `assert!`, `unreachable!`, `todo!`).
* `src/flattening/mod.rs` — the IR data model (`Instruction`,
  `WireReference`, `WireSource`, `Write`, `IfStatement`, `ForStatement`,
  ports and interfaces) and `Module::get_port_by_name`.
* `src/debug.rs` — the panic-time span history (`add_debug_span`,
  `print_most_recent_spans`, `SpanDebugger`).
* `src/compiler_top.rs` — `add_file`, `update_file`, `recompile_all`.

Machine integers (`usize`, `i64`) are modelled as `Nat` (all the modelled
quantities are counts and indices that cannot go negative and cannot
realistically overflow; no wrapping arithmetic occurs in the modelled
code). Byte spans are opaque metadata for diagnostics; they are dropped
except where the code *compares* them (`Port::name_span` against a
declaration's name span in `flatten_declaration`), where they are kept as
opaque `Nat` tokens. The tree-sitter cursor is an external collaborator:
the syntax shapes it yields are embedded as inductive ASTs (`Expr`,
`Stmt`, `DeclAST`, …) with exactly the node kinds and fields the
flattener matches on. Collaborators of this repository that are not under
`src/` (the arena allocator, the linker's name table, `name_context.rs`,
`initialization.rs`, typechecking) are modelled from the specification;
each such definition carries a doc comment starting with
`Modelled from the spec:`.
-/

/-! ## IR data model (from `src/flattening/mod.rs` and the types used by
`src/flattening/parse.rs`) -/

/-- Unary operators (`UnaryOperator` in `mod.rs`). -/
inductive UnaryOperator where
  | and | or | xor | not | sum | product | negate
deriving DecidableEq, Repr

/-- Binary operators (`BinaryOperator` in `mod.rs`). -/
inductive BinaryOperator where
  | and | or | xor | add | subtract | multiply | divide | modulo
  | equals | notEquals | greater | greaterEq | lesser | lesserEq
deriving DecidableEq, Repr

/-- Compile-time values (`Value`); only integer constants are produced by
the flattener (`Value::Integer(BigInt)`, modelled as `Int`). -/
inductive Value where
  | integer (v : Int)
deriving DecidableEq, Repr

/- A `Nat` is an index into a module's instruction list, modelled as
a plain `Nat` throughout. `UUID::PLACEHOLDER` (a sentinel that is
invalid to dereference) is modelled by wrapping back-patched fields in
`Option`, `none` being the placeholder. -/

/-- `WireReferencePathElement`: array accesses along a wire reference
path (bracket spans are diagnostic metadata and are dropped). -/
inductive WireReferencePathElement where
  | arrayAccess (idx : Nat)
deriving DecidableEq, Repr

/-- Port information of a submodule port reference (`PortInfo`); the
optional name spans are diagnostic metadata and are dropped. -/
structure PortInfo where
  submodule_decl : Nat
  port : Nat
  is_input : Bool
deriving DecidableEq, Repr

/-- The root of a wire reference (`WireReferenceRoot`). -/
inductive WireReferenceRoot where
  | localDecl (decl : Nat)
  | namedConstant (uuid : Nat)
  | subModulePort (p : PortInfo)
deriving DecidableEq, Repr

/-- A reference to a wire: a root plus an indexing path (`WireReference`). -/
structure WireReference where
  root : WireReferenceRoot
  path : List WireReferencePathElement
deriving DecidableEq, Repr

/-- `WireReference::simple_port`. -/
def WireReference.simple_port (p : PortInfo) : WireReference :=
  { root := .subModulePort p, path := [] }

/-- The source of a wire (`WireSource`). `error` is the distinguished
error-wire marker produced by `WireSource::new_error()` (spec §7: an
error wire is a `Wire` whose source is a distinguished error marker). -/
inductive WireSource where
  | wireRef (wr : WireReference)
  | unaryOp (op : UnaryOperator) (right : Nat)
  | binaryOp (op : BinaryOperator) (left : Nat) (right : Nat)
  | constant (v : Value)
  | error
deriving DecidableEq, Repr

/-- A wire instruction (`WireInstance`); the abstract type is unset
during flattening (`FullType::new_unset()`) and the span is diagnostic
metadata, so only the source remains. -/
structure WireInstance where
  source : WireSource
deriving DecidableEq, Repr

/-- Identifier kinds of declarations (`IdentifierType`). -/
inductive IdentifierType where
  | input | output | local | state | generative
deriving DecidableEq, Repr

/-- A written type expression after flattening (`WrittenType`); array
sizes are flattened wires. -/
inductive WrittenType where
  | named (uuid : Nat)
  | error
  | array (elem : WrittenType) (size_wire : Nat)
deriving DecidableEq, Repr

/-- A declaration instruction (`Declaration`). `is_input_port` is
`some dir` for ports (`dir = true` for inputs), `none` otherwise. -/
structure Declaration where
  typ_expr : WrittenType
  name : String
  name_span : Nat
  read_only : Bool
  declaration_itself_is_not_written_to : Bool
  is_input_port : Option Bool
  identifier_type : IdentifierType
  latency_specifier : Option Nat
deriving DecidableEq, Repr

/-- A submodule instantiation instruction (`SubModuleInstance`). -/
structure SubModuleInstance where
  module_uuid : Nat
  name : Option String
deriving DecidableEq, Repr

/-- Write modifiers (`WriteModifiers`): a connection with a `reg` count,
or an `initial` write. -/
inductive WriteModifiers where
  | connection (num_regs : Nat)
  | initialValue
deriving DecidableEq, Repr

/-- A write instruction (`Write`); `from` and `to` are Lean keywords, so
the fields carry a trailing underscore. -/
structure Write where
  from_ : Nat
  to_ : WireReference
  write_modifiers : WriteModifiers
deriving DecidableEq, Repr

/-- An if statement (`IfStatement`). The range bounds are allocated as
`UUID::PLACEHOLDER` (here `none`) and back-patched to real indices. -/
structure IfStatement where
  condition : Nat
  then_start : Option Nat
  then_end_else_start : Option Nat
  else_end : Option Nat
deriving DecidableEq, Repr

/-- A for statement (`ForStatement`); `loop_body` is the back-patched
body range, placeholder until filled. -/
structure ForStatement where
  loop_var_decl : Nat
  start : Nat
  end_ : Nat
  loop_body : Option (Nat × Nat)
deriving DecidableEq, Repr

/-- A port range on a module's port arena (`PortIDRange` /
`UUIDRange`): the half-open interval `[rstart, rstop)`. -/
structure PortRange where
  rstart : Nat
  rstop : Nat
deriving DecidableEq, Repr

/-- The number of ports in a range (`UUIDRange::len`). -/
def PortRange.len (r : PortRange) : Nat := r.rstop - r.rstart

/-- The ports of a range in order (iteration over a `UUIDRange`). -/
def PortRange.toList (r : PortRange) : List Nat :=
  List.range' r.rstart (r.rstop - r.rstart)

/-- A reference to one interface of a submodule
(`ModuleInterfaceReference`; the spans are diagnostic metadata). -/
structure ModuleInterfaceReference where
  submodule_decl : Nat
  submodule_interface : Nat
deriving DecidableEq, Repr

/-- A function-call instruction (`FuncCallInstruction` as used by
`parse.rs`): the interface reference, the argument wires and the
input/output port ranges of the called interface. -/
structure FuncCallInstruction where
  interface_reference : ModuleInterfaceReference
  arguments : List Nat
  func_call_inputs : PortRange
  func_call_outputs : PortRange
deriving DecidableEq, Repr

/-- A flat instruction (`Instruction`). -/
inductive Instruction where
  | subModule (sm : SubModuleInstance)
  | declaration (d : Declaration)
  | wire (w : WireInstance)
  | write (w : Write)
  | ifStatement (s : IfStatement)
  | forStatement (s : ForStatement)
  | funcCall (fc : FuncCallInstruction)
deriving DecidableEq, Repr

/-! ## Diagnostics

The error collector (§4.C, `errors.rs` is not under `src/`) is modelled
from the spec as an append-only list of structured diagnostics; the
message texts and spans are metadata, so each emission site gets one
constructor (warnings are `standaloneWarnOwnLine` and `resultUnused`;
all others are errors). -/

inductive Diag where
  | redeclareIoKw
  | ioOnForIterator
  | stateOnInput
  | genOnIoKw
  | modifierOnForIterator
  | conflictingDeclaration (prior : Nat)
  | notExpectedGlobal (expected : String)
  | latencyOnModule
  | cannotOperateOnModules
  | expectedWireRefFoundModule
  | expectedPortFoundInterface
  | portsOnExplicitModules
  | omitInterfaceOnPortAccess
  | noSuchPortOrInterface (port : String) (md : String)
  | constantNotWireRef
  | operatorNotWireRef
  | callNotWireRef
  | parensNotWireRef
  | funcCallOnNonModule
  | mustReturnOneResult
  | excessArgs (expected : Nat) (got : Nat)
  | tooFewArgs (expected : Nat) (got : Nat)
  | excessOutputTargets (outputs : Nat) (targets : Nat)
  | tooFewOutputTargets (outputs : Nat) (targets : Nat)
  | nonFunctionAssignmentWrongTargetCount (got : Nat)
  | standaloneWarnOwnLine
  | writeModifiersNotAllowedHere
  | resultUnused
  | noSuchPort (port : String) (md : String)
deriving DecidableEq, Repr

/-! ## Global environment seen by the flattener

While flattening one module, the linker exposes read-only resolvers over
the other modules and the global name table (spec §5: "the linker owns
all arenas; components receive a scoped mutable reference that exposes
exactly one module for mutation plus read-only resolvers"). -/

/-- A port of a module as other modules (and `ports_to_visit`) see it
(`Port` in `mod.rs`: name, name span, direction; its mutable
`declaration_instruction` lives in the flattening state). -/
structure GPort where
  pname : String
  name_span : Nat
  is_input : Bool
deriving DecidableEq, Repr

/-- An interface of a module (`Interface` in `mod.rs`). -/
structure Interface where
  iname : String
  func_call_inputs : PortRange
  func_call_outputs : PortRange
deriving DecidableEq, Repr

/-- A module as seen through the read-only resolver. -/
structure GlobalModule where
  gname : String
  gports : List GPort
  interfaces : List Interface
deriving DecidableEq, Repr

/-- `Module::MAIN_INTERFACE_ID`. -/
def MAIN_INTERFACE_ID : Nat := 0

/-- A named global entity (`NameElem` of the linker). -/
inductive NameElem where
  | module (uuid : Nat)
  | typ (uuid : Nat)
  | constant (uuid : Nat)
deriving DecidableEq, Repr

/-- The read-only context of a flattening run: the module arena, the
global name table, and the ports of the module being worked on. -/
structure Ctx where
  modules : List GlobalModule
  globals : List (String × NameElem)
  ports : List GPort
deriving DecidableEq, Repr

/-- Modelled from the spec: `resolve_global` of the linker's name
resolver (linker.rs is not under `src/`): look the name text up in the
global name table (§4.D). Unknown names yield `none`; the spec notes the
linker itself has already reported non-existent globals. -/
def resolveGlobal (ctx : Ctx) (name : String) : Option NameElem :=
  List.lookup name ctx.globals

/-! ## Flattening state and monad

`FlatteningContext`'s mutable parts: the instruction arena of the module
being built, the local variable context, the error collector, and the
`ports_to_visit` iterator together with each port's
`declaration_instruction` slot. `portWrites` counts, per port, how often
its `declaration_instruction` has been stored (instrumentation for the
assigned-exactly-once property). Panics (`unwrap`, `assert!`,
`unreachable!`, `todo!`) are modelled as `none`. -/

structure FState where
  instructions : List Instruction
  scopes : List (List (String × Nat))
  errors : List Diag
  portsToVisit : List Nat
  portDecls : List (Option Nat)
  portWrites : List Nat
deriving DecidableEq, Repr

/-- The flattening monad: state passing over `FState` with `none` for a
panic. -/
def M (α : Type) : Type := FState → Option (α × FState)

instance : Monad M where
  pure a := fun s => some (a, s)
  bind x f := fun s =>
    match x s with
    | none => none
    | some (a, s') => f a s'

/-- A panic (`unwrap` failure, failed `assert!`, `unreachable!`,
`todo!`). -/
def M.fail {α : Type} : M α := fun _ => none

theorem M.bind_eq {α β : Type} (x : M α) (f : α → M β) (s : FState) :
    (x >>= f) s = match x s with
      | none => none
      | some (a, s') => f a s' := rfl

theorem M.pure_eq {α : Type} (a : α) (s : FState) :
    (pure a : M α) s = some (a, s) := rfl

theorem M.fail_eq {α : Type} (s : FState) : (M.fail : M α) s = none := rfl

theorem M.bind_eq_some {α β : Type} {x : M α} {f : α → M β} {s : FState}
    {b : β} {s₂ : FState} :
    (x >>= f) s = some (b, s₂) ↔
      ∃ a s₁, x s = some (a, s₁) ∧ f a s₁ = some (b, s₂) := by
  rw [M.bind_eq]
  cases h : x s with
  | none => simp
  | some v =>
    cases v with
    | mk a s₁ =>
      constructor
      · intro hf
        exact ⟨a, s₁, rfl, hf⟩
      · rintro ⟨a', s₁', h1, h2⟩
        cases h1
        exact h2

/-! ### Primitive state operations -/

/-- Allocate a new instruction at the end of the arena
(`FlatAlloc::alloc`; modelled from the spec §4.A: allocation returns a
new ID, iteration order equals allocation order). -/
def allocInstr (inst : Instruction) : M Nat := fun s =>
  some (s.instructions.length, { s with instructions := s.instructions ++ [inst] })

/-- `FlatAlloc::get_next_alloc_id` (modelled from the spec §4.A: peek at
the next ID, used to mark range boundaries). -/
def nextAllocId : M Nat := fun s => some (s.instructions.length, s)

/-- Read `working_on.instructions[i]` (a Rust index panics when out of
bounds). -/
def getInstr (i : Nat) : M Instruction := fun s =>
  match s.instructions[i]? with
  | some v => some (v, s)
  | none => none

/-- Overwrite `working_on.instructions[i]` (back-patching; panics when
out of bounds). -/
def setInstr (i : Nat) (inst : Instruction) : M Unit := fun s =>
  if i < s.instructions.length then
    some ((), { s with instructions := s.instructions.set i inst })
  else none

/-- Record a diagnostic on the error collector. -/
def pushErr (d : Diag) : M Unit := fun s =>
  some ((), { s with errors := s.errors ++ [d] })

/-- Modelled from the spec: `LocalVariableContext::new_frame`
(name_context.rs is not under `src/`; §4.E: a stack of frames mapping
name text to declaration instruction ID). -/
def newFrame : M Unit := fun s =>
  some ((), { s with scopes := [] :: s.scopes })

/-- Modelled from the spec: `LocalVariableContext::pop_frame`. -/
def popFrame : M Unit := fun s =>
  match s.scopes with
  | [] => none
  | _ :: rest => some ((), { s with scopes := rest })

/-- Modelled from the spec: `LocalVariableContext::get_declaration_for`;
consult frames from the innermost outwards. -/
def lookupVar (name : String) : M (Option Nat) := fun s =>
  some (s.scopes.findSome? (fun fr => List.lookup name fr), s)

/-- Modelled from the spec: `LocalVariableContext::add_declaration`;
shadowing within a single frame is an error and returns the earlier ID,
across frames it is permitted (§4.E). -/
def addDeclVar (name : String) (id : Nat) : M (Option Nat) := fun s =>
  match s.scopes with
  | [] => none
  | fr :: rest =>
    match List.lookup name fr with
    | some prior => some (some prior, s)
    | none => some (none, { s with scopes := ((name, id) :: fr) :: rest })

/-- `self.ports_to_visit.next().unwrap()`: pop the next pending port,
panicking when none remain. -/
def popPort : M Nat := fun s =>
  match s.portsToVisit with
  | [] => none
  | p :: rest => some (p, { s with portsToVisit := rest })

/-- Store a port's `declaration_instruction` after the
`assert_eq!(port.name_span, name_span)` check; bumps the ghost write
counter for that port. -/
def assignPort (ctx : Ctx) (pid : Nat) (nameSpan : Nat) (declId : Nat) : M Unit := fun s =>
  match ctx.ports[pid]? with
  | none => none
  | some p =>
    if p.name_span = nameSpan then
      some ((), { s with
        portDecls := s.portDecls.set pid (some declId),
        portWrites := s.portWrites.set pid ((s.portWrites.getD pid 0) + 1) })
    else none

/-! ## Syntax trees

The tree-sitter cursor is an external collaborator (spec §4.G); the node
kinds and fields the flattener matches on are embedded as inductives.
`Expr` covers exactly the expression kinds `flatten_expr` and
`flatten_wire_reference` dispatch on: `number`, `unary_op`, `binary_op`,
`func_call`, `parenthesis_expression`, `global_identifier`, `array_op`
and `field_access`. -/

inductive Expr where
  | num (v : Int)
  | unaryOp (op : UnaryOperator) (right : Expr)
  | binaryOp (op : BinaryOperator) (left : Expr) (right : Expr)
  | funcCall (callee : Expr) (args : List Expr)
  | paren (e : Expr)
  | globalIdent (name : String)
  | arrayOp (arr : Expr) (idx : Expr)
  | fieldAccess (left : Expr) (fname : String)

/-- Type expression nodes matched by `flatten_type` /
`flatten_module_or_type`: a `global_identifier` or an `array_type` with
an `array_bracket_expression` size. -/
inductive TypeExpr where
  | tglobal (name : String)
  | tarray (elem : TypeExpr) (size : Expr)

/-- The `state` / `gen` declaration modifiers. -/
inductive DeclModKW where
  | state | gen
deriving DecidableEq, Repr

/-- A `declaration` node as read by `flatten_declaration`: optional
`io_port_modifiers` (`some true` = `input`, `some false` = `output`),
optional `declaration_modifiers`, the type, the identifier (text plus
name span, kept because `flatten_declaration` compares it against the
pending port's name span), and an optional latency specifier. -/
structure DeclAST where
  io_kw : Option Bool
  modifiers : Option DeclModKW
  typ : TypeExpr
  dname : String
  name_span : Nat
  latency : Option Expr

/-- The `reg` / `initial` write-modifier keywords. -/
inductive WModKW where
  | reg | initialKw
deriving DecidableEq, Repr

/-- An `expr_or_decl` field of an `assign_to` node. -/
inductive ExprOrDecl where
  | decl (d : DeclAST)
  | expr (e : Expr)

/-- An `assign_to` node: optional `write_modifiers` list plus the
target. -/
structure AssignLeftItem where
  write_modifiers : Option (List WModKW)
  target : ExprOrDecl

/-- An `interface_ports` node: optional `inputs` and `outputs`
declaration lists. -/
structure InterfacePortsAST where
  inputs : Option (List DeclAST)
  outputs : Option (List DeclAST)

mutual
/-- Statement nodes matched by `flatten_code_keep_context`. -/
inductive Stmt where
  | assignLeftSide (items : List AssignLeftItem)
  | declAssign (assign_left : List AssignLeftItem) (assign_value : Expr)
  | block (body : List Stmt)
  | ifStmt (condition : Expr) (then_block : List Stmt) (else_block : ElseClause)
  | forStmt (for_decl : DeclAST) (fromE : Expr) (toE : Expr) (body : List Stmt)
  | interfaceStmt (iname : String) (iports : Option InterfacePortsAST)
/-- The optional `else_block` field of an `if_statement`: absent, a
chained `if_statement`, or a block. -/
inductive ElseClause where
  | noElse
  | elseIf (condition : Expr) (then_block : List Stmt) (else_block : ElseClause)
  | elseBlock (body : List Stmt)
end

/-- A `module` node: name, optional `interface_ports` header, body
block. -/
structure ModuleAST where
  mname : String
  interface_ports : Option InterfacePortsAST
  body : List Stmt

/-! ## The flattener (from `src/flattening/parse.rs`)

The functions are structured exactly as in the source; the mutual
recursion over the syntax tree is driven by a fuel parameter (each
function consumes one unit and hands the rest to its callees), with fuel
exhaustion indistinguishable from a panic. All the claims proved below
are conditional on a `some` result, so they hold for every terminating,
non-panicking run of the code, independent of the fuel chosen. -/

/-- The four-state partial result of `flatten_wire_reference`
(`PartialWireReference`); spans of the variants are diagnostic
metadata. -/
inductive PartialWireReference where
  | error
  | globalModuleName (module_uuid : Nat)
  | moduleButNoPort (submodule_decl : Nat)
  | moduleWithInterface (submodule_decl : Nat) (interface : Nat)
  | wireReference (wr : WireReference)
deriving DecidableEq, Repr

/-- `ModuleOrWrittenType`. -/
inductive ModuleOrWrittenType where
  | writtenType (t : WrittenType)
  | moduleRef (uuid : Nat)
deriving DecidableEq, Repr

/-- `DeclarationContext` of `flatten_declaration`. -/
inductive DeclarationContext where
  | input | output | forLoopGenerative | plainWire
deriving DecidableEq, Repr

/-- A port or an interface, as resolved by name on a submodule. -/
inductive PortOrInterface where
  | port (p : Nat)
  | interface (i : Nat)
deriving DecidableEq, Repr

/-- Modelled from the spec: `Module::get_port_or_interface_by_name`
(the newer sibling of `get_port_by_name`; its definition is not under
`src/`): field access on a module resolves the name against the
module's ports and then its interfaces; a port yields a port, an
interface yields an interface, otherwise the error has to be reported by
the caller side modelled in `flatten_wire_reference` (§4.G). -/
def get_port_or_interface_by_name (md : GlobalModule) (pname : String) :
    Option PortOrInterface :=
  match md.gports.findIdx? (fun p => p.pname = pname) with
  | some i => some (.port i)
  | none =>
    match md.interfaces.findIdx? (fun i => i.iname = pname) with
    | some i => some (.interface i)
    | none => none

/-- `PartialWireReference::expect_wireref`: narrow a partial result to
an actual wire reference, diagnosing every non-wire variant. The
diagnostic builders read the referenced submodule / module for their
info attachments, so those reads (which can panic) are kept. -/
def expect_wireref (ctx : Ctx) (pwr : PartialWireReference) : M (Option WireReference) :=
  match pwr with
  | .error => pure none
  | .moduleButNoPort submod_decl => do
    let i ← getInstr submod_decl
    match i with
    | .subModule sm =>
      match ctx.modules[sm.module_uuid]? with
      | some _ => do
        pushErr .cannotOperateOnModules
        pure none
      | none => M.fail
    | _ => M.fail
  | .globalModuleName md_uuid =>
    match ctx.modules[md_uuid]? with
    | some _ => do
      pushErr .expectedWireRefFoundModule
      pure none
    | none => M.fail
  | .moduleWithInterface submod_decl interface => do
    let i ← getInstr submod_decl
    match i with
    | .subModule sm =>
      match ctx.modules[sm.module_uuid]? with
      | some md =>
        match md.interfaces[interface]? with
        | some _ => do
          pushErr .expectedPortFoundInterface
          pure none
        | none => M.fail
      | none => M.fail
    | _ => M.fail
  | .wireReference wr => pure (some wr)

/-- `FlatteningContext::alloc_error`: allocate an error wire. -/
def alloc_error : M Nat :=
  allocInstr (.wire { source := .error })

/-- `FlatteningContext::alloc_declaration`: allocate the instruction,
register the name in the innermost frame, and report a conflict with a
cross-reference to the prior declaration (reading it with
`unwrap_wire_declaration`, which panics on a non-declaration). -/
def alloc_declaration (name : String) (inst : Instruction) : M Nat := do
  let inst_id ← allocInstr inst
  let conflict ← addDeclVar name inst_id
  match conflict with
  | some prior => do
    let pi ← getInstr prior
    match pi with
    | .declaration _ => do
      pushErr (.conflictingDeclaration prior)
      pure inst_id
    | _ => M.fail
  | none => pure inst_id

/-- `FlatteningContext::get_interface_reference`: read the submodule
instruction, the referenced module and the interface (each read panics
when the structure is not as expected). Pure reads: the state is
untouched. -/
def get_interface_reference (ctx : Ctx) (ir : ModuleInterfaceReference) :
    M (GlobalModule × Interface) := do
  let i ← getInstr ir.submodule_decl
  match i with
  | .subModule sm =>
    match ctx.modules[sm.module_uuid]? with
    | some md =>
      match md.interfaces[ir.submodule_interface]? with
      | some itf => pure (md, itf)
      | none => M.fail
    | none => M.fail
  | _ => M.fail

/-- The `while arguments.len() < expected` padding loop of
`flatten_func_call`: append `missing` error wires. -/
def padWithErrorWires (args : List Nat) : Nat → M (List Nat)
  | 0 => pure args
  | missing + 1 => do
    let e ← alloc_error
    padWithErrorWires (args ++ [e]) missing

mutual

/-- `FlatteningContext::flatten_expr`. -/
def flatten_expr : Nat → Ctx → Expr → M Nat
  | 0, _, _ => M.fail
  | n + 1, ctx, e =>
    match e with
    | .num v => allocInstr (.wire { source := .constant (.integer v) })
    | .unaryOp op right => do
      let r ← flatten_expr n ctx right
      allocInstr (.wire { source := .unaryOp op r })
    | .binaryOp op left right => do
      let l ← flatten_expr n ctx left
      let r ← flatten_expr n ctx right
      allocInstr (.wire { source := .binaryOp op l r })
    | .funcCall callee args => do
      let fc? ← flatten_func_call n ctx callee args
      match fc? with
      | some fc_id => do
        let fci ← getInstr fc_id
        match fci with
        | .funcCall fc => do
          let mi ← get_interface_reference ctx fc.interface_reference
          if mi.2.func_call_outputs.len ≠ 1 then
            pushErr .mustReturnOneResult
          if mi.2.func_call_outputs.len ≥ 1 then
            allocInstr (.wire { source := .wireRef (WireReference.simple_port
              { submodule_decl := fc.interface_reference.submodule_decl,
                port := mi.2.func_call_outputs.rstart,
                is_input := false }) })
          else
            allocInstr (.wire { source := .error })
        | _ => M.fail
      | none => allocInstr (.wire { source := .error })
    | .paren inner => flatten_expr n ctx inner
    | .globalIdent _ | .arrayOp _ _ | .fieldAccess _ _ => do
      let pwr ← flatten_wire_reference n ctx e
      let wr? ← expect_wireref ctx pwr
      match wr? with
      | some wr => allocInstr (.wire { source := .wireRef wr })
      | none => allocInstr (.wire { source := .error })

/-- `FlatteningContext::flatten_wire_reference`. -/
def flatten_wire_reference : Nat → Ctx → Expr → M PartialWireReference
  | 0, _, _ => M.fail
  | n + 1, ctx, e =>
    match e with
    | .globalIdent name => do
      let local? ← lookupVar name
      match local? with
      | some decl_id => do
        let i ← getInstr decl_id
        match i with
        | .subModule _ => pure (.moduleButNoPort decl_id)
        | .declaration _ =>
          pure (.wireReference { root := .localDecl decl_id, path := [] })
        | _ => M.fail
      | none =>
        match resolveGlobal ctx name with
        | some (.constant cst) =>
          pure (.wireReference { root := .namedConstant cst, path := [] })
        | some (.typ _) | none => do
          pushErr (.notExpectedGlobal "named wire: local or constant")
          pure .error
        | some (.module md_id) => pure (.globalModuleName md_id)
    | .arrayOp arr idx => do
      let flattened_arr_expr ← flatten_wire_reference n ctx arr
      let i ← flatten_array_bracket n ctx idx
      match flattened_arr_expr with
      | .moduleButNoPort _ | .globalModuleName _ | .moduleWithInterface _ _ =>
        M.fail
      | .error => pure .error
      | .wireReference wr =>
        pure (.wireReference { wr with path := wr.path ++ [.arrayAccess i] })
    | .fieldAccess left pname => do
      let flattened_arr_expr ← flatten_wire_reference n ctx left
      match flattened_arr_expr with
      | .error => pure .error
      | .globalModuleName _ => do
        pushErr .portsOnExplicitModules
        pure .error
      | .moduleWithInterface _ _ => do
        pushErr .omitInterfaceOnPortAccess
        pure .error
      | .moduleButNoPort submodule_decl => do
        let i ← getInstr submodule_decl
        match i with
        | .subModule sm =>
          match ctx.modules[sm.module_uuid]? with
          | some submod =>
            match get_port_or_interface_by_name submod pname with
            | some (.port port) =>
              match submod.gports[port]? with
              | some gp =>
                let port_info : PortInfo :=
                  { submodule_decl := submodule_decl, port := port,
                    is_input := gp.is_input }
                pure (.wireReference { root := .subModulePort port_info, path := [] })
              | none => M.fail
            | some (.interface itf) =>
              pure (.moduleWithInterface submodule_decl itf)
            | none => do
              pushErr (.noSuchPortOrInterface pname submod.gname)
              pure .error
          | none => M.fail
        | _ => M.fail
      | .wireReference _ =>
        pure .error
    | .num _ => do
      pushErr .constantNotWireRef
      pure .error
    | .unaryOp _ _ => do
      pushErr .operatorNotWireRef
      pure .error
    | .binaryOp _ _ _ => do
      pushErr .operatorNotWireRef
      pure .error
    | .funcCall _ _ => do
      pushErr .callNotWireRef
      pure .error
    | .paren _ => do
      pushErr .parensNotWireRef
      pure .error

/-- `FlatteningContext::flatten_array_bracket` (the bracket span is
diagnostic metadata). -/
def flatten_array_bracket : Nat → Ctx → Expr → M Nat
  | 0, _, _ => M.fail
  | n + 1, ctx, e => flatten_expr n ctx e

/-- `FlatteningContext::get_or_alloc_module`. -/
def get_or_alloc_module : Nat → Ctx → Expr → M (Option ModuleInterfaceReference)
  | 0, _, _ => M.fail
  | n + 1, ctx, e => do
    let pwr ← flatten_wire_reference n ctx e
    match pwr with
    | .error => pure none
    | .globalModuleName module_uuid => do
      let submodule_decl ← allocInstr (.subModule
        { module_uuid := module_uuid, name := none })
      pure (some { submodule_decl := submodule_decl,
                   submodule_interface := MAIN_INTERFACE_ID })
    | .moduleButNoPort submodule_decl =>
      pure (some { submodule_decl := submodule_decl,
                   submodule_interface := MAIN_INTERFACE_ID })
    | .moduleWithInterface submodule_decl interface =>
      pure (some { submodule_decl := submodule_decl,
                   submodule_interface := interface })
    | .wireReference _ => do
      pushErr .funcCallOnNonModule
      pure none

/-- The `collect_list` of argument expressions in `flatten_func_call`. -/
def flattenArgList : Nat → Ctx → List Expr → M (List Nat)
  | 0, _, _ => M.fail
  | _ + 1, _, [] => pure []
  | n + 1, ctx, e :: rest => do
    let id ← flatten_expr n ctx e
    let ids ← flattenArgList n ctx rest
    pure (id :: ids)

/-- `FlatteningContext::flatten_func_call`. -/
def flatten_func_call : Nat → Ctx → Expr → List Expr → M (Option Nat)
  | 0, _, _, _ => M.fail
  | n + 1, ctx, callee, args => do
    let interface_reference? ← get_or_alloc_module n ctx callee
    let arguments ← flattenArgList n ctx args
    match interface_reference? with
    | none => pure none
    | some interface_reference => do
      let mi ← get_interface_reference ctx interface_reference
      let func_call_inputs := mi.2.func_call_inputs
      let func_call_outputs := mi.2.func_call_outputs
      let arg_count := arguments.length
      let expected_arg_count := func_call_inputs.len
      let arguments ←
        if arg_count ≠ expected_arg_count then
          if arg_count > expected_arg_count then do
            match arguments[expected_arg_count]?, arguments.getLast? with
            | some firstExcess, some lastArg => do
              let w1 ← getInstr firstExcess
              let w2 ← getInstr lastArg
              match w1, w2 with
              | .wire _, .wire _ => do
                pushErr (.excessArgs expected_arg_count arg_count)
                pure (arguments.take expected_arg_count)
              | _, _ => M.fail
            | _, _ => M.fail
          else do
            pushErr (.tooFewArgs expected_arg_count arg_count)
            padWithErrorWires arguments (expected_arg_count - arg_count)
        else
          pure arguments
      let fc_id ← allocInstr (.funcCall
        { interface_reference := interface_reference,
          arguments := arguments,
          func_call_inputs := func_call_inputs,
          func_call_outputs := func_call_outputs })
      pure (some fc_id)

/-- `FlatteningContext::flatten_type`. -/
def flatten_type : Nat → Ctx → TypeExpr → M WrittenType
  | 0, _, _ => M.fail
  | n + 1, ctx, t =>
    match t with
    | .tglobal name =>
      match resolveGlobal ctx name with
      | some (.typ typ_id) => pure (.named typ_id)
      | some _ => do
        pushErr (.notExpectedGlobal "Type")
        pure .error
      | none => pure .error
    | .tarray elem size => flatten_array_type n ctx elem size

/-- `FlatteningContext::flatten_array_type`. -/
def flatten_array_type : Nat → Ctx → TypeExpr → Expr → M WrittenType
  | 0, _, _, _ => M.fail
  | n + 1, ctx, elem, size => do
    let array_element_type ← flatten_type n ctx elem
    let array_size_wire_id ← flatten_array_bracket n ctx size
    pure (.array array_element_type array_size_wire_id)

/-- `FlatteningContext::flatten_module_or_type`. -/
def flatten_module_or_type : Nat → Ctx → Bool → TypeExpr → M ModuleOrWrittenType
  | 0, _, _, _ => M.fail
  | n + 1, ctx, allowModules, t =>
    match t with
    | .tglobal name =>
      match resolveGlobal ctx name with
      | some (.typ typ_id) => pure (.writtenType (.named typ_id))
      | some (.module md) =>
        if allowModules then pure (.moduleRef md)
        else do
          pushErr (.notExpectedGlobal "Type")
          pure (.writtenType .error)
      | some (.constant _) => do
        pushErr (.notExpectedGlobal (if allowModules then "Type or Module" else "Type"))
        pure (.writtenType .error)
      | none => pure (.writtenType .error)
    | .tarray elem size => do
      let wt ← flatten_array_type n ctx elem size
      pure (.writtenType wt)

end

/-- The `is_input_port` computation at the top of
`FlatteningContext::flatten_declaration`: the declaration context
decides how the optional `input`/`output` prefix combines (with its
diagnostics). -/
def decl_is_input_port (declaration_context : DeclarationContext)
    (d : DeclAST) : M (Option Bool) :=
  match declaration_context with
  | .input | .output => do
    if d.io_kw.isSome then
      pushErr .redeclareIoKw
    pure (some (decide (declaration_context = DeclarationContext.input)))
  | .forLoopGenerative => do
    if d.io_kw.isSome then
      pushErr .ioOnForIterator
    pure none
  | .plainWire =>
    match d.io_kw with
    | some b => pure (some b)
    | none => pure none

/-- The `identifier_type` computation of
`FlatteningContext::flatten_declaration`: combine the declaration
context with the `state`/`gen` modifier, diagnosing invalid
combinations. -/
def decl_identifier_type (declaration_context : DeclarationContext)
    (is_input_port : Option Bool) (d : DeclAST) : M IdentifierType :=
  match declaration_context with
  | .input | .output | .plainWire =>
    match d.modifiers with
    | some .state => do
      if is_input_port = some true then
        pushErr .stateOnInput
      pure IdentifierType.state
    | some .gen => do
      if is_input_port.isSome then
        pushErr .genOnIoKw
      pure IdentifierType.generative
    | none => pure IdentifierType.local
  | .forLoopGenerative => do
    if d.modifiers.isSome then
      pushErr .modifierOnForIterator
    pure IdentifierType.generative

/-- The latency-specifier computation of
`FlatteningContext::flatten_declaration`: flatten the optional latency
expression. -/
def decl_latency (n : Nat) (ctx : Ctx) (lat : Option Expr) : M (Option Nat) :=
  match lat with
  | some le => do
    let l ← flatten_expr n ctx le
    pure (some l)
  | none => pure (none : Option Nat)

/-- `FlatteningContext::flatten_declaration::<ALLOW_MODULES>` (body;
the `is_input_port`, `identifier_type` and latency computations are the
named helpers above). The type is flattened (possibly resolving to a
module when `allowModules`) and the declaration (or submodule)
instruction is allocated and registered. A port declaration
additionally pops the next pending port, asserts the name spans match,
and stores the new instruction ID as that port's
`declaration_instruction`. -/
def flatten_declaration (n : Nat) (ctx : Ctx)
    (declaration_context : DeclarationContext) (read_only : Bool)
    (declaration_itself_is_not_written_to : Bool) (allowModules : Bool)
    (d : DeclAST) : M Nat := do
  let is_input_port : Option Bool ← decl_is_input_port declaration_context d
  let identifier_type : IdentifierType ←
    decl_identifier_type declaration_context is_input_port d
  let typ_or_module_expr ← flatten_module_or_type n ctx allowModules d.typ
  let span_latency_specifier ← decl_latency n ctx d.latency
  match typ_or_module_expr with
  | .moduleRef module_uuid => do
    if span_latency_specifier.isSome then
      pushErr .latencyOnModule
    alloc_declaration d.dname (.subModule
      { module_uuid := module_uuid, name := some d.dname })
  | .writtenType typ_expr => do
    let decl_id ← alloc_declaration d.dname (.declaration
      { typ_expr := typ_expr,
        name := d.dname,
        name_span := d.name_span,
        read_only := read_only,
        declaration_itself_is_not_written_to := declaration_itself_is_not_written_to,
        is_input_port := is_input_port,
        identifier_type := identifier_type,
        latency_specifier := span_latency_specifier })
    if is_input_port.isSome then do
      let this_port_id ← popPort
      assignPort ctx this_port_id d.name_span decl_id
    pure decl_id

/-- `FlatteningContext::flatten_write_modifiers`: count `reg` and
`initial` keywords; `(0, n)` is a connection through `n` registers,
`(1, 0)` is an initial write, and any other combination is
`unreachable!()`. An absent `write_modifiers` field is a plain
connection. -/
def flatten_write_modifiers (mods : Option (List WModKW)) : M WriteModifiers :=
  match mods with
  | some lst =>
    let initial_count := lst.countP (fun k => k = WModKW.initialKw)
    let reg_count := lst.countP (fun k => k = WModKW.reg)
    match initial_count, reg_count with
    | 0, num_regs => pure (.connection num_regs)
    | 1, 0 => pure .initialValue
    | _, _ => M.fail
  | none => pure (.connection 0)

/-- `FlatteningContext::flatten_assignment_left_side`: flatten each
`assign_to` item to an optional `(WireReference, WriteModifiers)` pair
(the span component of the source's result is diagnostic metadata). -/
def flatten_assignment_left_side (n : Nat) (ctx : Ctx) :
    List AssignLeftItem → M (List (Option (WireReference × WriteModifiers)))
  | [] => pure []
  | item :: rest => do
    let write_modifiers ← flatten_write_modifiers item.write_modifiers
    let entry ←
      match item.target with
      | .decl d => do
        let root ← flatten_declaration n ctx .plainWire false true false d
        let ri ← getInstr root
        match ri with
        | .declaration _ =>
          pure (some ({ root := .localDecl root, path := [] }, write_modifiers))
        | _ => M.fail
      | .expr e => do
        let pwr ← flatten_wire_reference n ctx e
        let wire_ref? ← expect_wireref ctx pwr
        match wire_ref? with
        | some wire_ref => pure (some (wire_ref, write_modifiers))
        | none => pure none
    let restEntries ← flatten_assignment_left_side n ctx rest
    pure (entry :: restEntries)

/-- The output-pairing loop of `flatten_assign_function_call`: for each
output port of the called interface, pair it with the next target; a
present target gets a fresh wire reading the port and a `Write`. Returns
the leftover targets. -/
def emitOutputWrites (submodule_decl : Nat) :
    List Nat → List (Option (WireReference × WriteModifiers)) →
    M (List (Option (WireReference × WriteModifiers)))
  | _, [] => pure []
  | [], rest => pure rest
  | port :: ports, t :: ts => do
    match t with
    | some (to_ref, write_modifiers) => do
      let from_id ← allocInstr (.wire { source := .wireRef (WireReference.simple_port
        { submodule_decl := submodule_decl, port := port, is_input := false }) })
      let _ ← allocInstr (.write
        { from_ := from_id, to_ := to_ref, write_modifiers := write_modifiers })
      emitOutputWrites submodule_decl ports ts
    | none => emitOutputWrites submodule_decl ports ts

/-- The leftover loop of `flatten_assign_function_call`: every remaining
present target is written from a fresh error wire. -/
def emitLeftoverWrites :
    List (Option (WireReference × WriteModifiers)) → M Unit
  | [] => pure ()
  | t :: ts => do
    match t with
    | some (to_ref, write_modifiers) => do
      let err_id ← allocInstr (.wire { source := .error })
      let _ ← allocInstr (.write
        { from_ := err_id, to_ := to_ref, write_modifiers := write_modifiers })
      emitLeftoverWrites ts
    | none => emitLeftoverWrites ts

/-- `FlatteningContext::flatten_assign_function_call`. -/
def flatten_assign_function_call (n : Nat) (ctx : Ctx)
    (to_ : List (Option (WireReference × WriteModifiers)))
    (callee : Expr) (args : List Expr) : M Unit := do
  let fc? ← flatten_func_call n ctx callee args
  let leftover ←
    match fc? with
    | some fc_id => do
      let fci ← getInstr fc_id
      match fci with
      | .funcCall fc => do
        let mi ← get_interface_reference ctx fc.interface_reference
        let outputs := mi.2.func_call_outputs
        let submodule_decl := fc.interface_reference.submodule_decl
        let num_func_outputs := outputs.len
        let num_targets := to_.length
        if num_targets ≠ num_func_outputs then
          if num_targets > num_func_outputs then
            pushErr (.excessOutputTargets num_func_outputs num_targets)
          else
            pushErr (.tooFewOutputTargets num_func_outputs num_targets)
        emitOutputWrites submodule_decl outputs.toList to_
      | _ => M.fail
    | none => pure to_
  emitLeftoverWrites leftover

/-- The warning prefix of each `flatten_standalone_decls` iteration:
warn on every item after the first and reject write modifiers. -/
def standalone_warns (is_first_item : Bool) (item : AssignLeftItem) : M Unit := do
  if ¬is_first_item then
    pushErr .standaloneWarnOwnLine
  if item.write_modifiers.isSome then
    pushErr .writeModifiersNotAllowedHere

/-- `FlatteningContext::flatten_standalone_decls` (body; the two
diagnostic warnings are the named helper above); iterates the
`assign_left_side` items, flattening a declaration (modules allowed), a
function call with no targets, or a normal unused expression. -/
def flatten_standalone_decls (n : Nat) (ctx : Ctx) :
    Bool → List AssignLeftItem → M Unit
  | _, [] => pure ()
  | is_first_item, item :: rest => do
    standalone_warns is_first_item item
    match item.target with
    | .decl d => do
      let _ ← flatten_declaration n ctx .plainWire false true true d
      flatten_standalone_decls n ctx false rest
    | .expr e =>
      match e with
      | .funcCall callee args => do
        flatten_assign_function_call n ctx [] callee args
        flatten_standalone_decls n ctx false rest
      | _ => do
        pushErr .resultUnused
        let _ ← flatten_expr n ctx e
        flatten_standalone_decls n ctx false rest

/-- `FlatteningContext::flatten_declaration_list`. -/
def flatten_declaration_list (n : Nat) (ctx : Ctx)
    (declaration_context : DeclarationContext) (read_only : Bool) :
    List DeclAST → M Unit
  | [] => pure ()
  | d :: rest => do
    let _ ← flatten_declaration n ctx declaration_context read_only true false d
    flatten_declaration_list n ctx declaration_context read_only rest

/-- `FlatteningContext::flatten_interface_ports`: inputs are read-only,
outputs are not. -/
def flatten_interface_ports (n : Nat) (ctx : Ctx) (ip : InterfacePortsAST) : M Unit := do
  match ip.inputs with
  | some ds => flatten_declaration_list n ctx .input true ds
  | none => pure ()
  match ip.outputs with
  | some ds => flatten_declaration_list n ctx .output false ds
  | none => pure ()

mutual

/-- `FlatteningContext::flatten_code`: a fresh variable frame around
`flatten_code_keep_context`. -/
def flatten_code : Nat → Ctx → List Stmt → M Unit
  | 0, _, _ => M.fail
  | n + 1, ctx, body => do
    newFrame
    flatten_code_keep_context n ctx body
    popFrame

/-- `FlatteningContext::flatten_code_keep_context`: the statement list
walk. -/
def flatten_code_keep_context : Nat → Ctx → List Stmt → M Unit
  | 0, _, _ => M.fail
  | _ + 1, _, [] => pure ()
  | n + 1, ctx, stmt :: rest => do
    match stmt with
    | .assignLeftSide items =>
      flatten_standalone_decls n ctx true items
    | .declAssign assign_left assign_value => do
      let to_ ← flatten_assignment_left_side n ctx assign_left
      match assign_value with
      | .funcCall callee args =>
        flatten_assign_function_call n ctx to_ callee args
      | _ => do
        let read_side ← flatten_expr n ctx assign_value
        if to_.length ≠ 1 then
          pushErr (.nonFunctionAssignmentWrongTargetCount to_.length)
        match to_.head? with
        | some (some (to_ref, write_modifiers)) => do
          let _ ← allocInstr (.write
            { from_ := read_side, to_ := to_ref, write_modifiers := write_modifiers })
          pure ()
        | _ => pure ()
    | .block body =>
      flatten_code n ctx body
    | .ifStmt condition then_block else_block =>
      flatten_if_statement n ctx condition then_block else_block
    | .forStmt for_decl fromE toE body => do
      newFrame
      let loop_var_decl ← flatten_declaration n ctx .forLoopGenerative true true false for_decl
      let start ← flatten_expr n ctx fromE
      let end_id ← flatten_expr n ctx toE
      let for_id ← allocInstr (.forStatement
        { loop_var_decl := loop_var_decl, start := start, end_ := end_id,
          loop_body := none })
      let code_start ← nextAllocId
      flatten_code_keep_context n ctx body
      let code_end ← nextAllocId
      let cur ← getInstr for_id
      match cur with
      | .forStatement for_stmt =>
        setInstr for_id (.forStatement { for_stmt with loop_body := some (code_start, code_end) })
      | _ => M.fail
      popFrame
    | .interfaceStmt _ iports => do
      match iports with
      | some ip => flatten_interface_ports n ctx ip
      | none => pure ()
    flatten_code_keep_context n ctx rest

/-- `FlatteningContext::flatten_if_statement`: allocate the
`IfStatement` with placeholder bounds, flatten the then block, the
optional else branch (possibly a chained if), and back-patch the
bounds. -/
def flatten_if_statement : Nat → Ctx → Expr → List Stmt → ElseClause → M Unit
  | 0, _, _, _, _ => M.fail
  | n + 1, ctx, condition_e, then_block, else_block => do
    let condition ← flatten_expr n ctx condition_e
    let if_id ← allocInstr (.ifStatement
      { condition := condition, then_start := none,
        then_end_else_start := none, else_end := none })
    let then_start ← nextAllocId
    flatten_code n ctx then_block
    let then_end_else_start ← nextAllocId
    match else_block with
    | .noElse => pure ()
    | .elseIf c t e => flatten_if_statement n ctx c t e
    | .elseBlock body => flatten_code n ctx body
    let else_end ← nextAllocId
    let cur ← getInstr if_id
    match cur with
    | .ifStatement if_stmt =>
      let patched : IfStatement :=
        { if_stmt with
          then_start := some then_start,
          then_end_else_start := some then_end_else_start,
          else_end := some else_end }
      setInstr if_id (.ifStatement patched)
    | _ => M.fail

end

/-- `FlatteningContext::flatten_module`: flatten the header interface
ports, then the body block. -/
def flatten_module (n : Nat) (ctx : Ctx) (m : ModuleAST) : M Unit := do
  match m.interface_ports with
  | some ip => flatten_interface_ports n ctx ip
  | none => pure ()
  flatten_code n ctx m.body

/-- The per-module entry point `flatten`: build the context with
`ports_to_visit` covering the module's port range, flatten the module,
and `assert!(ports_to_visit.is_empty())`. Returns the final flattening
state on success. -/
def initFState (ctx : Ctx) : FState :=
  { instructions := [],
    scopes := [[]],
    errors := [],
    portsToVisit := List.range ctx.ports.length,
    portDecls := List.replicate ctx.ports.length none,
    portWrites := List.replicate ctx.ports.length 0 }

def flatten (n : Nat) (ctx : Ctx) (m : ModuleAST) : Option FState :=
  match flatten_module n ctx m (initFState ctx) with
  | some (_, s') => if s'.portsToVisit = [] then some s' else none
  | none => none

/-! ## Panic-time span history (from `src/debug.rs`)

A thread-local circular buffer of the last 256 byte ranges touched by IR
operations, dumped (deduplicated, at most 10, most recent first) when a
panic unwinds a guarded region. Byte ranges (`Range<usize>`) are pairs
of naturals. -/

/-- `SPAN_TOUCH_HISTORY_SIZE`. -/
def SPAN_TOUCH_HISTORY_SIZE : Nat := 256

/-- `NUM_SPANS_TO_PRINT`. -/
def NUM_SPANS_TO_PRINT : Nat := 10

/-- `DEFAULT_RANGE` (`usize::MAX..usize::MAX`). -/
def DEFAULT_RANGE : Nat × Nat := (18446744073709551615, 18446744073709551615)

/-- `TouchedSpansHistory`: the fixed-size circular buffer, the running
span counter, and the in-use flag of the single active
`SpanDebugger`. -/
structure TouchedSpansHistory where
  span_history : List (Nat × Nat)
  num_spans : Nat
  in_use : Bool
deriving DecidableEq, Repr

/-- The initial thread-local value of `SPANS_HISTORY`. -/
def initSpansHistory : TouchedSpansHistory :=
  { span_history := List.replicate SPAN_TOUCH_HISTORY_SIZE DEFAULT_RANGE,
    num_spans := 0,
    in_use := false }

/-- `add_debug_span`: write the range at `num_spans % 256` and bump the
counter. -/
def add_debug_span (span_rng : Nat × Nat) (h : TouchedSpansHistory) :
    TouchedSpansHistory :=
  { h with
    span_history := h.span_history.set (h.num_spans % SPAN_TOUCH_HISTORY_SIZE) span_rng,
    num_spans := h.num_spans + 1 }

/-- The `while cur_i > end_at` loop of `print_most_recent_spans`:
walk the indices downwards, skip ranges already collected, stop once
`NUM_SPANS_TO_PRINT` are collected. -/
def spansPrintLoop (sh : List (Nat × Nat)) (end_at : Nat) :
    Nat → List (Nat × Nat) → List (Nat × Nat)
  | 0, acc => acc
  | cur_i + 1, acc =>
    if cur_i + 1 > end_at then
      let grabbed_span := sh.getD (cur_i % SPAN_TOUCH_HISTORY_SIZE) DEFAULT_RANGE
      let acc' := if grabbed_span ∈ acc then acc else acc ++ [grabbed_span]
      if acc'.length ≥ NUM_SPANS_TO_PRINT then acc'
      else spansPrintLoop sh end_at cur_i acc'
    else acc

/-- `print_most_recent_spans`: assert the history is in use and collect
the spans to print (the printing itself is I/O). -/
def print_most_recent_spans (h : TouchedSpansHistory) : Option (List (Nat × Nat)) :=
  if h.in_use then
    let end_at := if h.num_spans > SPAN_TOUCH_HISTORY_SIZE
      then h.num_spans - SPAN_TOUCH_HISTORY_SIZE else 0
    some (spansPrintLoop h.span_history end_at h.num_spans [])
  else none

/-- `SpanDebugger::new`: assert no other `SpanDebugger` is live on this
thread, mark the history in use and reset the span counter. -/
def SpanDebugger_new (h : TouchedSpansHistory) : Option TouchedSpansHistory :=
  if h.in_use then none
  else some { h with in_use := true, num_spans := 0 }

/-- `SpanDebugger::defuse`: assert the history is in use and release
it. -/
def SpanDebugger_defuse (h : TouchedSpansHistory) : Option TouchedSpansHistory :=
  if h.in_use then some { h with in_use := false }
  else none

/-- One thread-local operation on the span history. -/
inductive SDOp where
  | newSD
  | defuseSD
  | touch (rng : Nat × Nat)
deriving DecidableEq, Repr

/-- Run one operation (`none` is a failed assertion). -/
def runSDOp (h : TouchedSpansHistory) : SDOp → Option TouchedSpansHistory
  | .newSD => SpanDebugger_new h
  | .defuseSD => SpanDebugger_defuse h
  | .touch rng => some (add_debug_span rng h)

/-- Run a sequence of operations. -/
def runSDOps (h : TouchedSpansHistory) : List SDOp → Option TouchedSpansHistory
  | [] => some h
  | op :: rest =>
    match runSDOp h op with
    | some h' => runSDOps h' rest
    | none => none

/-- A guarded region, as `add_file`, `update_file`,
`flatten_all_modules` and `recompile_all` produce them: construct the
`SpanDebugger`, touch some spans, defuse. -/
def guardedRegion (adds : List (Nat × Nat)) : List SDOp :=
  SDOp.newSD :: (adds.map SDOp.touch ++ [SDOp.defuseSD])

/-- The operation sequence of a whole flow: one guarded region after
another (each `SpanDebugger` defused before the next is created). -/
def regionsOps (regions : List (List (Nat × Nat))) : List SDOp :=
  (regions.map guardedRegion).flatten

/-- Record a list of spans into a freshly guarded history (the state of
`SPANS_HISTORY` right after `SpanDebugger::new`, then one
`add_debug_span` per span, oldest first). -/
def recordSpans (rngs : List (Nat × Nat)) : TouchedSpansHistory :=
  rngs.foldl (fun h r => add_debug_span r h) { initSpansHistory with in_use := true }

/-! ## `Module::get_port_by_name` (from `src/flattening/mod.rs`)

The surrounding `Module` of `mod.rs` carries more; the function reads
only the port names and the module name (`link_info.name`), and its
`&self` receiver is made explicit by returning the module unchanged. The
`file_text[name_span]` indexing that recovers the name text is file
metadata; the name text is passed directly. -/

structure PortM where
  name : String
deriving DecidableEq, Repr

structure ModuleM where
  link_info_name : String
  ports : List PortM
deriving DecidableEq, Repr

/-- The `for (id, data) in &self.ports` search loop. -/
def get_port_by_name_loop (name_text : String) : List PortM → Nat → Option Nat
  | [], _ => none
  | p :: rest, id => if p.name = name_text then some id
                     else get_port_by_name_loop name_text rest (id + 1)

/-- `Module::get_port_by_name`: return the first port with the given
name, or record one error (naming the missing port and the module) and
return `none`. -/
def ModuleM.get_port_by_name (md : ModuleM) (name_text : String)
    (errors : List Diag) : ModuleM × Option Nat × List Diag :=
  match get_port_by_name_loop name_text md.ports 0 with
  | some id => (md, some id, errors)
  | none => (md, none, errors ++ [.noSuchPort name_text md.link_info_name])

/-! ## Linker and driver (from `src/compiler_top.rs`)

The linker itself (`linker.rs`) and the Initialization pass
(`initialization.rs`) are not under `src/`; they are modelled from the
spec (§3, §4.D, stage 1). Source text is modelled by its parse tree (the
external tree-sitter parser is deterministic, so `parser.parse(&text)`
is the identity on this representation): a file's content is its list of
`module` nodes. -/

/-- Modelled from the spec: which declarations the Initialization pass
registers as ports (§3 "ports (ordered)", §4.G: a declaration fulfils a
pending port exactly when flattening computes `is_input_port.is_some()`,
and `ports_to_visit` hands the ports out in arena order, so
Initialization must discover ports in the same order and with the same
direction logic as the flattening traversal). -/
def collectDeclPort (dctx : DeclarationContext) (d : DeclAST) : List GPort :=
  match dctx with
  | .input => [{ pname := d.dname, name_span := d.name_span, is_input := true }]
  | .output => [{ pname := d.dname, name_span := d.name_span, is_input := false }]
  | .forLoopGenerative => []
  | .plainWire =>
    match d.io_kw with
    | some b => [{ pname := d.dname, name_span := d.name_span, is_input := b }]
    | none => []

/-- Ports declared by the targets of an `assign_left_side` /
`decl_assign_statement` left side (plain-wire context). -/
def collectPortsItems (items : List AssignLeftItem) : List GPort :=
  items.flatMap fun it =>
    match it.target with
    | .decl d => collectDeclPort .plainWire d
    | .expr _ => []

/-- Ports of an `interface_ports` node: inputs then outputs. -/
def collectPortsIP (ip : InterfacePortsAST) : List GPort :=
  (match ip.inputs with
   | some ds => ds.flatMap (collectDeclPort .input)
   | none => []) ++
  (match ip.outputs with
   | some ds => ds.flatMap (collectDeclPort .output)
   | none => [])

mutual

/-- Modelled from the spec: the Initialization walk over a statement
list, discovering ports in flattening order. -/
def collectPortsStmts : Nat → List Stmt → List GPort
  | 0, _ => []
  | _ + 1, [] => []
  | n + 1, stmt :: rest =>
    (match stmt with
     | .assignLeftSide items => collectPortsItems items
     | .declAssign assign_left _ => collectPortsItems assign_left
     | .block body => collectPortsStmts n body
     | .ifStmt _ then_block else_block =>
       collectPortsStmts n then_block ++ collectPortsElse n else_block
     | .forStmt _ _ _ body => collectPortsStmts n body
     | .interfaceStmt _ iports =>
       match iports with
       | some ip => collectPortsIP ip
       | none => []) ++ collectPortsStmts n rest

/-- Modelled from the spec: the Initialization walk over an else
clause. -/
def collectPortsElse : Nat → ElseClause → List GPort
  | 0, _ => []
  | _ + 1, .noElse => []
  | n + 1, .elseIf _ then_block else_block =>
    collectPortsStmts n then_block ++ collectPortsElse n else_block
  | n + 1, .elseBlock body => collectPortsStmts n body

end

/-- Modelled from the spec: all ports of a module, header interface
first, then body declarations in traversal order. -/
def collectModulePorts (n : Nat) (m : ModuleAST) : List GPort :=
  (match m.interface_ports with
   | some ip => collectPortsIP ip
   | none => []) ++ collectPortsStmts n m.body

/-- Per-module data established by Initialization and preserved by every
later stage (the `after_initial_parse_cp` checkpoint content): name,
parse tree, discovered ports and interfaces, template parameters. -/
structure ModuleInit where
  mname : String
  ast : ModuleAST
  portsInfo : List GPort
  interfaces : List Interface
  template_param_count : Nat

/-- A module in the linker: the Initialization data plus everything the
later stages produce. `portDecls` holds each port's
`declaration_instruction` (not restored by `reset_to`, overwritten by
flattening); `errorsPost` the diagnostics recorded after the
`after_initial_parse_cp` checkpoint. -/
structure LModule where
  initData : ModuleInit
  instructions : List Instruction
  after_flatten_cp : Option Nat
  portDecls : List (Option Nat)
  instantiations : Nat
  errorsPost : List Diag

/-- A file: its source (as parse tree) and its associated modules. -/
structure LFile where
  srcAsts : List ModuleAST
  modules : List LModule

/-- The linker: the file arena. -/
structure Linker where
  files : List LFile

/-- Modelled from the spec: `gather_initial_file_data`
(initialization.rs is not under `src/`): build the `Module` skeletons
for every `module` node of the file — ports in traversal order, the
MAIN interface partitioning the inputs and outputs (§3 invariant 5),
`declaration_instruction` slots at `PLACEHOLDER`. The grammar embedded
here has no template parameters, so their count is zero. -/
def gather_initial_file_data (n : Nat) (asts : List ModuleAST) : List LModule :=
  asts.map fun m =>
    let ports := collectModulePorts n m
    let nIn := ports.countP (fun p => p.is_input)
    { initData :=
        { mname := m.mname,
          ast := m,
          portsInfo := ports,
          interfaces := [{ iname := m.mname,
                           func_call_inputs := { rstart := 0, rstop := nIn },
                           func_call_outputs := { rstart := nIn, rstop := ports.length } }],
          template_param_count := 0 },
      instructions := [],
      after_flatten_cp := none,
      portDecls := List.replicate ports.length none,
      instantiations := 0,
      errorsPost := [] }

/-- All modules of the linker in insertion order (spec §5: flatten and
typecheck visit modules in linker insertion order). -/
def allModuleInits (l : Linker) : List ModuleInit :=
  (l.files.map (fun f => f.modules.map (fun m => m.initData))).flatten

/-- Modelled from the spec: the builtin types the linker registers on
construction (the type arena; `int` and `bool`). -/
def builtinGlobals : List (String × NameElem) :=
  [("int", .typ 0), ("bool", .typ 1)]

/-- The global name table: builtins plus one entry per module. -/
def globalsOf (l : Linker) : List (String × NameElem) :=
  builtinGlobals ++ ((allModuleInits l).enum.map fun p => (p.2.mname, NameElem.module p.1))

/-- The module arena as the read-only resolver sees it. -/
def gmodsOf (l : Linker) : List GlobalModule :=
  (allModuleInits l).map fun mi =>
    { gname := mi.mname, gports := mi.portsInfo, interfaces := mi.interfaces }

/-- The reset loop at the head of `recompile_all`: reset `link_info` to
`after_initial_parse_cp` (which discards the post-Initialization
diagnostics but not the ports' `declaration_instruction` slots), clear
`after_flatten_cp`, clear `instructions`, clear the instantiations. -/
def resetModule (m : LModule) : LModule :=
  { m with
    instructions := [],
    after_flatten_cp := none,
    instantiations := 0,
    errorsPost := [] }

def resetLinker (l : Linker) : Linker :=
  { files := l.files.map fun f => { f with modules := f.modules.map resetModule } }

/-- `flatten_all_modules` over one file's modules: run `flatten` on each
module and store the produced instruction list, port declaration slots,
errors and the `after_flatten_cp` checkpoint. -/
def flattenFileModules (n : Nat) (gms : List GlobalModule)
    (gls : List (String × NameElem)) : List LModule → Option (List LModule)
  | [] => some []
  | md :: rest =>
    match flatten n { modules := gms, globals := gls, ports := md.initData.portsInfo }
        md.initData.ast with
    | some s' =>
      match flattenFileModules n gms gls rest with
      | some rest' =>
        some ({ md with
          instructions := s'.instructions,
          portDecls := s'.portDecls,
          errorsPost := s'.errors,
          after_flatten_cp := some s'.instructions.length } :: rest')
      | none => none
    | none => none

def flattenFiles (n : Nat) (gms : List GlobalModule)
    (gls : List (String × NameElem)) : List LFile → Option (List LFile)
  | [] => some []
  | f :: rest =>
    match flattenFileModules n gms gls f.modules with
    | some mods' =>
      match flattenFiles n gms gls rest with
      | some rest' => some ({ f with modules := mods' } :: rest')
      | none => none
    | none => none

/-- `flatten_all_modules` (from `parse.rs`): flatten every module of
every file against the read-only resolvers. -/
def flatten_all_modules (n : Nat) (l : Linker) : Option Linker :=
  match flattenFiles n (gmodsOf l) (globalsOf l) l.files with
  | some files' => some { files := files' }
  | none => none

/-- Modelled from the spec: `typecheck_all_modules` (typechecking.rs is
not under `src/`). Stage 2.2 decorates every instruction with its
abstract type and compile-time flag (§4.H); those decoration slots are
unset during flattening and not part of the untyped IR modelled here,
so on this IR the pass is the identity decoration of each module's
instruction list. -/
def typecheckInstrs (l : List Instruction) : List Instruction := l

def typecheck_all_modules (l : Linker) : Linker :=
  { files := l.files.map fun f =>
    { f with modules := f.modules.map fun m =>
      { m with instructions := typecheckInstrs m.instructions } } }

/-- The initial-instantiation loop of `recompile_all`: every module
whose template-argument list is empty gets one instantiation. -/
def instantiateAll (l : Linker) : Linker :=
  { files := l.files.map fun f =>
    { f with modules := f.modules.map fun m =>
      if m.initData.template_param_count = 0 then { m with instantiations := 1 } else m } }

/-- `recompile_all`: reset every module to its
`after_initial_parse_cp`, flatten all modules, typecheck all modules,
instantiate all parameter-free modules. `none` is a panic of one of the
passes. -/
def recompile_all (n : Nat) (l : Linker) : Option Linker :=
  match flatten_all_modules n (resetLinker l) with
  | some l' => some (instantiateAll (typecheck_all_modules l'))
  | none => none

/-- `add_file`: parse the text (the identity on this representation),
reserve and fill a file slot, and run Initialization on the new file.
Returns the new file's ID. -/
def add_file (n : Nat) (asts : List ModuleAST) (l : Linker) : Linker × Nat :=
  ({ files := l.files ++ [{ srcAsts := asts, modules := gather_initial_file_data n asts }] },
   l.files.length)

/-- `update_file`: `remove_everything_in_file` (every entity owned by
the file leaves the arenas), re-parse, re-run Initialization; the file
slot is rebuilt from the new text alone. -/
def update_file (n : Nat) (asts : List ModuleAST) (file_id : Nat) (l : Linker) : Linker :=
  { files := l.files.set file_id
      { srcAsts := asts, modules := gather_initial_file_data n asts } }

/-! ## Dependency structure of instructions

`instrDeps` enumerates every `Nat` stored inside an instruction
except the back-patched range bounds of `IfStatement` / `ForStatement`
(the published ranges, which the spec treats separately): it extends
`WireSource::for_each_dependency` of `mod.rs` to every instruction
variant, following spec §3 invariant 1 and §8. -/

def wrPathDeps (path : List WireReferencePathElement) : List Nat :=
  path.map fun pe => match pe with | .arrayAccess idx => idx

def wrRootDeps : WireReferenceRoot → List Nat
  | .localDecl decl => [decl]
  | .namedConstant _ => []
  | .subModulePort p => [p.submodule_decl]

def wrDeps (wr : WireReference) : List Nat :=
  wrRootDeps wr.root ++ wrPathDeps wr.path

def sourceDeps : WireSource → List Nat
  | .wireRef wr => wrDeps wr
  | .unaryOp _ right => [right]
  | .binaryOp _ left right => [left, right]
  | .constant _ => []
  | .error => []

def wtDeps : WrittenType → List Nat
  | .named _ => []
  | .error => []
  | .array elem size_wire => wtDeps elem ++ [size_wire]

def instrDeps : Instruction → List Nat
  | .subModule _ => []
  | .declaration d => wtDeps d.typ_expr ++
      (match d.latency_specifier with | some l => [l] | none => [])
  | .wire w => sourceDeps w.source
  | .write w => w.from_ :: wrDeps w.to_
  | .ifStatement s => [s.condition]
  | .forStatement s => [s.loop_var_decl, s.start, s.end_]
  | .funcCall fc => fc.interface_reference.submodule_decl :: fc.arguments

/-- The published range bounds of a control instruction at index `i` in
a list of length `len` are real (non-placeholder), start after the
instruction itself, are ordered, and stay inside the list — i.e. they
designate the flattened then/else/body blocks. Non-control instructions
carry no ranges. -/
def RangeProper (i : Nat) (inst : Instruction) (len : Nat) : Prop :=
  match inst with
  | .ifStatement st => ∃ a b c, st.then_start = some a ∧
      st.then_end_else_start = some b ∧ st.else_end = some c ∧
      i < a ∧ a ≤ b ∧ b ≤ c ∧ c ≤ len
  | .forStatement st => ∃ a b, st.loop_body = some (a, b) ∧ i < a ∧ a ≤ b ∧ b ≤ len
  | _ => True

/-- A control instruction whose range bounds are still the allocation
placeholders. -/
def PlaceholderCtrl : Instruction → Prop
  | .ifStatement st => st.then_start = none ∧ st.then_end_else_start = none ∧
      st.else_end = none
  | .forStatement st => st.loop_body = none
  | _ => False

/-- Erase the back-patched range bounds. -/
def stripRanges : Instruction → Instruction
  | .ifStatement st =>
    .ifStatement
      { st with
        then_start := none
        then_end_else_start := none
        else_end := none }
  | .forStatement st => .forStatement { st with loop_body := none }
  | i => i

/-- How an already-allocated instruction may change while flattening
continues: not at all, or a placeholder control instruction gets its
bounds filled. -/
def Evolves (a b : Instruction) : Prop :=
  a = b ∨ (PlaceholderCtrl a ∧ stripRanges b = a)

theorem Evolves.erefl (a : Instruction) : Evolves a a := Or.inl (Eq.refl a)

theorem stripRanges_placeholder {a : Instruction} (h : PlaceholderCtrl a) :
    stripRanges a = a := by
  cases a with
  | ifStatement st =>
    obtain ⟨c, t1, t2, t3⟩ := st
    obtain ⟨h1, h2, h3⟩ := h
    subst h1; subst h2; subst h3
    rfl
  | forStatement st =>
    obtain ⟨l, s, e, b⟩ := st
    have h' : b = none := h
    subst h'
    rfl
  | subModule sm => simp [stripRanges]
  | declaration d => simp [stripRanges]
  | wire w => simp [stripRanges]
  | write w => simp [stripRanges]
  | funcCall fc => simp [stripRanges]

theorem Evolves.etrans {a b c : Instruction} (h1 : Evolves a b) (h2 : Evolves b c) :
    Evolves a c := by
  rcases h1 with h1 | ⟨hpa, hsb⟩
  · subst h1; exact h2
  · rcases h2 with h2 | ⟨hpb, hsc⟩
    · subst h2; exact Or.inr ⟨hpa, hsb⟩
    · have hb : b = a := by
        have := stripRanges_placeholder hpb
        rw [← hsb, this]
      subst hb
      exact Or.inr ⟨hpa, hsc⟩

theorem instrDeps_stripRanges (a : Instruction) : instrDeps (stripRanges a) = instrDeps a := by
  cases a <;> simp [stripRanges, instrDeps]

theorem Evolves.deps_eq {a b : Instruction} (h : Evolves a b) :
    instrDeps b = instrDeps a := by
  rcases h with h | ⟨_, hs⟩
  · rw [h]
  · rw [← hs, instrDeps_stripRanges]

theorem Evolves.declaration_eq {d : Declaration} {b : Instruction}
    (h : Evolves (.declaration d) b) : b = .declaration d := by
  rcases h with h | ⟨hp, _⟩
  · exact h.symm
  · exact absurd hp (by simp [PlaceholderCtrl])

theorem Evolves.ifStatement_shape {st : IfStatement} {b : Instruction}
    (h : Evolves (.ifStatement st) b) :
    ∃ st' : IfStatement, b = .ifStatement st' ∧ st'.condition = st.condition := by
  rcases h with h | ⟨_, hs⟩
  · exact ⟨st, h.symm, rfl⟩
  · cases b with
    | ifStatement st' =>
      refine ⟨st', rfl, ?_⟩
      have : st'.condition = st.condition := by
        have := congrArg (fun i => match i with
          | Instruction.ifStatement s => s.condition
          | _ => 0) hs
        simpa [stripRanges] using this
      exact this
    | subModule sm => simp [stripRanges] at hs
    | declaration d => simp [stripRanges] at hs
    | wire w => simp [stripRanges] at hs
    | write w => simp [stripRanges] at hs
    | forStatement fs => simp [stripRanges] at hs
    | funcCall fc => simp [stripRanges] at hs

theorem Evolves.forStatement_shape {st : ForStatement} {b : Instruction}
    (h : Evolves (.forStatement st) b) :
    ∃ st' : ForStatement, b = .forStatement st' ∧ st'.loop_var_decl = st.loop_var_decl ∧
      st'.start = st.start ∧ st'.end_ = st.end_ := by
  rcases h with h | ⟨_, hs⟩
  · exact ⟨st, h.symm, rfl, rfl, rfl⟩
  · cases b with
    | forStatement st' =>
      refine ⟨st', rfl, ?_, ?_, ?_⟩
      · have := congrArg (fun i => match i with
          | Instruction.forStatement s => s.loop_var_decl
          | _ => 0) hs
        simpa [stripRanges] using this
      · have := congrArg (fun i => match i with
          | Instruction.forStatement s => s.start
          | _ => 0) hs
        simpa [stripRanges] using this
      · have := congrArg (fun i => match i with
          | Instruction.forStatement s => s.end_
          | _ => 0) hs
        simpa [stripRanges] using this
    | subModule sm => simp [stripRanges] at hs
    | declaration d => simp [stripRanges] at hs
    | wire w => simp [stripRanges] at hs
    | write w => simp [stripRanges] at hs
    | ifStatement is => simp [stripRanges] at hs
    | funcCall fc => simp [stripRanges] at hs

theorem RangeProper.mono {i : Nat} {inst : Instruction} {len len' : Nat}
    (h : RangeProper i inst len) (hle : len ≤ len') : RangeProper i inst len' := by
  cases inst with
  | ifStatement st =>
    obtain ⟨a, b, c, h1, h2, h3, h4, h5, h6, h7⟩ := h
    exact ⟨a, b, c, h1, h2, h3, h4, h5, h6, h7.trans hle⟩
  | forStatement st =>
    obtain ⟨a, b, h1, h2, h3, h4⟩ := h
    exact ⟨a, b, h1, h2, h3, h4.trans hle⟩
  | subModule sm => trivial
  | declaration d => trivial
  | wire w => trivial
  | write w => trivial
  | funcCall fc => trivial

theorem RangeProper.evolves {i : Nat} {a b : Instruction} {len : Nat}
    (h : RangeProper i a len) (he : Evolves a b) : b = a := by
  rcases he with he | ⟨hp, _⟩
  · exact he.symm
  · exfalso
    cases a with
    | ifStatement st =>
      obtain ⟨x, y, z, h1, _⟩ := h
      obtain ⟨p1, _⟩ := hp
      rw [p1] at h1
      exact Option.noConfusion h1
    | forStatement st =>
      obtain ⟨x, y, h1, _⟩ := h
      have hp' : st.loop_body = none := hp
      rw [hp'] at h1
      exact Option.noConfusion h1
    | subModule sm => exact hp
    | declaration d => exact hp
    | wire w => exact hp
    | write w => exact hp
    | funcCall fc => exact hp

/-! ## The flattening invariant

`INV ctx s` holds between any two steps of flattening one module:

* every `Nat` stored in an instruction refers to a strictly earlier
  instruction (range bounds excepted),
* every control instruction either still carries its placeholders or
  already publishes a proper range,
* the pending-port iterator is the suffix of the port range, the ports
  before it each have their `declaration_instruction` stored exactly
  once (pointing at a declaration whose name span matches the port's),
  and the ports from it on are untouched. -/

structure INV (ctx : Ctx) (s : FState) : Prop where
  depsOk : ∀ (i : Nat) (inst : Instruction), s.instructions[i]? = some inst →
    ∀ d ∈ instrDeps inst, d < i
  rangesOk : ∀ (i : Nat) (inst : Instruction), s.instructions[i]? = some inst →
    RangeProper i inst s.instructions.length ∨ PlaceholderCtrl inst
  portDeclsLen : s.portDecls.length = ctx.ports.length
  portWritesLen : s.portWrites.length = ctx.ports.length
  ports : ∃ k, k ≤ ctx.ports.length ∧
    s.portsToVisit = List.range' k (ctx.ports.length - k) ∧
    (∀ i, i < k → s.portWrites[i]? = some 1 ∧
      ∃ d p decl, s.portDecls[i]? = some (some d) ∧ ctx.ports[i]? = some p ∧
        s.instructions[d]? = some (.declaration decl) ∧ decl.name_span = p.name_span) ∧
    (∀ i, k ≤ i → i < ctx.ports.length →
      s.portWrites[i]? = some 0 ∧ s.portDecls[i]? = some none)

/-- How the state evolves across any flattening step: instructions are
only appended or back-patched, and every instruction allocated during
the step has proper ranges by the time the step returns. -/
structure Post (s s' : FState) : Prop where
  len_le : s.instructions.length ≤ s'.instructions.length
  evolves : ∀ (i : Nat) (a : Instruction), s.instructions[i]? = some a →
    ∃ b, s'.instructions[i]? = some b ∧ Evolves a b
  newFilled : ∀ (i : Nat) (a : Instruction), s.instructions.length ≤ i →
    s'.instructions[i]? = some a → RangeProper i a s'.instructions.length

theorem Post.prefl (s : FState) : Post s s where
  len_le := le_refl _
  evolves := fun i a h => ⟨a, h, Evolves.erefl a⟩
  newFilled := fun i a hle h => by
    have : i < s.instructions.length := (List.getElem?_eq_some.mp h).1
    omega

theorem Post.trans {s₁ s₂ s₃ : FState} (p1 : Post s₁ s₂) (p2 : Post s₂ s₃) :
    Post s₁ s₃ where
  len_le := p1.len_le.trans p2.len_le
  evolves := fun i a h => by
    obtain ⟨b, hb, eb⟩ := p1.evolves i a h
    obtain ⟨c, hc, ec⟩ := p2.evolves i b hb
    exact ⟨c, hc, eb.etrans ec⟩
  newFilled := fun i a hle h => by
    by_cases hmid : i < s₂.instructions.length
    · have hb : s₂.instructions[i]? = some s₂.instructions[i] :=
        List.getElem?_eq_getElem hmid
      have hrb : RangeProper i s₂.instructions[i] s₂.instructions.length :=
        p1.newFilled i _ hle hb
      obtain ⟨c, hc, ec⟩ := p2.evolves i _ hb
      have hcb : c = s₂.instructions[i] := hrb.evolves ec
      subst hcb
      rw [h] at hc
      cases hc
      exact hrb.mono p2.len_le
    · exact p2.newFilled i a (le_of_not_lt hmid) h

theorem getElem?_concat_some {l : List Instruction} {x a : Instruction} {i : Nat}
    (h : (l ++ [x])[i]? = some a) :
    (i < l.length ∧ l[i]? = some a) ∨ (i = l.length ∧ a = x) := by
  rcases Nat.lt_trichotomy i l.length with hlt | heq | hgt
  · left
    rw [List.getElem?_append_left hlt] at h
    exact ⟨hlt, h⟩
  · right
    subst heq
    rw [List.getElem?_concat_length] at h
    cases h
    exact ⟨rfl, rfl⟩
  · exfalso
    rw [List.getElem?_eq_none (by simp; omega)] at h
    exact Option.noConfusion h

/-- A step that leaves the instruction list unchanged satisfies
`Post`. -/
theorem Post.of_instructions_eq {s s' : FState}
    (h : s'.instructions = s.instructions) : Post s s' where
  len_le := by rw [h]
  evolves := fun i a hg => ⟨a, by rw [h]; exact hg, Evolves.erefl a⟩
  newFilled := fun i a hle hg => by
    rw [h] at hg
    have : i < s.instructions.length := (List.getElem?_eq_some.mp hg).1
    omega

/-- `INV` only depends on the instructions and the port fields. -/
theorem INV.of_parts_eq {ctx : Ctx} {s s' : FState}
    (hInv : INV ctx s)
    (hi : s'.instructions = s.instructions)
    (hv : s'.portsToVisit = s.portsToVisit)
    (hd : s'.portDecls = s.portDecls)
    (hw : s'.portWrites = s.portWrites) : INV ctx s' where
  depsOk := by rw [hi]; exact hInv.depsOk
  rangesOk := by rw [hi]; exact hInv.rangesOk
  portDeclsLen := by rw [hd]; exact hInv.portDeclsLen
  portWritesLen := by rw [hw]; exact hInv.portWritesLen
  ports := by rw [hi, hv, hd, hw]; exact hInv.ports

/-- Allocating an instruction whose dependencies are all strictly below
the current length preserves the invariant, provided the new entry's
ranges are proper or placeholders. -/
theorem INV.alloc {ctx : Ctx} {s : FState} {inst : Instruction}
    (hInv : INV ctx s)
    (hdeps : ∀ d ∈ instrDeps inst, d < s.instructions.length)
    (hrange : RangeProper s.instructions.length inst (s.instructions.length + 1) ∨
      PlaceholderCtrl inst) :
    INV ctx { s with instructions := s.instructions ++ [inst] } where
  depsOk := by
    intro i inst' hg d hd
    rcases getElem?_concat_some hg with ⟨hlt, hold⟩ | ⟨heq, hx⟩
    · exact hInv.depsOk i inst' hold d hd
    · subst heq; subst hx
      exact hdeps d hd
  rangesOk := by
    intro i inst' hg
    rcases getElem?_concat_some hg with ⟨hlt, hold⟩ | ⟨heq, hx⟩
    · rcases hInv.rangesOk i inst' hold with hr | hp
      · exact Or.inl (hr.mono (by simp))
      · exact Or.inr hp
    · subst heq; subst hx
      rcases hrange with hr | hp
      · exact Or.inl (by simpa using hr)
      · exact Or.inr hp
  portDeclsLen := hInv.portDeclsLen
  portWritesLen := hInv.portWritesLen
  ports := by
    obtain ⟨k, hk, hv, hassigned, hpending⟩ := hInv.ports
    refine ⟨k, hk, hv, ?_, hpending⟩
    intro i hi
    obtain ⟨hw, d, p, decl, h1, h2, h3, h4⟩ := hassigned i hi
    have hd : d < s.instructions.length := (List.getElem?_eq_some.mp h3).1
    exact ⟨hw, d, p, decl, h1, h2, by rw [List.getElem?_append_left hd]; exact h3, h4⟩

/-- Allocating an instruction with proper ranges satisfies `Post`. -/
theorem Post.palloc {s : FState} {inst : Instruction}
    (hrange : RangeProper s.instructions.length inst (s.instructions.length + 1)) :
    Post s { s with instructions := s.instructions ++ [inst] } where
  len_le := by simp
  evolves := fun i a hg => by
    have hlt : i < s.instructions.length := (List.getElem?_eq_some.mp hg).1
    exact ⟨a, by simpa [List.getElem?_append_left hlt] using hg, Evolves.erefl a⟩
  newFilled := fun i a hle hg => by
    rcases getElem?_concat_some hg with ⟨hlt, _⟩ | ⟨heq, hx⟩
    · omega
    · subst heq; subst hx
      simpa using hrange

/-- Control instructions: `IfStatement` and `ForStatement`. -/
def isCtrl : Instruction → Bool
  | .ifStatement _ => true
  | .forStatement _ => true
  | _ => false

/-- Non-control instructions have trivially proper ranges. -/
theorem RangeProper.of_not_ctrl {i len : Nat} {inst : Instruction}
    (h : isCtrl inst = false) : RangeProper i inst len := by
  cases inst with
  | ifStatement st => simp [isCtrl] at h
  | forStatement st => simp [isCtrl] at h
  | subModule sm => trivial
  | declaration d => trivial
  | wire w => trivial
  | write w => trivial
  | funcCall fc => trivial

/-- Popping the next pending port and storing a declaration's ID into it
preserves the invariant: the port block of `flatten_declaration`. -/
theorem port_assign_spec {ctx : Ctx} {s s₁ s₂ : FState} {decl_id pid nameSpan : Nat}
    {decl : Declaration}
    (hInv : INV ctx s)
    (hdecl : s.instructions[decl_id]? = some (.declaration decl))
    (hspan : decl.name_span = nameSpan)
    (hpop : popPort s = some (pid, s₁))
    (hassign : assignPort ctx pid nameSpan decl_id s₁ = some ((), s₂)) :
    INV ctx s₂ ∧ s₂.instructions = s.instructions ∧ s₂.errors = s.errors ∧
      s₂.scopes = s.scopes := by
  obtain ⟨k, hk, hv, hassigned, hpending⟩ := hInv.ports
  rcases Nat.lt_or_ge k ctx.ports.length with hkn | hkn
  case inr =>
    exfalso
    have hz : ctx.ports.length - k = 0 := by omega
    rw [hz] at hv
    simp [popPort, hv, List.range'] at hpop
  have hsucc : ctx.ports.length - k = (ctx.ports.length - (k + 1)) + 1 := by omega
  rw [hsucc, List.range'_succ] at hv
  simp only [popPort, hv] at hpop
  cases hpop
  -- from here on `pid` is the popped port index (the old `k`)
  have hplt : pid < ctx.ports.length := hkn
  have hpk : ctx.ports[pid]? = some ctx.ports[pid] := List.getElem?_eq_getElem hplt
  simp only [assignPort, hpk] at hassign
  by_cases hname : (ctx.ports[pid]).name_span = nameSpan
  case neg => simp [hname] at hassign
  simp only [hname, if_true] at hassign
  cases hassign
  have hw0 : s.portWrites[pid]? = some 0 := (hpending pid (le_refl pid) hplt).1
  have hd0 : s.portDecls[pid]? = some none := (hpending pid (le_refl pid) hplt).2
  have hgetd : s.portWrites.getD pid 0 = 0 := by
    rw [List.getD_eq_getElem?_getD, hw0]
    rfl
  refine ⟨?_, rfl, rfl, rfl⟩
  refine ⟨hInv.depsOk, hInv.rangesOk, by simpa using hInv.portDeclsLen,
    by simpa using hInv.portWritesLen, ?_⟩
  refine ⟨pid + 1, by omega, by simp, ?_, ?_⟩
  · intro i hi
    rcases Nat.lt_or_ge i pid with hik | hik
    · obtain ⟨hwi, d, p, dc, h1, h2, h3, h4⟩ := hassigned i hik
      refine ⟨?_, d, p, dc, ?_, h2, h3, h4⟩
      · simpa [List.getElem?_set_ne (by omega : pid ≠ i)] using hwi
      · simpa [List.getElem?_set_ne (by omega : pid ≠ i)] using h1
    · have hik' : i = pid := by omega
      subst hik'
      refine ⟨?_, decl_id, ctx.ports[i], decl, ?_, hpk, hdecl, by rw [hspan, hname]⟩
      · rw [hgetd, List.getElem?_set_self (by rw [hInv.portWritesLen]; exact hplt)]
      · rw [List.getElem?_set_self (by rw [hInv.portDeclsLen]; exact hplt)]
  · intro i hi hin
    have hne : pid ≠ i := by omega
    obtain ⟨hwi, hdi⟩ := hpending i (by omega) hin
    exact ⟨by simpa [List.getElem?_set_ne hne] using hwi,
           by simpa [List.getElem?_set_ne hne] using hdi⟩

/-! ### Characterizations of the primitive operations -/

theorem getInstr_eq_some {i : Nat} {s s' : FState} {v : Instruction} :
    getInstr i s = some (v, s') ↔ s.instructions[i]? = some v ∧ s' = s := by
  simp only [getInstr]
  cases h : s.instructions[i]? with
  | none => simp
  | some w =>
    constructor
    · intro hw
      cases hw
      exact ⟨rfl, rfl⟩
    · rintro ⟨h1, rfl⟩
      cases h1
      rfl

theorem allocInstr_eq {inst : Instruction} {s : FState} :
    allocInstr inst s =
      some (s.instructions.length, { s with instructions := s.instructions ++ [inst] }) := rfl

theorem nextAllocId_eq {s : FState} : nextAllocId s = some (s.instructions.length, s) := rfl

theorem pushErr_eq {d : Diag} {s : FState} :
    pushErr d s = some ((), { s with errors := s.errors ++ [d] }) := rfl

theorem newFrame_eq {s : FState} :
    newFrame s = some ((), { s with scopes := [] :: s.scopes }) := rfl

theorem setInstr_eq_some {i : Nat} {inst : Instruction} {s s' : FState} :
    setInstr i inst s = some ((), s') ↔
      i < s.instructions.length ∧
        s' = { s with instructions := s.instructions.set i inst } := by
  simp only [setInstr]
  by_cases h : i < s.instructions.length
  · simp only [h, if_true, true_and]
    constructor
    · intro hw; cases hw; rfl
    · rintro rfl; rfl
  · simp [h]

theorem lookupVar_eq {name : String} {s : FState} :
    lookupVar name s = some (s.scopes.findSome? (fun fr => List.lookup name fr), s) := rfl

theorem popFrame_eq_some {s s' : FState} :
    popFrame s = some ((), s') ↔
      ∃ fr rest, s.scopes = fr :: rest ∧ s' = { s with scopes := rest } := by
  simp only [popFrame]
  cases h : s.scopes with
  | nil => simp
  | cons fr rest =>
    constructor
    · intro hw; cases hw; exact ⟨fr, rest, rfl, rfl⟩
    · rintro ⟨fr', rest', h1, rfl⟩
      cases h1
      rfl

theorem addDeclVar_eq_some {name : String} {id : Nat} {s s' : FState}
    {r : Option Nat} :
    addDeclVar name id s = some (r, s') ↔
      ∃ fr rest, s.scopes = fr :: rest ∧
        ((∃ prior, List.lookup name fr = some prior ∧ r = some prior ∧ s' = s) ∨
         (List.lookup name fr = none ∧ r = none ∧
           s' = { s with scopes := ((name, id) :: fr) :: rest })) := by
  simp only [addDeclVar]
  cases h : s.scopes with
  | nil => simp
  | cons fr rest =>
    cases hl : List.lookup name fr with
    | some prior =>
      simp only [hl]
      constructor
      · intro hw
        cases hw
        exact ⟨fr, rest, rfl, Or.inl ⟨prior, hl, rfl, rfl⟩⟩
      · rintro ⟨fr', rest', h1, hcase⟩
        cases h1
        rcases hcase with ⟨p, hp, hr, hs⟩ | ⟨hp, hr, hs⟩
        · rw [hl] at hp
          cases hp
          subst hr
          subst hs
          rfl
        · rw [hl] at hp
          exact Option.noConfusion hp
    | none =>
      simp only [hl]
      constructor
      · intro hw
        cases hw
        exact ⟨fr, rest, rfl, Or.inr ⟨hl, rfl, rfl⟩⟩
      · rintro ⟨fr', rest', h1, hcase⟩
        cases h1
        rcases hcase with ⟨p, hp, hr, hs⟩ | ⟨hp, hr, hs⟩
        · rw [hl] at hp
          exact Option.noConfusion hp
        · subst hr
          subst hs
          rfl

theorem popPort_eq_some {s s' : FState} {pid : Nat} :
    popPort s = some (pid, s') ↔
      ∃ rest, s.portsToVisit = pid :: rest ∧ s' = { s with portsToVisit := rest } := by
  simp only [popPort]
  cases h : s.portsToVisit with
  | nil => simp
  | cons p rest =>
    constructor
    · intro hw; cases hw; exact ⟨rest, rfl, rfl⟩
    · rintro ⟨rest', h1, rfl⟩
      cases h1
      rfl

/-- `expect_wireref` only reads and pushes diagnostics; a `some wr`
result comes from the `WireReference` variant unchanged. -/
theorem expect_wireref_spec {ctx : Ctx} {pwr : PartialWireReference} {s s' : FState}
    {r : Option WireReference}
    (h : expect_wireref ctx pwr s = some (r, s')) :
    s'.instructions = s.instructions ∧ s'.scopes = s.scopes ∧
      s'.portsToVisit = s.portsToVisit ∧ s'.portDecls = s.portDecls ∧
      s'.portWrites = s.portWrites ∧
      (∀ wr, r = some wr → pwr = .wireReference wr) := by
  cases pwr with
  | error =>
    simp only [expect_wireref, M.pure_eq] at h
    cases h
    exact ⟨rfl, rfl, rfl, rfl, rfl, fun wr hwr => Option.noConfusion hwr⟩
  | moduleButNoPort d =>
    simp only [expect_wireref, M.bind_eq_some, getInstr_eq_some] at h
    obtain ⟨a, s₁, ⟨ha, rfl⟩, hm⟩ := h
    cases a <;> simp only [M.fail_eq] at hm <;> try exact Option.noConfusion hm
    case subModule sm =>
      cases hmm : ctx.modules[sm.module_uuid]? with
      | none =>
        simp only [hmm, M.fail_eq] at hm
        exact Option.noConfusion hm
      | some md =>
        simp only [hmm, M.bind_eq_some, pushErr_eq, M.pure_eq] at hm
        obtain ⟨u, s₂, h1, h2⟩ := hm
        cases h1
        cases h2
        exact ⟨rfl, rfl, rfl, rfl, rfl, fun wr hwr => Option.noConfusion hwr⟩
  | globalModuleName md_uuid =>
    simp only [expect_wireref] at h
    cases hmm : ctx.modules[md_uuid]? with
    | none =>
      simp only [hmm, M.fail_eq] at h
      exact Option.noConfusion h
    | some md =>
      simp only [hmm, M.bind_eq_some, pushErr_eq, M.pure_eq] at h
      obtain ⟨u, s₂, h1, h2⟩ := h
      cases h1
      cases h2
      exact ⟨rfl, rfl, rfl, rfl, rfl, fun wr hwr => Option.noConfusion hwr⟩
  | moduleWithInterface d interface =>
    simp only [expect_wireref, M.bind_eq_some, getInstr_eq_some] at h
    obtain ⟨a, s₁, ⟨ha, rfl⟩, hm⟩ := h
    cases a <;> simp only [M.fail_eq] at hm <;> try exact Option.noConfusion hm
    case subModule sm =>
      cases hmm : ctx.modules[sm.module_uuid]? with
      | none =>
        simp only [hmm, M.fail_eq] at hm
        exact Option.noConfusion hm
      | some md =>
        simp only [hmm] at hm
        cases hii : md.interfaces[interface]? with
        | none =>
          simp only [hii, M.fail_eq] at hm
          exact Option.noConfusion hm
        | some itf =>
          simp only [hii, M.bind_eq_some, pushErr_eq, M.pure_eq] at hm
          obtain ⟨u, s₂, h1, h2⟩ := hm
          cases h1
          cases h2
          exact ⟨rfl, rfl, rfl, rfl, rfl, fun wr hwr => Option.noConfusion hwr⟩
  | wireReference wr =>
    simp only [expect_wireref, M.pure_eq] at h
    cases h
    refine ⟨rfl, rfl, rfl, rfl, rfl, ?_⟩
    intro wr' hwr
    cases hwr
    rfl

/-- `get_interface_reference` only reads: the state is unchanged. -/
theorem get_interface_reference_spec {ctx : Ctx} {ir : ModuleInterfaceReference}
    {s s' : FState} {mi : GlobalModule × Interface}
    (h : get_interface_reference ctx ir s = some (mi, s')) : s' = s := by
  simp only [get_interface_reference, M.bind_eq_some, getInstr_eq_some] at h
  obtain ⟨a, s₁, ⟨ha, rfl⟩, hm⟩ := h
  cases a <;> simp only [M.fail_eq] at hm <;> try exact Option.noConfusion hm
  case subModule sm =>
    cases hmm : ctx.modules[sm.module_uuid]? with
    | none =>
      simp only [hmm, M.fail_eq] at hm
      exact Option.noConfusion hm
    | some md =>
      simp only [hmm] at hm
      cases hii : md.interfaces[ir.submodule_interface]? with
      | none =>
        simp only [hii, M.fail_eq] at hm
        exact Option.noConfusion hm
      | some itf =>
        simp only [hii, M.pure_eq] at hm
        cases hm
        rfl

/-- `alloc_declaration` appends exactly the given instruction, registers
the name (possibly diagnosing a conflict) and returns the new ID. -/
theorem alloc_declaration_spec {name : String} {inst : Instruction} {s s' : FState}
    {r : Nat}
    (h : alloc_declaration name inst s = some (r, s')) :
    r = s.instructions.length ∧ s'.instructions = s.instructions ++ [inst] ∧
      s'.portsToVisit = s.portsToVisit ∧ s'.portDecls = s.portDecls ∧
      s'.portWrites = s.portWrites := by
  simp only [alloc_declaration, M.bind_eq_some, allocInstr_eq] at h
  obtain ⟨id, s₁, h1, hm⟩ := h
  cases h1
  obtain ⟨a, s₂, hadd, hrest⟩ := hm
  rw [addDeclVar_eq_some] at hadd
  obtain ⟨fr, rest, hsc, hcase⟩ := hadd
  rcases hcase with ⟨prior, hp, hr, hs⟩ | ⟨hp, hr, hs⟩ <;> subst hr <;> subst hs
  · -- conflict path: read the prior declaration, push the diagnostic
    simp only [M.bind_eq_some, getInstr_eq_some] at hrest
    obtain ⟨pi, s₃, ⟨hpi, rfl⟩, hm2⟩ := hrest
    cases pi <;> simp only [M.fail_eq] at hm2 <;> try exact Option.noConfusion hm2
    case declaration dd =>
      simp only [M.bind_eq_some, pushErr_eq, M.pure_eq] at hm2
      obtain ⟨u, s₄, h3, h4⟩ := hm2
      cases h3
      cases h4
      exact ⟨rfl, rfl, rfl, rfl, rfl⟩
  · simp only [M.pure_eq] at hrest
    cases hrest
    exact ⟨rfl, rfl, rfl, rfl, rfl⟩

/-- `flatten_write_modifiers` never touches the state. -/
theorem flatten_write_modifiers_spec {mods : Option (List WModKW)} {s s' : FState}
    {r : WriteModifiers}
    (h : flatten_write_modifiers mods s = some (r, s')) : s' = s := by
  cases mods with
  | none =>
    simp only [flatten_write_modifiers, M.pure_eq] at h
    cases h
    rfl
  | some lst =>
    simp only [flatten_write_modifiers] at h
    cases hic : lst.countP (fun k => k = WModKW.initialKw) with
    | zero =>
      simp only [hic, M.pure_eq] at h
      cases h
      rfl
    | succ m =>
      cases m with
      | zero =>
        cases hrc : lst.countP (fun k => k = WModKW.reg) with
        | zero =>
          simp only [hic, hrc, M.pure_eq] at h
          cases h
          rfl
        | succ mm =>
          simp only [hic, hrc, M.fail_eq] at h
          exact Option.noConfusion h
      | succ mmm =>
        simp only [hic, M.fail_eq] at h
        exact Option.noConfusion h

theorem PlaceholderCtrl.not_of_not_ctrl {a : Instruction} (h : isCtrl a = false) :
    ¬ PlaceholderCtrl a := by
  cases a <;> simp [isCtrl] at h ⊢ <;> simp [PlaceholderCtrl]

theorem Evolves.eq_of_not_ctrl {a b : Instruction} (he : Evolves a b)
    (h : isCtrl a = false) : b = a := by
  rcases he with he | ⟨hp, _⟩
  · exact he.symm
  · exact absurd hp (PlaceholderCtrl.not_of_not_ctrl h)

/-- Wire-reference targets whose dependencies are all below `len`. -/
def ToValid (l : List (Option (WireReference × WriteModifiers))) (len : Nat) : Prop :=
  ∀ entry ∈ l, ∀ wr wm, entry = some (wr, wm) → ∀ x ∈ wrDeps wr, x < len

theorem ToValid.vmono {l : List (Option (WireReference × WriteModifiers))}
    {len len' : Nat} (h : ToValid l len) (hle : len ≤ len') : ToValid l len' :=
  fun entry he wr wm heq x hx => lt_of_lt_of_le (h entry he wr wm heq x hx) hle

theorem ToValid.nil {len : Nat} : ToValid [] len := by
  intro entry he
  exact absurd he (List.not_mem_nil entry)

/-- `padWithErrorWires` appends exactly `missing` fresh error wires. -/
theorem padWithErrorWires_spec {ctx : Ctx} :
    ∀ (missing : Nat) (args : List Nat) {s s' : FState} {rs : List Nat},
    INV ctx s → padWithErrorWires args missing s = some (rs, s') →
    INV ctx s' ∧ Post s s' ∧
      ∃ extras, rs = args ++ extras ∧ extras.length = missing ∧
        ∀ e ∈ extras, s'.instructions[e]? = some (.wire { source := .error }) := by
  intro missing
  induction missing with
  | zero =>
    intro args s s' rs hInv h
    simp only [padWithErrorWires, M.pure_eq] at h
    cases h
    exact ⟨hInv, Post.prefl s, [], by simp, rfl, by simp⟩
  | succ m ih =>
    intro args s s' rs hInv h
    simp only [padWithErrorWires, M.bind_eq_some, alloc_error, allocInstr_eq] at h
    obtain ⟨e, s₁, h1, h2⟩ := h
    cases h1
    have hInv₁ : INV ctx { s with
        instructions := s.instructions ++ [Instruction.wire { source := WireSource.error }] } :=
      hInv.alloc (by simp [instrDeps, sourceDeps]) (Or.inl (RangeProper.of_not_ctrl (by rfl)))
    obtain ⟨hInv', hPost', extras, hrs, hlen, herr⟩ := ih _ hInv₁ h2
    have hPostStep : Post s { s with
        instructions := s.instructions ++ [Instruction.wire { source := WireSource.error }] } :=
      Post.palloc (RangeProper.of_not_ctrl (by rfl))
    refine ⟨hInv', hPostStep.trans hPost', s.instructions.length :: extras, by simpa using hrs,
      by simpa using hlen, ?_⟩
    intro x hx
    rcases List.mem_cons.mp hx with hx | hx
    · subst hx
      obtain ⟨b, hb, eb⟩ := hPost'.evolves s.instructions.length
        (.wire { source := .error }) (by simp [List.getElem?_concat_length])
      rw [eb.eq_of_not_ctrl rfl] at hb
      exact hb
    · exact herr x hx

/-- The output-pairing loop emits wire/write pairs; the leftover targets
keep their validity. -/
theorem emitOutputWrites_spec {ctx : Ctx} {submodule_decl : Nat} :
    ∀ (ports : List Nat) (to_ : List (Option (WireReference × WriteModifiers)))
      {s s' : FState} {leftover : List (Option (WireReference × WriteModifiers))},
    INV ctx s → ToValid to_ s.instructions.length →
    submodule_decl < s.instructions.length →
    emitOutputWrites submodule_decl ports to_ s = some (leftover, s') →
    INV ctx s' ∧ Post s s' ∧ ToValid leftover s'.instructions.length := by
  intro ports
  induction ports with
  | nil =>
    intro to_ s s' leftover hInv hval hsub h
    cases to_ with
    | nil =>
      simp only [emitOutputWrites, M.pure_eq] at h
      cases h
      exact ⟨hInv, Post.prefl s, ToValid.nil⟩
    | cons t ts =>
      simp only [emitOutputWrites, M.pure_eq] at h
      cases h
      exact ⟨hInv, Post.prefl s, hval⟩
  | cons port ports ih =>
    intro to_ s s' leftover hInv hval hsub h
    cases to_ with
    | nil =>
      simp only [emitOutputWrites, M.pure_eq] at h
      cases h
      exact ⟨hInv, Post.prefl s, ToValid.nil⟩
    | cons t ts =>
      cases t with
      | none =>
        simp only [emitOutputWrites] at h
        exact ih ts hInv (fun entry he => hval entry (List.mem_cons_of_mem _ he)) hsub h
      | some twm =>
        obtain ⟨to_ref, write_modifiers⟩ := twm
        simp only [emitOutputWrites, M.bind_eq_some, allocInstr_eq] at h
        obtain ⟨from_id, s₁, h1, h2⟩ := h
        cases h1
        obtain ⟨w_id, s₂, h3, h4⟩ := h2
        cases h3
        have hval0 : ∀ x ∈ wrDeps to_ref, x < s.instructions.length :=
          hval _ (List.mem_cons_self _ _) to_ref write_modifiers rfl
        set wireInst : Instruction := .wire { source := .wireRef (WireReference.simple_port
          { submodule_decl := submodule_decl, port := port, is_input := false }) } with hwi
        set writeInst : Instruction := .write
          { from_ := s.instructions.length, to_ := to_ref,
            write_modifiers := write_modifiers } with hwr2
        have hInv₁ : INV ctx { s with instructions := s.instructions ++ [wireInst] } :=
          hInv.alloc
            (by
              simp [hwi, instrDeps, sourceDeps, wrDeps, WireReference.simple_port, wrRootDeps,
                wrPathDeps]
              exact hsub)
            (Or.inl (RangeProper.of_not_ctrl (by rfl)))
        have hInv₂ : INV ctx { s with
            instructions := (s.instructions ++ [wireInst]) ++ [writeInst] } :=
          hInv₁.alloc
            (by
              simp only [hwr2, instrDeps]
              intro d hd
              simp only [List.length_append, List.length_cons, List.length_nil]
              rcases List.mem_cons.mp hd with hd | hd
              · subst hd; simp
              · have := hval0 d (by simpa [wrDeps] using hd)
                omega)
            (Or.inl (RangeProper.of_not_ctrl (by rfl)))
        have hPost₁ : Post s { s with instructions := s.instructions ++ [wireInst] } :=
          Post.palloc (RangeProper.of_not_ctrl (by rfl))
        have hPost₂ : Post { s with instructions := s.instructions ++ [wireInst] }
            { s with instructions := (s.instructions ++ [wireInst]) ++ [writeInst] } :=
          Post.palloc (RangeProper.of_not_ctrl (by rfl))
        have hval' : ToValid ts ((s.instructions ++ [wireInst]) ++ [writeInst]).length := by
          refine ToValid.vmono (fun entry he => hval entry (List.mem_cons_of_mem _ he)) ?_
          simp
        have hsub' : submodule_decl < ((s.instructions ++ [wireInst]) ++ [writeInst]).length := by
          simp only [List.length_append, List.length_cons, List.length_nil]
          omega
        obtain ⟨hInv', hPost', hvalOut⟩ := ih ts hInv₂ hval' hsub' h4
        exact ⟨hInv', (hPost₁.trans hPost₂).trans hPost', hvalOut⟩

/-- The leftover loop writes every remaining present target from a fresh
error wire. -/
theorem emitLeftoverWrites_spec {ctx : Ctx} :
    ∀ (l : List (Option (WireReference × WriteModifiers))) {s s' : FState} {u : Unit},
    INV ctx s → ToValid l s.instructions.length →
    emitLeftoverWrites l s = some (u, s') →
    INV ctx s' ∧ Post s s' := by
  intro l
  induction l with
  | nil =>
    intro s s' u hInv hval h
    simp only [emitLeftoverWrites, M.pure_eq] at h
    cases h
    exact ⟨hInv, Post.prefl s⟩
  | cons t ts ih =>
    intro s s' u hInv hval h
    cases t with
    | none =>
      simp only [emitLeftoverWrites] at h
      exact ih hInv (fun entry he => hval entry (List.mem_cons_of_mem _ he)) h
    | some twm =>
      obtain ⟨to_ref, write_modifiers⟩ := twm
      simp only [emitLeftoverWrites, M.bind_eq_some, allocInstr_eq] at h
      obtain ⟨err_id, s₁, h1, h2⟩ := h
      cases h1
      obtain ⟨w_id, s₂, h3, h4⟩ := h2
      cases h3
      have hval0 : ∀ x ∈ wrDeps to_ref, x < s.instructions.length :=
        hval _ (List.mem_cons_self _ _) to_ref write_modifiers rfl
      set errInst : Instruction := .wire { source := .error } with hei
      set writeInst : Instruction := .write
        { from_ := s.instructions.length, to_ := to_ref,
          write_modifiers := write_modifiers } with hwr2
      have hInv₁ : INV ctx { s with instructions := s.instructions ++ [errInst] } :=
        hInv.alloc (by simp [hei, instrDeps, sourceDeps])
          (Or.inl (RangeProper.of_not_ctrl (by rfl)))
      have hInv₂ : INV ctx { s with
          instructions := (s.instructions ++ [errInst]) ++ [writeInst] } :=
        hInv₁.alloc
          (by
            simp only [hwr2, instrDeps]
            intro d hd
            simp only [List.length_append, List.length_cons, List.length_nil]
            rcases List.mem_cons.mp hd with hd | hd
            · subst hd; simp
            · have := hval0 d (by simpa [wrDeps] using hd)
              omega)
          (Or.inl (RangeProper.of_not_ctrl (by rfl)))
      have hPost₁ : Post s { s with instructions := s.instructions ++ [errInst] } :=
        Post.palloc (RangeProper.of_not_ctrl (by rfl))
      have hPost₂ : Post { s with instructions := s.instructions ++ [errInst] }
          { s with instructions := (s.instructions ++ [errInst]) ++ [writeInst] } :=
        Post.palloc (RangeProper.of_not_ctrl (by rfl))
      have hval' : ToValid ts ((s.instructions ++ [errInst]) ++ [writeInst]).length := by
        refine ToValid.vmono (fun entry he => hval entry (List.mem_cons_of_mem _ he)) ?_
        simp
      obtain ⟨hInv', hPost'⟩ := ih hInv₂ hval' h4
      exact ⟨hInv', (hPost₁.trans hPost₂).trans hPost'⟩

/-- Back-patching a control instruction with proper bounds (keeping its
dependencies) preserves the invariant. -/
theorem INV.set_ctrl {ctx : Ctx} {s : FState} {id : Nat} {inst instNew : Instruction}
    (hInv : INV ctx s)
    (hget : s.instructions[id]? = some inst)
    (hctrl : isCtrl inst = true)
    (hdeps : instrDeps instNew = instrDeps inst)
    (hrange : RangeProper id instNew s.instructions.length) :
    INV ctx { s with instructions := s.instructions.set id instNew } where
  depsOk := by
    intro i inst' hg d hd
    by_cases hi : id = i
    · subst hi
      rw [List.getElem?_set_self (List.getElem?_eq_some.mp hget).1] at hg
      cases hg
      rw [hdeps] at hd
      exact hInv.depsOk id inst hget d hd
    · rw [List.getElem?_set_ne hi] at hg
      exact hInv.depsOk i inst' hg d hd
  rangesOk := by
    intro i inst' hg
    by_cases hi : id = i
    · subst hi
      rw [List.getElem?_set_self (List.getElem?_eq_some.mp hget).1] at hg
      cases hg
      exact Or.inl (by simpa using hrange)
    · rw [List.getElem?_set_ne hi] at hg
      rcases hInv.rangesOk i inst' hg with hr | hp
      · exact Or.inl (hr.mono (by simp))
      · exact Or.inr hp
  portDeclsLen := hInv.portDeclsLen
  portWritesLen := hInv.portWritesLen
  ports := by
    obtain ⟨k, hk, hv, hassigned, hpending⟩ := hInv.ports
    refine ⟨k, hk, hv, ?_, hpending⟩
    intro i hi
    obtain ⟨hw, d, p, decl, h1, h2, h3, h4⟩ := hassigned i hi
    refine ⟨hw, d, p, decl, h1, h2, ?_, h4⟩
    have hdne : id ≠ d := by
      intro hde
      subst hde
      rw [hget] at h3
      cases h3
      simp [isCtrl] at hctrl
    rw [List.getElem?_set_ne hdne]
    exact h3

/-- Back-patching an instruction allocated after `s₀` preserves `Post`
relative to `s₀`. -/
theorem Post.set_new {s₀ s : FState} {id : Nat} {instNew : Instruction}
    (p : Post s₀ s)
    (hid : s₀.instructions.length ≤ id)
    (hrange : RangeProper id instNew s.instructions.length) :
    Post s₀ { s with instructions := s.instructions.set id instNew } where
  len_le := by
    simp only [List.length_set]
    exact p.len_le
  evolves := fun i a hg => by
    obtain ⟨b, hb, eb⟩ := p.evolves i a hg
    have hi : i < s₀.instructions.length := (List.getElem?_eq_some.mp hg).1
    have hne : id ≠ i := by omega
    exact ⟨b, by rw [List.getElem?_set_ne hne]; exact hb, eb⟩
  newFilled := fun i a hle hg => by
    by_cases hi : id = i
    · subst hi
      rw [List.getElem?_set_self (by
        have := p.len_le
        by_cases hlt : id < s.instructions.length
        · exact hlt
        · exfalso
          rw [List.getElem?_eq_none (by simp; omega)] at hg
          exact Option.noConfusion hg)] at hg
      cases hg
      simpa using hrange
    · rw [List.getElem?_set_ne hi] at hg
      have := p.newFilled i a hle hg
      simpa using this

/-- Validity of a partial wire reference result relative to the current
instruction count: every embedded ID refers to an existing
instruction. -/
def PWRValid : PartialWireReference → Nat → Prop
  | .error, _ => True
  | .globalModuleName _, _ => True
  | .moduleButNoPort d, len => d < len
  | .moduleWithInterface d _, len => d < len
  | .wireReference wr, len => ∀ x ∈ wrDeps wr, x < len

theorem PWRValid.wmono {pwr : PartialWireReference} {len len' : Nat}
    (h : PWRValid pwr len) (hle : len ≤ len') : PWRValid pwr len' := by
  cases pwr with
  | error => trivial
  | globalModuleName m => trivial
  | moduleButNoPort d => exact lt_of_lt_of_le h hle
  | moduleWithInterface d i => exact lt_of_lt_of_le h hle
  | wireReference wr => exact fun x hx => lt_of_lt_of_le (h x hx) hle

/-- The inductive properties of the expression-level flattening
functions at a given fuel level: the invariant and `Post` are preserved
and the returned IDs are in range. -/
def PE (n : Nat) : Prop := ∀ (ctx : Ctx) (e : Expr) (s : FState) (r : Nat) (s' : FState),
  INV ctx s → flatten_expr n ctx e s = some (r, s') →
  INV ctx s' ∧ Post s s' ∧ r < s'.instructions.length

def PW (n : Nat) : Prop := ∀ (ctx : Ctx) (e : Expr) (s : FState)
  (r : PartialWireReference) (s' : FState),
  INV ctx s → flatten_wire_reference n ctx e s = some (r, s') →
  INV ctx s' ∧ Post s s' ∧ PWRValid r s'.instructions.length

def PAB (n : Nat) : Prop := ∀ (ctx : Ctx) (e : Expr) (s : FState) (r : Nat) (s' : FState),
  INV ctx s → flatten_array_bracket n ctx e s = some (r, s') →
  INV ctx s' ∧ Post s s' ∧ r < s'.instructions.length

def PGAM (n : Nat) : Prop := ∀ (ctx : Ctx) (e : Expr) (s : FState)
  (r : Option ModuleInterfaceReference) (s' : FState),
  INV ctx s → get_or_alloc_module n ctx e s = some (r, s') →
  INV ctx s' ∧ Post s s' ∧
    ∀ ifr, r = some ifr → ifr.submodule_decl < s'.instructions.length

def PARGS (n : Nat) : Prop := ∀ (ctx : Ctx) (es : List Expr) (s : FState)
  (rs : List Nat) (s' : FState),
  INV ctx s → flattenArgList n ctx es s = some (rs, s') →
  INV ctx s' ∧ Post s s' ∧ ∀ x ∈ rs, x < s'.instructions.length

def PFC (n : Nat) : Prop := ∀ (ctx : Ctx) (callee : Expr) (args : List Expr) (s : FState)
  (r : Option Nat) (s' : FState),
  INV ctx s → flatten_func_call n ctx callee args s = some (r, s') →
  INV ctx s' ∧ Post s s' ∧ ∀ id, r = some id → id < s'.instructions.length

def PT (n : Nat) : Prop := ∀ (ctx : Ctx) (t : TypeExpr) (s : FState)
  (r : WrittenType) (s' : FState),
  INV ctx s → flatten_type n ctx t s = some (r, s') →
  INV ctx s' ∧ Post s s' ∧ ∀ x ∈ wtDeps r, x < s'.instructions.length

def PAT (n : Nat) : Prop := ∀ (ctx : Ctx) (elem : TypeExpr) (size : Expr) (s : FState)
  (r : WrittenType) (s' : FState),
  INV ctx s → flatten_array_type n ctx elem size s = some (r, s') →
  INV ctx s' ∧ Post s s' ∧ ∀ x ∈ wtDeps r, x < s'.instructions.length

def PMOT (n : Nat) : Prop := ∀ (ctx : Ctx) (am : Bool) (t : TypeExpr) (s : FState)
  (r : ModuleOrWrittenType) (s' : FState),
  INV ctx s → flatten_module_or_type n ctx am t s = some (r, s') →
  INV ctx s' ∧ Post s s' ∧
    ∀ wt, r = .writtenType wt → ∀ x ∈ wtDeps wt, x < s'.instructions.length

theorem PAB_succ {n : Nat} (ihPE : PE n) : PAB (n + 1) := by
  intro ctx e s r s' hInv h
  simp only [flatten_array_bracket] at h
  exact ihPE ctx e s r s' hInv h

theorem PAT_succ {n : Nat} (ihPT : PT n) (ihPAB : PAB n) : PAT (n + 1) := by
  intro ctx elem size s r s' hInv h
  simp only [flatten_array_type, M.bind_eq_some] at h
  obtain ⟨et, s₁, h1, h2⟩ := h
  obtain ⟨sz, s₂, h3, h4⟩ := h2
  simp only [M.pure_eq] at h4
  cases h4
  obtain ⟨hInv₁, hPost₁, hdeps₁⟩ := ihPT ctx elem s et s₁ hInv h1
  obtain ⟨hInv₂, hPost₂, hsz⟩ := ihPAB ctx size s₁ sz s' hInv₁ h3
  refine ⟨hInv₂, hPost₁.trans hPost₂, ?_⟩
  intro x hx
  simp only [wtDeps, List.mem_append, List.mem_singleton] at hx
  rcases hx with hx | hx
  · exact lt_of_lt_of_le (hdeps₁ x hx) hPost₂.len_le
  · subst hx
    exact hsz

theorem PT_succ {n : Nat} (ihPAT : PAT n) : PT (n + 1) := by
  intro ctx t s r s' hInv h
  cases t with
  | tglobal name =>
    simp only [flatten_type] at h
    cases hg : resolveGlobal ctx name with
    | none =>
      simp only [hg, M.pure_eq] at h
      cases h
      exact ⟨hInv, Post.prefl s, by simp [wtDeps]⟩
    | some ne =>
      cases ne with
      | typ typ_id =>
        simp only [hg, M.pure_eq] at h
        cases h
        exact ⟨hInv, Post.prefl s, by simp [wtDeps]⟩
      | module m =>
        simp only [hg, M.bind_eq_some, pushErr_eq, M.pure_eq] at h
        obtain ⟨u, s₁, h1, h2⟩ := h
        cases h1
        cases h2
        exact ⟨hInv.of_parts_eq rfl rfl rfl rfl, Post.of_instructions_eq rfl,
          by simp [wtDeps]⟩
      | constant c =>
        simp only [hg, M.bind_eq_some, pushErr_eq, M.pure_eq] at h
        obtain ⟨u, s₁, h1, h2⟩ := h
        cases h1
        cases h2
        exact ⟨hInv.of_parts_eq rfl rfl rfl rfl, Post.of_instructions_eq rfl,
          by simp [wtDeps]⟩
  | tarray elem size =>
    simp only [flatten_type] at h
    exact ihPAT ctx elem size s r s' hInv h

theorem PMOT_succ {n : Nat} (ihPAT : PAT n) : PMOT (n + 1) := by
  intro ctx am t s r s' hInv h
  cases t with
  | tglobal name =>
    simp only [flatten_module_or_type] at h
    cases hg : resolveGlobal ctx name with
    | none =>
      simp only [hg, M.pure_eq] at h
      cases h
      refine ⟨hInv, Post.prefl s, ?_⟩
      intro wt hwt
      cases hwt
      simp [wtDeps]
    | some ne =>
      cases ne with
      | typ typ_id =>
        simp only [hg, M.pure_eq] at h
        cases h
        refine ⟨hInv, Post.prefl s, ?_⟩
        intro wt hwt
        cases hwt
        simp [wtDeps]
      | module m =>
        simp only [hg] at h
        by_cases ham : am
        · simp only [ham, if_true, M.pure_eq] at h
          cases h
          refine ⟨hInv, Post.prefl s, ?_⟩
          intro wt hwt
          exact absurd hwt (by simp)
        · rw [if_neg ham] at h
          simp only [M.bind_eq_some, pushErr_eq, M.pure_eq] at h
          obtain ⟨u, s₁, h1, h2⟩ := h
          cases h1
          cases h2
          refine ⟨hInv.of_parts_eq rfl rfl rfl rfl, Post.of_instructions_eq rfl, ?_⟩
          intro wt hwt
          cases hwt
          simp [wtDeps]
      | constant c =>
        simp only [hg, M.bind_eq_some, pushErr_eq, M.pure_eq] at h
        obtain ⟨u, s₁, h1, h2⟩ := h
        cases h1
        cases h2
        refine ⟨hInv.of_parts_eq rfl rfl rfl rfl, Post.of_instructions_eq rfl, ?_⟩
        intro wt hwt
        cases hwt
        simp [wtDeps]
  | tarray elem size =>
    simp only [flatten_module_or_type, M.bind_eq_some] at h
    obtain ⟨wt, s₁, h1, h2⟩ := h
    simp only [M.pure_eq] at h2
    cases h2
    obtain ⟨hInv₁, hPost₁, hdeps⟩ := ihPAT ctx elem size s wt s' hInv h1
    refine ⟨hInv₁, hPost₁, ?_⟩
    intro wt' hwt
    cases hwt
    exact hdeps

theorem PARGS_succ {n : Nat} (ihPE : PE n) (ihPARGS : PARGS n) : PARGS (n + 1) := by
  intro ctx es s rs s' hInv h
  cases es with
  | nil =>
    simp only [flattenArgList, M.pure_eq] at h
    cases h
    exact ⟨hInv, Post.prefl s, by simp⟩
  | cons e rest =>
    simp only [flattenArgList, M.bind_eq_some] at h
    obtain ⟨id, s₁, h1, h2⟩ := h
    obtain ⟨ids, s₂, h3, h4⟩ := h2
    simp only [M.pure_eq] at h4
    cases h4
    obtain ⟨hInv₁, hPost₁, hid⟩ := ihPE ctx e s id s₁ hInv h1
    obtain ⟨hInv₂, hPost₂, hids⟩ := ihPARGS ctx rest s₁ ids s' hInv₁ h3
    refine ⟨hInv₂, hPost₁.trans hPost₂, ?_⟩
    intro x hx
    rcases List.mem_cons.mp hx with hx | hx
    · subst hx
      exact lt_of_lt_of_le hid hPost₂.len_le
    · exact hids x hx

theorem PGAM_succ {n : Nat} (ihPW : PW n) : PGAM (n + 1) := by
  intro ctx e s r s' hInv h
  simp only [get_or_alloc_module, M.bind_eq_some] at h
  obtain ⟨pwr, s₁, h1, h2⟩ := h
  obtain ⟨hInv₁, hPost₁, hval⟩ := ihPW ctx e s pwr s₁ hInv h1
  cases pwr with
  | error =>
    simp only [M.pure_eq] at h2
    cases h2
    exact ⟨hInv₁, hPost₁, fun ifr hifr => Option.noConfusion hifr⟩
  | globalModuleName module_uuid =>
    simp only [M.bind_eq_some, allocInstr_eq, M.pure_eq] at h2
    obtain ⟨sd, s₂, h3, h4⟩ := h2
    cases h3
    cases h4
    have hInv₂ : INV ctx { s₁ with instructions := s₁.instructions ++
        [Instruction.subModule { module_uuid := module_uuid, name := none }] } :=
      hInv₁.alloc (by simp [instrDeps]) (Or.inl (RangeProper.of_not_ctrl (by rfl)))
    have hPost₂ : Post s₁ { s₁ with instructions := s₁.instructions ++
        [Instruction.subModule { module_uuid := module_uuid, name := none }] } :=
      Post.palloc (RangeProper.of_not_ctrl (by rfl))
    refine ⟨hInv₂, hPost₁.trans hPost₂, ?_⟩
    intro ifr hifr
    cases hifr
    simp
  | moduleButNoPort submodule_decl =>
    simp only [M.pure_eq] at h2
    cases h2
    refine ⟨hInv₁, hPost₁, ?_⟩
    intro ifr hifr
    cases hifr
    exact hval
  | moduleWithInterface submodule_decl interface =>
    simp only [M.pure_eq] at h2
    cases h2
    refine ⟨hInv₁, hPost₁, ?_⟩
    intro ifr hifr
    cases hifr
    exact hval
  | wireReference wr =>
    simp only [M.bind_eq_some, pushErr_eq, M.pure_eq] at h2
    obtain ⟨u, s₂, h3, h4⟩ := h2
    cases h3
    cases h4
    exact ⟨hInv₁.of_parts_eq rfl rfl rfl rfl, hPost₁.trans (Post.of_instructions_eq rfl),
      fun ifr hifr => Option.noConfusion hifr⟩

theorem wrDeps_path_append (wr : WireReference) (pe : WireReferencePathElement) :
    wrDeps { wr with path := wr.path ++ [pe] } = wrDeps wr ++ wrPathDeps [pe] := by
  simp [wrDeps, wrPathDeps, List.map_append, List.append_assoc]

theorem PW_succ {n : Nat} (ihPE : PE n) (ihPW : PW n) (ihPAB : PAB n) : PW (n + 1) := by
  intro ctx e s r s' hInv h
  cases e with
  | num v =>
    simp only [flatten_wire_reference, M.bind_eq_some, pushErr_eq, M.pure_eq] at h
    obtain ⟨u, s₁, h1, h2⟩ := h
    cases h1
    cases h2
    exact ⟨hInv.of_parts_eq rfl rfl rfl rfl, Post.of_instructions_eq rfl, trivial⟩
  | unaryOp op right =>
    simp only [flatten_wire_reference, M.bind_eq_some, pushErr_eq, M.pure_eq] at h
    obtain ⟨u, s₁, h1, h2⟩ := h
    cases h1
    cases h2
    exact ⟨hInv.of_parts_eq rfl rfl rfl rfl, Post.of_instructions_eq rfl, trivial⟩
  | binaryOp op left right =>
    simp only [flatten_wire_reference, M.bind_eq_some, pushErr_eq, M.pure_eq] at h
    obtain ⟨u, s₁, h1, h2⟩ := h
    cases h1
    cases h2
    exact ⟨hInv.of_parts_eq rfl rfl rfl rfl, Post.of_instructions_eq rfl, trivial⟩
  | funcCall callee args =>
    simp only [flatten_wire_reference, M.bind_eq_some, pushErr_eq, M.pure_eq] at h
    obtain ⟨u, s₁, h1, h2⟩ := h
    cases h1
    cases h2
    exact ⟨hInv.of_parts_eq rfl rfl rfl rfl, Post.of_instructions_eq rfl, trivial⟩
  | paren inner =>
    simp only [flatten_wire_reference, M.bind_eq_some, pushErr_eq, M.pure_eq] at h
    obtain ⟨u, s₁, h1, h2⟩ := h
    cases h1
    cases h2
    exact ⟨hInv.of_parts_eq rfl rfl rfl rfl, Post.of_instructions_eq rfl, trivial⟩
  | globalIdent name =>
    simp only [flatten_wire_reference, M.bind_eq_some, lookupVar_eq,
      Option.some.injEq, Prod.mk.injEq] at h
    obtain ⟨lv, s₁, ⟨rfl, rfl⟩, h2⟩ := h
    cases hl : s.scopes.findSome? (fun fr => List.lookup name fr) with
    | some decl_id =>
      rw [hl] at h2
      simp only [M.bind_eq_some, getInstr_eq_some] at h2
      obtain ⟨a, s₂, ⟨ha, rfl⟩, hm⟩ := h2
      have hlt : decl_id < s₂.instructions.length := (List.getElem?_eq_some.mp ha).1
      cases a <;> simp only [M.fail_eq, M.pure_eq] at hm <;> try exact Option.noConfusion hm
      case subModule sm =>
        cases hm
        exact ⟨hInv, Post.prefl _, hlt⟩
      case declaration d =>
        cases hm
        refine ⟨hInv, Post.prefl _, ?_⟩
        intro x hx
        simp only [wrDeps, wrRootDeps, wrPathDeps, List.map_nil, List.append_nil,
          List.mem_singleton] at hx
        subst hx
        exact hlt
    | none =>
      rw [hl] at h2
      cases hg : resolveGlobal ctx name with
      | some ne =>
        cases ne with
        | constant cst =>
          simp only [hg, M.pure_eq] at h2
          cases h2
          refine ⟨hInv, Post.prefl s, ?_⟩
          intro x hx
          simp [wrDeps, wrRootDeps, wrPathDeps] at hx
        | typ t =>
          simp only [hg, M.bind_eq_some, pushErr_eq, M.pure_eq] at h2
          obtain ⟨u, s₂, h3, h4⟩ := h2
          cases h3
          cases h4
          exact ⟨hInv.of_parts_eq rfl rfl rfl rfl, Post.of_instructions_eq rfl, trivial⟩
        | module md_id =>
          simp only [hg, M.pure_eq] at h2
          cases h2
          exact ⟨hInv, Post.prefl s, trivial⟩
      | none =>
        simp only [hg, M.bind_eq_some, pushErr_eq, M.pure_eq] at h2
        obtain ⟨u, s₂, h3, h4⟩ := h2
        cases h3
        cases h4
        exact ⟨hInv.of_parts_eq rfl rfl rfl rfl, Post.of_instructions_eq rfl, trivial⟩
  | arrayOp arr idx =>
    simp only [flatten_wire_reference, M.bind_eq_some] at h
    obtain ⟨pwr, s₁, h1, h2⟩ := h
    obtain ⟨i, s₂, h3, h4⟩ := h2
    obtain ⟨hInv₁, hPost₁, hval₁⟩ := ihPW ctx arr s pwr s₁ hInv h1
    obtain ⟨hInv₂, hPost₂, hi⟩ := ihPAB ctx idx s₁ i s₂ hInv₁ h3
    cases pwr <;> simp only [M.fail_eq, M.pure_eq] at h4 <;> try exact Option.noConfusion h4
    case error =>
      cases h4
      exact ⟨hInv₂, hPost₁.trans hPost₂, trivial⟩
    case wireReference wr =>
      cases h4
      refine ⟨hInv₂, hPost₁.trans hPost₂, ?_⟩
      intro x hx
      rw [wrDeps_path_append] at hx
      rcases List.mem_append.mp hx with hx | hx
      · exact lt_of_lt_of_le (hval₁ x hx) hPost₂.len_le
      · simp only [wrPathDeps, List.map_cons, List.map_nil, List.mem_singleton] at hx
        subst hx
        exact hi
  | fieldAccess left pname =>
    simp only [flatten_wire_reference, M.bind_eq_some] at h
    obtain ⟨pwr, s₁, h1, h2⟩ := h
    obtain ⟨hInv₁, hPost₁, hval₁⟩ := ihPW ctx left s pwr s₁ hInv h1
    cases pwr with
    | error =>
      simp only [M.pure_eq] at h2
      cases h2
      exact ⟨hInv₁, hPost₁, trivial⟩
    | globalModuleName md_id =>
      simp only [M.bind_eq_some, pushErr_eq, M.pure_eq] at h2
      obtain ⟨u, s₂, h3, h4⟩ := h2
      cases h3
      cases h4
      exact ⟨hInv₁.of_parts_eq rfl rfl rfl rfl,
        hPost₁.trans (Post.of_instructions_eq rfl), trivial⟩
    | moduleWithInterface d itf =>
      simp only [M.bind_eq_some, pushErr_eq, M.pure_eq] at h2
      obtain ⟨u, s₂, h3, h4⟩ := h2
      cases h3
      cases h4
      exact ⟨hInv₁.of_parts_eq rfl rfl rfl rfl,
        hPost₁.trans (Post.of_instructions_eq rfl), trivial⟩
    | moduleButNoPort submodule_decl =>
      simp only [M.bind_eq_some, getInstr_eq_some] at h2
      obtain ⟨a, s₂, ⟨ha, rfl⟩, hm⟩ := h2
      cases a <;> simp only [M.fail_eq] at hm <;> try exact Option.noConfusion hm
      case subModule sm =>
        cases hmm : ctx.modules[sm.module_uuid]? with
        | none =>
          simp only [hmm, M.fail_eq] at hm
          exact Option.noConfusion hm
        | some submod =>
          simp only [hmm] at hm
          cases hp : get_port_or_interface_by_name submod pname with
          | some pi =>
            cases pi with
            | port port =>
              simp only [hp] at hm
              cases hgp : submod.gports[port]? with
              | none =>
                simp only [hgp, M.fail_eq] at hm
                exact Option.noConfusion hm
              | some gp =>
                simp only [hgp, M.pure_eq] at hm
                cases hm
                refine ⟨hInv₁, hPost₁, ?_⟩
                intro x hx
                simp only [wrDeps, wrRootDeps, wrPathDeps, List.map_nil, List.append_nil,
                  List.mem_singleton] at hx
                subst hx
                exact hval₁
            | interface itf =>
              simp only [hp, M.pure_eq] at hm
              cases hm
              exact ⟨hInv₁, hPost₁, hval₁⟩
          | none =>
            simp only [hp, M.bind_eq_some, pushErr_eq, M.pure_eq] at hm
            obtain ⟨u, s₃, h3, h4⟩ := hm
            cases h3
            cases h4
            exact ⟨hInv₁.of_parts_eq rfl rfl rfl rfl,
              hPost₁.trans (Post.of_instructions_eq rfl), trivial⟩
    | wireReference wr =>
      simp only [M.pure_eq] at h2
      cases h2
      exact ⟨hInv₁, hPost₁, trivial⟩

theorem PE_succ {n : Nat} (ihPE : PE n) (ihPW : PW n) (ihPFC : PFC n) : PE (n + 1) := by
  intro ctx e s r s' hInv h
  cases e with
  | num v =>
    simp only [flatten_expr, allocInstr_eq] at h
    cases h
    exact ⟨hInv.alloc (by simp [instrDeps, sourceDeps]) (Or.inl (RangeProper.of_not_ctrl (by rfl))),
      Post.palloc (RangeProper.of_not_ctrl (by rfl)), by simp⟩
  | unaryOp op right =>
    simp only [flatten_expr, M.bind_eq_some] at h
    obtain ⟨r₁, s₁, h1, h2⟩ := h
    obtain ⟨hInv₁, hPost₁, hr₁⟩ := ihPE ctx right s r₁ s₁ hInv h1
    simp only [allocInstr_eq] at h2
    cases h2
    refine ⟨hInv₁.alloc (by simp [instrDeps, sourceDeps]; exact hr₁)
      (Or.inl (RangeProper.of_not_ctrl (by rfl))),
      hPost₁.trans (Post.palloc (RangeProper.of_not_ctrl (by rfl))), by simp⟩
  | binaryOp op left right =>
    simp only [flatten_expr, M.bind_eq_some] at h
    obtain ⟨l₁, s₁, h1, h2⟩ := h
    obtain ⟨r₁, s₂, h3, h4⟩ := h2
    obtain ⟨hInv₁, hPost₁, hl₁⟩ := ihPE ctx left s l₁ s₁ hInv h1
    obtain ⟨hInv₂, hPost₂, hr₁⟩ := ihPE ctx right s₁ r₁ s₂ hInv₁ h3
    simp only [allocInstr_eq] at h4
    cases h4
    refine ⟨hInv₂.alloc ?_ (Or.inl (RangeProper.of_not_ctrl (by rfl))),
      (hPost₁.trans hPost₂).trans (Post.palloc (RangeProper.of_not_ctrl (by rfl))), by simp⟩
    simp only [instrDeps, sourceDeps]
    intro d hd
    rcases List.mem_cons.mp hd with hd | hd
    · subst hd
      exact lt_of_lt_of_le hl₁ hPost₂.len_le
    · simp only [List.mem_singleton] at hd
      subst hd
      exact hr₁
  | paren inner =>
    simp only [flatten_expr] at h
    exact ihPE ctx inner s r s' hInv h
  | funcCall callee args =>
    simp only [flatten_expr, M.bind_eq_some] at h
    obtain ⟨fc?, s₁, h1, h2⟩ := h
    obtain ⟨hInv₁, hPost₁, hfcid⟩ := ihPFC ctx callee args s fc? s₁ hInv h1
    cases fc? with
    | none =>
      simp only [allocInstr_eq] at h2
      cases h2
      exact ⟨hInv₁.alloc (by simp [instrDeps, sourceDeps])
        (Or.inl (RangeProper.of_not_ctrl (by rfl))),
        hPost₁.trans (Post.palloc (RangeProper.of_not_ctrl (by rfl))), by simp⟩
    | some fc_id =>
      simp only [M.bind_eq_some, getInstr_eq_some] at h2
      obtain ⟨a, s₂, ⟨ha, rfl⟩, hm⟩ := h2
      cases a <;> simp only [M.fail_eq] at hm <;> try exact Option.noConfusion hm
      case funcCall fc =>
        simp only [M.bind_eq_some] at hm
        obtain ⟨mi, s₃, hgi, hm2⟩ := hm
        have hs₃ := get_interface_reference_spec hgi
        subst hs₃
        have hsub_lt : fc.interface_reference.submodule_decl < fc_id := by
          refine hInv₁.depsOk fc_id _ ha fc.interface_reference.submodule_decl ?_
          simp [instrDeps]
        have hfc_lt := (List.getElem?_eq_some.mp ha).1
        by_cases hc : mi.2.func_call_outputs.len ≠ 1
        · rw [if_pos hc] at hm2
          simp only [M.bind_eq_some, pushErr_eq] at hm2
          obtain ⟨u, s₄, hif, halloc⟩ := hm2
          simp only [Option.some.injEq, Prod.mk.injEq] at hif
          obtain ⟨-, hs₄⟩ := hif
          have hInstr₄ : s₄.instructions = s₃.instructions := by rw [← hs₄]
          have hInv₄ : INV ctx s₄ :=
            hInv₁.of_parts_eq hInstr₄ (by rw [← hs₄]) (by rw [← hs₄]) (by rw [← hs₄])
          have hPost₄ : Post s₃ s₄ := Post.of_instructions_eq hInstr₄
          by_cases hc2 : mi.2.func_call_outputs.len ≥ 1
          · rw [if_pos hc2] at halloc
            simp only [allocInstr_eq] at halloc
            cases halloc
            refine ⟨hInv₄.alloc ?_ (Or.inl (RangeProper.of_not_ctrl (by rfl))),
              (hPost₁.trans hPost₄).trans
                (Post.palloc (RangeProper.of_not_ctrl (by rfl))), by simp⟩
            simp only [instrDeps, sourceDeps, WireReference.simple_port, wrDeps, wrRootDeps,
              wrPathDeps, List.map_nil, List.append_nil, List.mem_singleton, hInstr₄]
            intro d hd
            subst hd
            omega
          · rw [if_neg hc2] at halloc
            simp only [allocInstr_eq] at halloc
            cases halloc
            exact ⟨hInv₄.alloc (by simp [instrDeps, sourceDeps])
              (Or.inl (RangeProper.of_not_ctrl (by rfl))),
              (hPost₁.trans hPost₄).trans
                (Post.palloc (RangeProper.of_not_ctrl (by rfl))), by simp⟩
        · rw [if_neg hc] at hm2
          simp only [M.bind_eq_some, M.pure_eq] at hm2
          obtain ⟨u, s₄, hif, halloc⟩ := hm2
          cases hif
          by_cases hc2 : mi.2.func_call_outputs.len ≥ 1
          · rw [if_pos hc2] at halloc
            simp only [allocInstr_eq] at halloc
            cases halloc
            refine ⟨hInv₁.alloc ?_ (Or.inl (RangeProper.of_not_ctrl (by rfl))),
              hPost₁.trans (Post.palloc (RangeProper.of_not_ctrl (by rfl))), by simp⟩
            simp only [instrDeps, sourceDeps, WireReference.simple_port, wrDeps, wrRootDeps,
              wrPathDeps, List.map_nil, List.append_nil, List.mem_singleton]
            intro d hd
            subst hd
            omega
          · rw [if_neg hc2] at halloc
            simp only [allocInstr_eq] at halloc
            cases halloc
            exact ⟨hInv₁.alloc (by simp [instrDeps, sourceDeps])
              (Or.inl (RangeProper.of_not_ctrl (by rfl))),
              hPost₁.trans (Post.palloc (RangeProper.of_not_ctrl (by rfl))), by simp⟩
  | globalIdent name =>
    simp only [flatten_expr, M.bind_eq_some] at h
    obtain ⟨pwr, s₁, h1, h2⟩ := h
    obtain ⟨wr?, s₂, hew, hm⟩ := h2
    obtain ⟨hInv₁, hPost₁, hval₁⟩ := ihPW ctx _ s pwr s₁ hInv h1
    obtain ⟨he1, he2, he3, he4, he5, hwsome⟩ := expect_wireref_spec hew
    have hInv₂ : INV ctx s₂ := hInv₁.of_parts_eq he1 he3 he4 he5
    have hPost₂ : Post s₁ s₂ := Post.of_instructions_eq he1
    cases wr? with
    | some wr =>
      simp only [allocInstr_eq] at hm
      cases hm
      refine ⟨hInv₂.alloc ?_ (Or.inl (RangeProper.of_not_ctrl (by rfl))),
        (hPost₁.trans hPost₂).trans (Post.palloc (RangeProper.of_not_ctrl (by rfl))), by simp⟩
      simp only [instrDeps, sourceDeps]
      intro d hd
      have := hval₁
      rw [hwsome wr rfl] at this
      rw [he1]
      exact this d hd
    | none =>
      simp only [allocInstr_eq] at hm
      cases hm
      exact ⟨hInv₂.alloc (by simp [instrDeps, sourceDeps])
        (Or.inl (RangeProper.of_not_ctrl (by rfl))),
        (hPost₁.trans hPost₂).trans (Post.palloc (RangeProper.of_not_ctrl (by rfl))), by simp⟩
  | arrayOp arr idx =>
    simp only [flatten_expr, M.bind_eq_some] at h
    obtain ⟨pwr, s₁, h1, h2⟩ := h
    obtain ⟨wr?, s₂, hew, hm⟩ := h2
    obtain ⟨hInv₁, hPost₁, hval₁⟩ := ihPW ctx _ s pwr s₁ hInv h1
    obtain ⟨he1, he2, he3, he4, he5, hwsome⟩ := expect_wireref_spec hew
    have hInv₂ : INV ctx s₂ := hInv₁.of_parts_eq he1 he3 he4 he5
    have hPost₂ : Post s₁ s₂ := Post.of_instructions_eq he1
    cases wr? with
    | some wr =>
      simp only [allocInstr_eq] at hm
      cases hm
      refine ⟨hInv₂.alloc ?_ (Or.inl (RangeProper.of_not_ctrl (by rfl))),
        (hPost₁.trans hPost₂).trans (Post.palloc (RangeProper.of_not_ctrl (by rfl))), by simp⟩
      simp only [instrDeps, sourceDeps]
      intro d hd
      have := hval₁
      rw [hwsome wr rfl] at this
      rw [he1]
      exact this d hd
    | none =>
      simp only [allocInstr_eq] at hm
      cases hm
      exact ⟨hInv₂.alloc (by simp [instrDeps, sourceDeps])
        (Or.inl (RangeProper.of_not_ctrl (by rfl))),
        (hPost₁.trans hPost₂).trans (Post.palloc (RangeProper.of_not_ctrl (by rfl))), by simp⟩
  | fieldAccess left pname =>
    simp only [flatten_expr, M.bind_eq_some] at h
    obtain ⟨pwr, s₁, h1, h2⟩ := h
    obtain ⟨wr?, s₂, hew, hm⟩ := h2
    obtain ⟨hInv₁, hPost₁, hval₁⟩ := ihPW ctx _ s pwr s₁ hInv h1
    obtain ⟨he1, he2, he3, he4, he5, hwsome⟩ := expect_wireref_spec hew
    have hInv₂ : INV ctx s₂ := hInv₁.of_parts_eq he1 he3 he4 he5
    have hPost₂ : Post s₁ s₂ := Post.of_instructions_eq he1
    cases wr? with
    | some wr =>
      simp only [allocInstr_eq] at hm
      cases hm
      refine ⟨hInv₂.alloc ?_ (Or.inl (RangeProper.of_not_ctrl (by rfl))),
        (hPost₁.trans hPost₂).trans (Post.palloc (RangeProper.of_not_ctrl (by rfl))), by simp⟩
      simp only [instrDeps, sourceDeps]
      intro d hd
      have := hval₁
      rw [hwsome wr rfl] at this
      rw [he1]
      exact this d hd
    | none =>
      simp only [allocInstr_eq] at hm
      cases hm
      exact ⟨hInv₂.alloc (by simp [instrDeps, sourceDeps])
        (Or.inl (RangeProper.of_not_ctrl (by rfl))),
        (hPost₁.trans hPost₂).trans (Post.palloc (RangeProper.of_not_ctrl (by rfl))), by simp⟩

/-- Final step of `flatten_func_call`: allocating the `funcCall`
instruction preserves the invariant when the interface submodule and all
argument IDs are in range. -/
theorem funcCall_alloc_step {ctx : Ctx} {s₀ s₄ s' : FState} {r : Option Nat}
    {ir : ModuleInterfaceReference} {args' : List Nat} {fcin fcout : PortRange}
    (hInv₄ : INV ctx s₄) (hPost : Post s₀ s₄)
    (hsub : ir.submodule_decl < s₄.instructions.length)
    (hargs : ∀ x ∈ args', x < s₄.instructions.length)
    (h : ∃ a s₁, allocInstr (Instruction.funcCall
        { interface_reference := ir, arguments := args',
          func_call_inputs := fcin, func_call_outputs := fcout }) s₄ = some (a, s₁) ∧
        (pure (some a) : M (Option Nat)) s₁ = some (r, s')) :
    INV ctx s' ∧ Post s₀ s' ∧ ∀ id, r = some id → id < s'.instructions.length := by
  simp only [allocInstr_eq, M.pure_eq] at h
  obtain ⟨fc_id, s₈, hA, hP⟩ := h
  cases hA
  cases hP
  refine ⟨hInv₄.alloc ?_ (Or.inl (RangeProper.of_not_ctrl (by rfl))),
    hPost.trans (Post.palloc (RangeProper.of_not_ctrl (by rfl))), ?_⟩
  · simp only [instrDeps]
    intro d hd
    rcases List.mem_cons.mp hd with hd | hd
    · subst hd
      exact hsub
    · exact hargs d hd
  · intro id hid
    cases hid
    simp

/-- Step lemma for `flatten_func_call`: the invariant and `Post` are
preserved and a returned instruction ID is in range. -/
theorem PFC_succ {n : Nat} (ihPGAM : PGAM n) (ihPARGS : PARGS n) : PFC (n + 1) := by
  intro ctx callee args s r s' hInv h
  simp only [flatten_func_call, M.bind_eq_some] at h
  obtain ⟨ir?, s₁, h1, h⟩ := h
  obtain ⟨arguments, s₂, h2, h⟩ := h
  obtain ⟨hInv₁, hPost₁, hval₁⟩ := ihPGAM ctx callee s ir? s₁ hInv h1
  obtain ⟨hInv₂, hPost₂, hval₂⟩ := ihPARGS ctx args s₁ arguments s₂ hInv₁ h2
  cases ir? with
  | none =>
    simp only [M.pure_eq] at h
    cases h
    exact ⟨hInv₂, hPost₁.trans hPost₂, fun id hid => Option.noConfusion hid⟩
  | some ir =>
    simp only [M.bind_eq_some] at h
    obtain ⟨mi, s₃, hgi, h⟩ := h
    have hs₃ := get_interface_reference_spec hgi
    subst hs₃
    have hsub₃ : ir.submodule_decl < s₃.instructions.length :=
      lt_of_lt_of_le (hval₁ ir rfl) hPost₂.len_le
    by_cases hne : arguments.length ≠ mi.2.func_call_inputs.len
    · rw [if_pos hne] at h
      by_cases hgt : arguments.length > mi.2.func_call_inputs.len
      · rw [if_pos hgt] at h
        cases hfe : arguments[mi.2.func_call_inputs.len]? <;>
          cases hgl : arguments.getLast? <;>
          simp only [hfe, hgl, M.bind_eq_some, M.fail_eq, false_and, exists_false,
            and_false] at h
        all_goals first
          | exact Option.noConfusion h
          | (obtain ⟨a0, s0, hcontra, -⟩ := h
             exact Option.noConfusion hcontra)
          | skip
        rename_i firstExcess lastArg
        obtain ⟨w1, s₅, hw1g, h⟩ := h
        rw [getInstr_eq_some] at hw1g
        obtain ⟨hw1, rfl⟩ := hw1g
        obtain ⟨w2, s₆, hw2g, h⟩ := h
        rw [getInstr_eq_some] at hw2g
        obtain ⟨hw2, rfl⟩ := hw2g
        cases w1 <;> cases w2 <;>
          simp only [M.bind_eq_some, M.fail_eq, false_and, exists_false, and_false] at h
        all_goals first
          | exact Option.noConfusion h
          | (obtain ⟨a1, s1, hcontra, -⟩ := h
             exact Option.noConfusion hcontra)
          | skip
        obtain ⟨u, s₇, h7, h⟩ := h
        rw [pushErr_eq] at h7
        simp only [Option.some.injEq, Prod.mk.injEq] at h7
        obtain ⟨-, hs₇⟩ := h7
        obtain ⟨a, s₈, hp, h⟩ := h
        rw [M.pure_eq] at hp
        cases hp
        have hInstr₇ : s₇.instructions = s₆.instructions := by rw [← hs₇]
        have hInv₇ : INV ctx s₇ :=
          hInv₂.of_parts_eq hInstr₇ (by rw [← hs₇]) (by rw [← hs₇]) (by rw [← hs₇])
        have hPost₇ : Post s₆ s₇ := Post.of_instructions_eq hInstr₇
        have hargsOK : ∀ x ∈ arguments.take mi.2.func_call_inputs.len,
            x < s₇.instructions.length := by
          intro x hx
          rw [hInstr₇]
          exact hval₂ x (List.take_subset _ _ hx)
        have hsub₇ : ir.submodule_decl < s₇.instructions.length := by
          rw [hInstr₇]
          exact hsub₃
        exact funcCall_alloc_step hInv₇ ((hPost₁.trans hPost₂).trans hPost₇)
          hsub₇ hargsOK h
      · rw [if_neg hgt] at h
        simp only [M.bind_eq_some] at h
        obtain ⟨u, s₅, h5, h⟩ := h
        rw [pushErr_eq] at h5
        simp only [Option.some.injEq, Prod.mk.injEq] at h5
        obtain ⟨-, hs₅⟩ := h5
        have hInstr₅ : s₅.instructions = s₃.instructions := by rw [← hs₅]
        have hInv₅ : INV ctx s₅ :=
          hInv₂.of_parts_eq hInstr₅ (by rw [← hs₅]) (by rw [← hs₅]) (by rw [← hs₅])
        have hPost₅ : Post s₃ s₅ := Post.of_instructions_eq hInstr₅
        obtain ⟨args', s₄, hpad, h⟩ := h
        obtain ⟨hInv₆, hPost₆, extras, hrs, -, hmem⟩ :=
          padWithErrorWires_spec (mi.2.func_call_inputs.len - arguments.length)
            arguments hInv₅ hpad
        subst hrs
        have hargsOK : ∀ x ∈ arguments ++ extras, x < s₄.instructions.length := by
          intro x hx
          rcases List.mem_append.mp hx with hx | hx
          · have ha1 : x < s₃.instructions.length := hval₂ x hx
            have ha2 := hPost₆.len_le
            rw [hInstr₅] at ha2
            omega
          · exact (List.getElem?_eq_some.mp (hmem x hx)).1
        have hsub₄ : ir.submodule_decl < s₄.instructions.length := by
          have ha2 := hPost₆.len_le
          rw [hInstr₅] at ha2
          omega
        exact funcCall_alloc_step hInv₆
          (((hPost₁.trans hPost₂).trans hPost₅).trans hPost₆) hsub₄ hargsOK h
    · rw [if_neg hne] at h
      simp only [M.bind_eq_some] at h
      obtain ⟨a, s₄, hp, h⟩ := h
      rw [M.pure_eq] at hp
      cases hp
      exact funcCall_alloc_step hInv₂ (hPost₁.trans hPost₂) hsub₃ hval₂ h

/-- All expression-level flattening functions preserve the invariant at
every fuel level. -/
theorem exprPost : ∀ n, PE n ∧ PW n ∧ PAB n ∧ PGAM n ∧ PARGS n ∧ PFC n ∧
    PT n ∧ PAT n ∧ PMOT n := by
  intro n
  induction n with
  | zero =>
    refine ⟨?_, ?_, ?_, ?_, ?_, ?_, ?_, ?_, ?_⟩
    · intro ctx e s r s' _ h
      exact Option.noConfusion h
    · intro ctx e s r s' _ h
      exact Option.noConfusion h
    · intro ctx e s r s' _ h
      exact Option.noConfusion h
    · intro ctx e s r s' _ h
      exact Option.noConfusion h
    · intro ctx es s rs s' _ h
      exact Option.noConfusion h
    · intro ctx callee args s r s' _ h
      exact Option.noConfusion h
    · intro ctx t s r s' _ h
      exact Option.noConfusion h
    · intro ctx elem size s r s' _ h
      exact Option.noConfusion h
    · intro ctx am t s r s' _ h
      exact Option.noConfusion h
  | succ n ih =>
    obtain ⟨hPE, hPW, hPAB, hPGAM, hPARGS, hPFC, hPT, hPAT, hPMOT⟩ := ih
    exact ⟨PE_succ hPE hPW hPFC, PW_succ hPE hPW hPAB, PAB_succ hPE,
      PGAM_succ hPW, PARGS_succ hPE hPARGS, PFC_succ hPGAM hPARGS,
      PT_succ hPAT, PAT_succ hPT hPAB, PMOT_succ hPAT⟩

/-- A `pushErr`-guarded `pure` (the shape of the small diagnostic
segments inside `flatten_declaration`) only ever appends a diagnostic:
instructions, pending ports and port bookkeeping are untouched. -/
theorem guarded_pure_spec {α : Type} {c : Prop} [Decidable c] {dg : Diag} {v : α}
    {s s' : FState} {r : α}
    (h : (if c then pushErr dg >>= fun x => pure v else pure v) s = some (r, s')) :
    r = v ∧ s'.instructions = s.instructions ∧ s'.portsToVisit = s.portsToVisit ∧
      s'.portDecls = s.portDecls ∧ s'.portWrites = s.portWrites := by
  by_cases hc : c
  · rw [if_pos hc] at h
    simp only [M.bind_eq_some, pushErr_eq, M.pure_eq, Option.some.injEq,
      Prod.mk.injEq] at h
    obtain ⟨u, s₁, ⟨-, hs₁⟩, hr, hs'⟩ := h
    subst hs'
    exact ⟨hr.symm, by rw [← hs₁], by rw [← hs₁], by rw [← hs₁], by rw [← hs₁]⟩
  · rw [if_neg hc] at h
    rw [M.pure_eq] at h
    cases h
    exact ⟨rfl, rfl, rfl, rfl, rfl⟩

/-- `decl_is_input_port` only ever appends a diagnostic. -/
theorem decl_is_input_port_spec {dc : DeclarationContext} {d : DeclAST}
    {s s' : FState} {r : Option Bool}
    (h : decl_is_input_port dc d s = some (r, s')) :
    s'.instructions = s.instructions ∧ s'.portsToVisit = s.portsToVisit ∧
      s'.portDecls = s.portDecls ∧ s'.portWrites = s.portWrites := by
  cases dc with
  | input =>
    simp only [decl_is_input_port] at h
    exact (guarded_pure_spec h).2
  | output =>
    simp only [decl_is_input_port] at h
    exact (guarded_pure_spec h).2
  | forLoopGenerative =>
    simp only [decl_is_input_port] at h
    exact (guarded_pure_spec h).2
  | plainWire =>
    simp only [decl_is_input_port] at h
    cases hio : d.io_kw <;> simp only [hio, M.pure_eq] at h <;> cases h <;>
      exact ⟨rfl, rfl, rfl, rfl⟩

/-- `decl_identifier_type` only ever appends a diagnostic. -/
theorem decl_identifier_type_spec {dc : DeclarationContext} {iip : Option Bool}
    {d : DeclAST} {s s' : FState} {r : IdentifierType}
    (h : decl_identifier_type dc iip d s = some (r, s')) :
    s'.instructions = s.instructions ∧ s'.portsToVisit = s.portsToVisit ∧
      s'.portDecls = s.portDecls ∧ s'.portWrites = s.portWrites := by
  cases dc with
  | forLoopGenerative =>
    simp only [decl_identifier_type] at h
    exact (guarded_pure_spec h).2
  | input =>
    cases hm : d.modifiers with
    | none =>
      simp only [decl_identifier_type, hm, M.pure_eq] at h
      cases h
      exact ⟨rfl, rfl, rfl, rfl⟩
    | some mk =>
      cases mk <;> simp only [decl_identifier_type, hm] at h <;>
        exact (guarded_pure_spec h).2
  | output =>
    cases hm : d.modifiers with
    | none =>
      simp only [decl_identifier_type, hm, M.pure_eq] at h
      cases h
      exact ⟨rfl, rfl, rfl, rfl⟩
    | some mk =>
      cases mk <;> simp only [decl_identifier_type, hm] at h <;>
        exact (guarded_pure_spec h).2
  | plainWire =>
    cases hm : d.modifiers with
    | none =>
      simp only [decl_identifier_type, hm, M.pure_eq] at h
      cases h
      exact ⟨rfl, rfl, rfl, rfl⟩
    | some mk =>
      cases mk <;> simp only [decl_identifier_type, hm] at h <;>
        exact (guarded_pure_spec h).2

/-- `decl_latency`: flattening the optional latency expression
preserves the invariant, and a returned wire ID is in range. -/
theorem decl_latency_spec {n : Nat} {ctx : Ctx} {lat : Option Expr}
    {s s' : FState} {r : Option Nat} (hInv : INV ctx s)
    (h : decl_latency n ctx lat s = some (r, s')) :
    INV ctx s' ∧ Post s s' ∧ ∀ l, r = some l → l < s'.instructions.length := by
  cases lat with
  | none =>
    simp only [decl_latency, M.pure_eq] at h
    cases h
    exact ⟨hInv, Post.prefl _, fun l hl => Option.noConfusion hl⟩
  | some le =>
    simp only [decl_latency, M.bind_eq_some] at h
    obtain ⟨l, s₁, h1, h2⟩ := h
    obtain ⟨hInv₁, hPost₁, hlt⟩ := (exprPost n).1 ctx le s l s₁ hInv h1
    rw [M.pure_eq] at h2
    cases h2
    refine ⟨hInv₁, hPost₁, ?_⟩
    intro l' hl'
    cases hl'
    exact hlt

/-- `alloc_declaration` of a non-control instruction with in-range
dependencies preserves the invariant; the new ID is the old length. -/
theorem alloc_declaration_post {ctx : Ctx} {name : String} {inst : Instruction}
    {s s' : FState} {r : Nat} (hInv : INV ctx s)
    (hdeps : ∀ d ∈ instrDeps inst, d < s.instructions.length)
    (hctrl : isCtrl inst = false)
    (h : alloc_declaration name inst s = some (r, s')) :
    INV ctx s' ∧ Post s s' ∧ r = s.instructions.length ∧
      s'.instructions = s.instructions ++ [inst] ∧
      s'.portsToVisit = s.portsToVisit ∧ s'.portDecls = s.portDecls ∧
      s'.portWrites = s.portWrites := by
  obtain ⟨hr, hi, hv, hd, hw⟩ := alloc_declaration_spec h
  exact ⟨(hInv.alloc hdeps (Or.inl (RangeProper.of_not_ctrl hctrl))).of_parts_eq hi hv hd hw,
    (Post.palloc (RangeProper.of_not_ctrl hctrl)).trans (Post.of_instructions_eq hi),
    hr, hi, hv, hd, hw⟩

/-- `flatten_declaration` preserves the invariant and returns the ID of
the freshly allocated declaration/submodule instruction. -/
theorem flatten_declaration_spec {n : Nat} {ctx : Ctx}
    {dc : DeclarationContext} {ro dn am : Bool} {d : DeclAST}
    {s s' : FState} {r : Nat} (hInv : INV ctx s)
    (h : flatten_declaration n ctx dc ro dn am d s = some (r, s')) :
    INV ctx s' ∧ Post s s' ∧ r < s'.instructions.length := by
  simp only [flatten_declaration, M.bind_eq_some] at h
  obtain ⟨iip, s₁, h1, h⟩ := h
  obtain ⟨hi1, hv1, hd1, hw1⟩ := decl_is_input_port_spec h1
  have hInv₁ : INV ctx s₁ := hInv.of_parts_eq hi1 hv1 hd1 hw1
  have hPost₁ : Post s s₁ := Post.of_instructions_eq hi1
  obtain ⟨idt, s₂, h2, h⟩ := h
  obtain ⟨hi2, hv2, hd2, hw2⟩ := decl_identifier_type_spec h2
  have hInv₂ : INV ctx s₂ := hInv₁.of_parts_eq hi2 hv2 hd2 hw2
  have hPost₂ : Post s₁ s₂ := Post.of_instructions_eq hi2
  obtain ⟨tom, s₃, h3, h⟩ := h
  obtain ⟨hInv₃, hPost₃, hval₃⟩ :=
    (exprPost n).2.2.2.2.2.2.2.2 ctx am d.typ s₂ tom s₃ hInv₂ h3
  obtain ⟨slat, s₄, h4, h⟩ := h
  obtain ⟨hInv₄, hPost₄, hlt₄⟩ := decl_latency_spec hInv₃ h4
  have hPostPre : Post s s₄ :=
    ((hPost₁.trans hPost₂).trans hPost₃).trans hPost₄
  cases tom with
  | moduleRef module_uuid =>
    simp only [] at h
    by_cases hlat : slat.isSome
    · rw [if_pos hlat] at h
      simp only [M.bind_eq_some] at h
      obtain ⟨u, s₅, h5, h⟩ := h
      rw [pushErr_eq] at h5
      simp only [Option.some.injEq, Prod.mk.injEq] at h5
      obtain ⟨-, hs₅⟩ := h5
      have hi5 : s₅.instructions = s₄.instructions := by rw [← hs₅]
      have hInv₅ : INV ctx s₅ :=
        hInv₄.of_parts_eq hi5 (by rw [← hs₅]) (by rw [← hs₅]) (by rw [← hs₅])
      have hPost₅ : Post s₄ s₅ := Post.of_instructions_eq hi5
      obtain ⟨hInvA, hPostA, hrA, hiA, -, -, -⟩ :=
        alloc_declaration_post hInv₅ (by simp [instrDeps]) (by rfl) h
      refine ⟨hInvA, (hPostPre.trans hPost₅).trans hPostA, ?_⟩
      rw [hrA, hiA]
      simp
    · rw [if_neg hlat] at h
      obtain ⟨hInvA, hPostA, hrA, hiA, -, -, -⟩ :=
        alloc_declaration_post hInv₄ (by simp [instrDeps]) (by rfl) h
      refine ⟨hInvA, hPostPre.trans hPostA, ?_⟩
      rw [hrA, hiA]
      simp
  | writtenType typ_expr =>
    simp only [M.bind_eq_some] at h
    obtain ⟨decl_id, s₅, hA, h⟩ := h
    obtain ⟨hInv₅, hPost₅, hr₅, hi₅, -, -, -⟩ :=
      alloc_declaration_post hInv₄
        (by
          simp only [instrDeps]
          intro x hx
          rcases List.mem_append.mp hx with hx | hx
          · exact lt_of_lt_of_le (hval₃ typ_expr rfl x hx) hPost₄.len_le
          · cases hsl : slat with
            | none =>
              rw [hsl] at hx
              simp at hx
            | some l =>
              rw [hsl] at hx
              simp only [List.mem_singleton] at hx
              subst hx
              exact hlt₄ x hsl)
        (by rfl) hA
    by_cases hiip : iip.isSome
    · rw [if_pos hiip] at h
      simp only [M.bind_eq_some] at h
      obtain ⟨pid, s₆, hpop, h⟩ := h
      obtain ⟨u, s₇, hassign, h⟩ := h
      rw [M.pure_eq] at h
      simp only [Option.some.injEq, Prod.mk.injEq] at h
      obtain ⟨hr', hs'⟩ := h
      subst hr'
      subst hs'
      have hdecl : s₅.instructions[decl_id]? = some (.declaration
          { typ_expr := typ_expr,
            name := d.dname,
            name_span := d.name_span,
            read_only := ro,
            declaration_itself_is_not_written_to := dn,
            is_input_port := iip,
            identifier_type := idt,
            latency_specifier := slat }) := by
        rw [hi₅, hr₅]
        exact List.getElem?_concat_length _ _
      obtain ⟨hInvP, hiP, -, -⟩ := port_assign_spec hInv₅ hdecl rfl hpop hassign
      refine ⟨hInvP, (hPostPre.trans hPost₅).trans (Post.of_instructions_eq hiP), ?_⟩
      have hl7 : s₇.instructions.length = s₅.instructions.length := by rw [hiP]
      have hl5 : s₅.instructions.length = s₄.instructions.length + 1 := by
        rw [hi₅]
        simp
      omega
    · rw [if_neg hiip] at h
      simp only [M.bind_eq_some, M.pure_eq, Option.some.injEq, Prod.mk.injEq] at h
      obtain ⟨u, s₆, ⟨-, hs₆⟩, hr', hs'⟩ := h
      subst hs₆
      subst hr'
      subst hs'
      refine ⟨hInv₅, hPostPre.trans hPost₅, ?_⟩
      rw [hr₅, hi₅]
      simp

/-- `flatten_assignment_left_side` preserves the invariant and every
produced target's wire-reference dependencies are in range. -/
theorem flatten_assignment_left_side_spec {n : Nat} {ctx : Ctx} :
    ∀ (items : List AssignLeftItem) {s s' : FState}
      {rs : List (Option (WireReference × WriteModifiers))},
    INV ctx s → flatten_assignment_left_side n ctx items s = some (rs, s') →
    INV ctx s' ∧ Post s s' ∧ ToValid rs s'.instructions.length := by
  intro items
  induction items with
  | nil =>
    intro s s' rs hInv h
    simp only [flatten_assignment_left_side, M.pure_eq] at h
    cases h
    exact ⟨hInv, Post.prefl _, ToValid.nil⟩
  | cons item rest ih =>
    intro s s' rs hInv h
    simp only [flatten_assignment_left_side, M.bind_eq_some] at h
    obtain ⟨wm, s₁, h1, h⟩ := h
    have hs₁ := flatten_write_modifiers_spec h1
    subst hs₁
    cases htg : item.target with
    | decl d =>
      rw [htg] at h
      simp only [M.bind_eq_some] at h
      obtain ⟨root, s₃, hd, h⟩ := h
      obtain ⟨hInv₃, hPost₃, hroot⟩ := flatten_declaration_spec hInv hd
      obtain ⟨ri, s₄, hri, h⟩ := h
      rw [getInstr_eq_some] at hri
      obtain ⟨hri, rfl⟩ := hri
      cases ri <;> simp only [M.bind_eq_some, M.fail_eq, false_and, exists_false,
        and_false] at h
      all_goals first
        | exact Option.noConfusion h
        | (obtain ⟨a0, s0, hcontra, -⟩ := h
           exact Option.noConfusion hcontra)
        | skip
      rename_i dd
      obtain ⟨entry, s₅, hp, h⟩ := h
      rw [M.pure_eq] at hp
      cases hp
      obtain ⟨restEntries, s₆, hrec, h⟩ := h
      obtain ⟨hInvR, hPostR, hvalR⟩ := ih hInv₃ hrec
      rw [M.pure_eq] at h
      cases h
      refine ⟨hInvR, hPost₃.trans hPostR, ?_⟩
      intro e he wr wmx heq x hx
      rcases List.mem_cons.mp he with he | he
      · subst he
        cases heq
        simp only [wrDeps, wrRootDeps, wrPathDeps, List.map_nil, List.append_nil,
          List.mem_singleton] at hx
        subst hx
        exact lt_of_lt_of_le hroot hPostR.len_le
      · exact hvalR e he wr wmx heq x hx
    | expr e =>
      rw [htg] at h
      simp only [M.bind_eq_some] at h
      obtain ⟨pwr, s₃, hw, h⟩ := h
      obtain ⟨hInv₃, hPost₃, hpwr⟩ := (exprPost n).2.1 ctx e _ pwr s₃ hInv hw
      obtain ⟨wr?, s₄, hew, h⟩ := h
      obtain ⟨he1, he2, he3, he4, he5, hwsome⟩ := expect_wireref_spec hew
      have hInv₄ : INV ctx s₄ := hInv₃.of_parts_eq he1 he3 he4 he5
      have hPost₄ : Post s₃ s₄ := Post.of_instructions_eq he1
      cases wr? with
      | some wire_ref =>
        simp only [M.bind_eq_some] at h
        obtain ⟨entry, s₅, hp, h⟩ := h
        rw [M.pure_eq] at hp
        cases hp
        obtain ⟨restEntries, s₆, hrec, h⟩ := h
        obtain ⟨hInvR, hPostR, hvalR⟩ := ih hInv₄ hrec
        rw [M.pure_eq] at h
        cases h
        refine ⟨hInvR, (hPost₃.trans hPost₄).trans hPostR, ?_⟩
        intro en he wr wmx heq x hx
        rcases List.mem_cons.mp he with he | he
        · subst he
          cases heq
          have hv := hpwr
          rw [hwsome wire_ref rfl] at hv
          have hx' : x < s₃.instructions.length := hv x hx
          have := hPostR.len_le
          rw [← he1] at hx'
          omega
        · exact hvalR en he wr wmx heq x hx
      | none =>
        simp only [M.bind_eq_some] at h
        obtain ⟨entry, s₅, hp, h⟩ := h
        rw [M.pure_eq] at hp
        cases hp
        obtain ⟨restEntries, s₆, hrec, h⟩ := h
        obtain ⟨hInvR, hPostR, hvalR⟩ := ih hInv₄ hrec
        rw [M.pure_eq] at h
        cases h
        refine ⟨hInvR, (hPost₃.trans hPost₄).trans hPostR, ?_⟩
        intro en he wr wmx heq x hx
        rcases List.mem_cons.mp he with he | he
        · subst he
          cases heq
        · exact hvalR en he wr wmx heq x hx

/-- `flatten_assign_function_call` preserves the invariant given
in-range targets. -/
theorem flatten_assign_function_call_spec {n : Nat} {ctx : Ctx}
    {to_ : List (Option (WireReference × WriteModifiers))} {callee : Expr}
    {args : List Expr} {s s' : FState} {u : Unit}
    (hInv : INV ctx s) (hval : ToValid to_ s.instructions.length)
    (h : flatten_assign_function_call n ctx to_ callee args s = some (u, s')) :
    INV ctx s' ∧ Post s s' := by
  simp only [flatten_assign_function_call, M.bind_eq_some] at h
  obtain ⟨fc?, s₁, h1, h⟩ := h
  obtain ⟨hInv₁, hPost₁, hfcid⟩ :=
    (exprPost n).2.2.2.2.2.1 ctx callee args s fc? s₁ hInv h1
  have hval₁ : ToValid to_ s₁.instructions.length := hval.vmono hPost₁.len_le
  cases fc? with
  | none =>
    simp only [M.bind_eq_some] at h
    obtain ⟨lv, s₂, hp, h⟩ := h
    rw [M.pure_eq] at hp
    cases hp
    obtain ⟨hInv₂, hPost₂⟩ := emitLeftoverWrites_spec to_ hInv₁ hval₁ h
    exact ⟨hInv₂, hPost₁.trans hPost₂⟩
  | some fc_id =>
    simp only [M.bind_eq_some] at h
    obtain ⟨fci, s₂, hgi0, h⟩ := h
    rw [getInstr_eq_some] at hgi0
    obtain ⟨ha, rfl⟩ := hgi0
    cases fci <;> simp only [M.bind_eq_some, M.fail_eq, false_and, exists_false,
      and_false] at h
    all_goals first
      | exact Option.noConfusion h
      | (obtain ⟨a0, s0, hcontra, -⟩ := h
         exact Option.noConfusion hcontra)
      | skip
    rename_i fc
    obtain ⟨mi, s₃, hgi, h⟩ := h
    have hs₃ := get_interface_reference_spec hgi
    subst hs₃
    have hsub : fc.interface_reference.submodule_decl < s₃.instructions.length := by
      have hlt1 : fc.interface_reference.submodule_decl < fc_id :=
        hInv₁.depsOk fc_id _ ha fc.interface_reference.submodule_decl
          (by simp [instrDeps])
      have hlt2 : fc_id < s₃.instructions.length := (List.getElem?_eq_some.mp ha).1
      omega
    by_cases hne : to_.length ≠ mi.2.func_call_outputs.len
    · rw [if_pos hne] at h
      by_cases hgt : to_.length > mi.2.func_call_outputs.len
      · rw [if_pos hgt] at h
        simp only [M.bind_eq_some] at h
        obtain ⟨u1, s₄, h4, h⟩ := h
        rw [pushErr_eq] at h4
        simp only [Option.some.injEq, Prod.mk.injEq] at h4
        obtain ⟨-, hs₄⟩ := h4
        have hi₄ : s₄.instructions = s₃.instructions := by rw [← hs₄]
        have hInv₄ : INV ctx s₄ :=
          hInv₁.of_parts_eq hi₄ (by rw [← hs₄]) (by rw [← hs₄]) (by rw [← hs₄])
        have hPost₄ : Post s₃ s₄ := Post.of_instructions_eq hi₄
        obtain ⟨lv, s₅, hemit, h⟩ := h
        obtain ⟨hInv₅, hPost₅, hlv⟩ := emitOutputWrites_spec _ _ hInv₄
          (by rw [hi₄]; exact hval₁) (by rw [hi₄]; exact hsub) hemit
        obtain ⟨hInv₆, hPost₆⟩ := emitLeftoverWrites_spec lv hInv₅ hlv h
        exact ⟨hInv₆, ((hPost₁.trans hPost₄).trans hPost₅).trans hPost₆⟩
      · rw [if_neg hgt] at h
        simp only [M.bind_eq_some] at h
        obtain ⟨u1, s₄, h4, h⟩ := h
        rw [pushErr_eq] at h4
        simp only [Option.some.injEq, Prod.mk.injEq] at h4
        obtain ⟨-, hs₄⟩ := h4
        have hi₄ : s₄.instructions = s₃.instructions := by rw [← hs₄]
        have hInv₄ : INV ctx s₄ :=
          hInv₁.of_parts_eq hi₄ (by rw [← hs₄]) (by rw [← hs₄]) (by rw [← hs₄])
        have hPost₄ : Post s₃ s₄ := Post.of_instructions_eq hi₄
        obtain ⟨lv, s₅, hemit, h⟩ := h
        obtain ⟨hInv₅, hPost₅, hlv⟩ := emitOutputWrites_spec _ _ hInv₄
          (by rw [hi₄]; exact hval₁) (by rw [hi₄]; exact hsub) hemit
        obtain ⟨hInv₆, hPost₆⟩ := emitLeftoverWrites_spec lv hInv₅ hlv h
        exact ⟨hInv₆, ((hPost₁.trans hPost₄).trans hPost₅).trans hPost₆⟩
    · rw [if_neg hne] at h
      simp only [M.bind_eq_some] at h
      obtain ⟨u0, s₄, hp, h⟩ := h
      rw [M.pure_eq] at hp
      cases hp
      obtain ⟨lv, s₅, hemit, h⟩ := h
      obtain ⟨hInv₅, hPost₅, hlv⟩ := emitOutputWrites_spec _ _ hInv₁ hval₁ hsub hemit
      obtain ⟨hInv₆, hPost₆⟩ := emitLeftoverWrites_spec lv hInv₅ hlv h
      exact ⟨hInv₆, (hPost₁.trans hPost₅).trans hPost₆⟩

/-- `standalone_warns` only ever appends diagnostics. -/
theorem standalone_warns_spec {ifi : Bool} {item : AssignLeftItem} {s s' : FState}
    {u : Unit} (h : standalone_warns ifi item s = some (u, s')) :
    s'.instructions = s.instructions ∧ s'.portsToVisit = s.portsToVisit ∧
      s'.portDecls = s.portDecls ∧ s'.portWrites = s.portWrites := by
  simp only [standalone_warns] at h
  by_cases h1 : ¬ifi = true
  · rw [if_pos h1] at h
    simp only [M.bind_eq_some] at h
    obtain ⟨u1, s₁, hp1, h⟩ := h
    rw [pushErr_eq] at hp1
    simp only [Option.some.injEq, Prod.mk.injEq] at hp1
    obtain ⟨-, hs₁⟩ := hp1
    by_cases h2 : item.write_modifiers.isSome
    · rw [if_pos h2] at h
      rw [pushErr_eq] at h
      simp only [Option.some.injEq, Prod.mk.injEq] at h
      obtain ⟨-, hs'⟩ := h
      subst hs'
      exact ⟨by rw [← hs₁], by rw [← hs₁], by rw [← hs₁], by rw [← hs₁]⟩
    · rw [if_neg h2] at h
      rw [M.pure_eq] at h
      simp only [Option.some.injEq, Prod.mk.injEq] at h
      obtain ⟨-, hs'⟩ := h
      subst hs'
      exact ⟨by rw [← hs₁], by rw [← hs₁], by rw [← hs₁], by rw [← hs₁]⟩
  · rw [if_neg h1] at h
    simp only [M.bind_eq_some] at h
    obtain ⟨u1, s₁, hp1, h⟩ := h
    rw [M.pure_eq] at hp1
    cases hp1
    by_cases h2 : item.write_modifiers.isSome
    · rw [if_pos h2] at h
      rw [pushErr_eq] at h
      simp only [Option.some.injEq, Prod.mk.injEq] at h
      obtain ⟨-, hs'⟩ := h
      subst hs'
      exact ⟨rfl, rfl, rfl, rfl⟩
    · rw [if_neg h2] at h
      rw [M.pure_eq] at h
      simp only [Option.some.injEq, Prod.mk.injEq] at h
      obtain ⟨-, hs'⟩ := h
      subst hs'
      exact ⟨rfl, rfl, rfl, rfl⟩

/-- `flatten_standalone_decls` preserves the invariant. -/
theorem flatten_standalone_decls_spec {n : Nat} {ctx : Ctx} :
    ∀ (items : List AssignLeftItem) (ifi : Bool) {s s' : FState} {u : Unit},
    INV ctx s → flatten_standalone_decls n ctx ifi items s = some (u, s') →
    INV ctx s' ∧ Post s s' := by
  intro items
  induction items with
  | nil =>
    intro ifi s s' u hInv h
    simp only [flatten_standalone_decls, M.pure_eq] at h
    cases h
    exact ⟨hInv, Post.prefl _⟩
  | cons item rest ih =>
    intro ifi s s' u hInv h
    simp only [flatten_standalone_decls, M.bind_eq_some] at h
    obtain ⟨uw, s₁, hw, h⟩ := h
    obtain ⟨hwi, hwv, hwd, hww⟩ := standalone_warns_spec hw
    have hInv₁ : INV ctx s₁ := hInv.of_parts_eq hwi hwv hwd hww
    have hPost₁ : Post s s₁ := Post.of_instructions_eq hwi
    cases htg : item.target with
    | decl d =>
      rw [htg] at h
      simp only [M.bind_eq_some] at h
      obtain ⟨root, s₂, hd, h⟩ := h
      obtain ⟨hInv₂, hPost₂, -⟩ := flatten_declaration_spec hInv₁ hd
      obtain ⟨hInvR, hPostR⟩ := ih false hInv₂ h
      exact ⟨hInvR, (hPost₁.trans hPost₂).trans hPostR⟩
    | expr e =>
      rw [htg] at h
      cases e
      case funcCall callee args =>
        simp only [M.bind_eq_some] at h
        obtain ⟨u2, s₂, hfc, h⟩ := h
        obtain ⟨hInv₂, hPost₂⟩ := flatten_assign_function_call_spec hInv₁ ToValid.nil hfc
        obtain ⟨hInvR, hPostR⟩ := ih false hInv₂ h
        exact ⟨hInvR, (hPost₁.trans hPost₂).trans hPostR⟩
      all_goals
        (simp only [M.bind_eq_some] at h
         obtain ⟨u2, s₂, hp, h⟩ := h
         rw [pushErr_eq] at hp
         simp only [Option.some.injEq, Prod.mk.injEq] at hp
         obtain ⟨-, hs₂⟩ := hp
         have hi₂ : s₂.instructions = s₁.instructions := by rw [← hs₂]
         have hInv₂ : INV ctx s₂ := hInv₁.of_parts_eq hi₂ (by rw [← hs₂])
           (by rw [← hs₂]) (by rw [← hs₂])
         have hPost₂ : Post s₁ s₂ := Post.of_instructions_eq hi₂
         obtain ⟨rid, s₃, he, h⟩ := h
         obtain ⟨hInv₃, hPost₃, -⟩ := (exprPost n).1 ctx _ _ _ _ hInv₂ he
         obtain ⟨hInvR, hPostR⟩ := ih false hInv₃ h
         exact ⟨hInvR, ((hPost₁.trans hPost₂).trans hPost₃).trans hPostR⟩)

/-- `flatten_declaration_list` preserves the invariant. -/
theorem flatten_declaration_list_spec {n : Nat} {ctx : Ctx}
    {dc : DeclarationContext} {ro : Bool} :
    ∀ (ds : List DeclAST) {s s' : FState} {u : Unit},
    INV ctx s → flatten_declaration_list n ctx dc ro ds s = some (u, s') →
    INV ctx s' ∧ Post s s' := by
  intro ds
  induction ds with
  | nil =>
    intro s s' u hInv h
    simp only [flatten_declaration_list, M.pure_eq] at h
    cases h
    exact ⟨hInv, Post.prefl _⟩
  | cons d rest ih =>
    intro s s' u hInv h
    simp only [flatten_declaration_list, M.bind_eq_some] at h
    obtain ⟨id, s₁, hd, h⟩ := h
    obtain ⟨hInv₁, hPost₁, -⟩ := flatten_declaration_spec hInv hd
    obtain ⟨hInvR, hPostR⟩ := ih hInv₁ h
    exact ⟨hInvR, hPost₁.trans hPostR⟩

/-- `flatten_interface_ports` preserves the invariant. -/
theorem flatten_interface_ports_spec {n : Nat} {ctx : Ctx}
    {ip : InterfacePortsAST} {s s' : FState} {u : Unit}
    (hInv : INV ctx s) (h : flatten_interface_ports n ctx ip s = some (u, s')) :
    INV ctx s' ∧ Post s s' := by
  simp only [flatten_interface_ports, M.bind_eq_some] at h
  cases hin : ip.inputs with
  | some ds =>
    rw [hin] at h
    simp only [M.bind_eq_some] at h
    obtain ⟨u1, s₁, hl, h⟩ := h
    obtain ⟨hInv₁, hPost₁⟩ := flatten_declaration_list_spec _ hInv hl
    cases hout : ip.outputs with
    | some ds2 =>
      rw [hout] at h
      obtain ⟨hInv₂, hPost₂⟩ := flatten_declaration_list_spec _ hInv₁ h
      exact ⟨hInv₂, hPost₁.trans hPost₂⟩
    | none =>
      rw [hout] at h
      simp only [M.pure_eq] at h
      cases h
      exact ⟨hInv₁, hPost₁⟩
  | none =>
    rw [hin] at h
    simp only [M.bind_eq_some] at h
    obtain ⟨u1, s₁, hp, h⟩ := h
    rw [M.pure_eq] at hp
    cases hp
    cases hout : ip.outputs with
    | some ds2 =>
      rw [hout] at h
      obtain ⟨hInv₂, hPost₂⟩ := flatten_declaration_list_spec _ hInv h
      exact ⟨hInv₂, hPost₂⟩
    | none =>
      rw [hout] at h
      simp only [M.pure_eq] at h
      cases h
      exact ⟨hInv, Post.prefl _⟩

/-- Assembling `Post` across a control-instruction allocation: the
instruction is allocated as a placeholder at index `sA.instructions.length`,
the inner blocks run (giving `Post` from the post-allocation state), and
the placeholder is finally back-patched to an instruction with proper
ranges. -/
theorem Post.alloc_ctrl_patch {sA sC : FState} {ph inst : Instruction}
    (hPostIn : Post { sA with instructions := sA.instructions ++ [ph] } sC)
    (hrange : RangeProper sA.instructions.length inst sC.instructions.length) :
    Post sA { sC with
      instructions := sC.instructions.set sA.instructions.length inst } where
  len_le := by
    have hl := hPostIn.len_le
    simp only [List.length_append, List.length_cons, List.length_nil] at hl
    simp only [List.length_set]
    omega
  evolves := fun i a hg => by
    have hi : i < sA.instructions.length := (List.getElem?_eq_some.mp hg).1
    have hg' : ({ sA with
        instructions := sA.instructions ++ [ph] } : FState).instructions[i]? = some a := by
      simpa [List.getElem?_append_left hi] using hg
    obtain ⟨b, hb, eb⟩ := hPostIn.evolves i a hg'
    refine ⟨b, ?_, eb⟩
    have hne : sA.instructions.length ≠ i := by omega
    simpa [List.getElem?_set_ne hne] using hb
  newFilled := fun i a hle hg => by
    have hlenC := hPostIn.len_le
    simp only [List.length_append, List.length_cons, List.length_nil] at hlenC
    by_cases hi : sA.instructions.length = i
    · subst hi
      have hlt : sA.instructions.length < sC.instructions.length := by omega
      rw [List.getElem?_set_self hlt] at hg
      cases hg
      simpa [List.length_set] using hrange
    · have hne : sA.instructions.length ≠ i := hi
      have hg' : sC.instructions[i]? = some a := by
        simpa [List.getElem?_set_ne hne] using hg
      have hle' : ({ sA with
          instructions := sA.instructions ++ [ph] } : FState).instructions.length ≤ i := by
        simp only [List.length_append, List.length_cons, List.length_nil]
        omega
      have hnf := hPostIn.newFilled i a hle' hg'
      simpa [List.length_set] using hnf

/-- Inductive property of `flatten_code`. -/
def PC (n : Nat) : Prop := ∀ (ctx : Ctx) (body : List Stmt) (s : FState)
  (u : Unit) (s' : FState),
  INV ctx s → flatten_code n ctx body s = some (u, s') → INV ctx s' ∧ Post s s'

/-- Inductive property of `flatten_code_keep_context`. -/
def PKC (n : Nat) : Prop := ∀ (ctx : Ctx) (body : List Stmt) (s : FState)
  (u : Unit) (s' : FState),
  INV ctx s → flatten_code_keep_context n ctx body s = some (u, s') →
  INV ctx s' ∧ Post s s'

/-- Inductive property of `flatten_if_statement`. -/
def PIF (n : Nat) : Prop := ∀ (ctx : Ctx) (ce : Expr) (tb : List Stmt)
  (eb : ElseClause) (s : FState) (u : Unit) (s' : FState),
  INV ctx s → flatten_if_statement n ctx ce tb eb s = some (u, s') →
  INV ctx s' ∧ Post s s'

/-- Step lemma for `flatten_code`: a fresh frame, the statement walk,
and a popped frame only touch `scopes` beyond the walk itself. -/
theorem PC_succ {n : Nat} (ihPKC : PKC n) : PC (n + 1) := by
  intro ctx body s u s' hInv h
  simp only [flatten_code, M.bind_eq_some] at h
  obtain ⟨u₁, s₁, hnf, h⟩ := h
  rw [newFrame_eq] at hnf
  simp only [Option.some.injEq, Prod.mk.injEq] at hnf
  obtain ⟨-, hs₁⟩ := hnf
  have hi₁ : s₁.instructions = s.instructions := by rw [← hs₁]
  have hInv₁ : INV ctx s₁ :=
    hInv.of_parts_eq hi₁ (by rw [← hs₁]) (by rw [← hs₁]) (by rw [← hs₁])
  have hPost₁ : Post s s₁ := Post.of_instructions_eq hi₁
  obtain ⟨u₂, s₂, hk, h⟩ := h
  obtain ⟨hInv₂, hPost₂⟩ := ihPKC ctx body s₁ u₂ s₂ hInv₁ hk
  rw [popFrame_eq_some] at h
  obtain ⟨fr, rest, -, hs'⟩ := h
  subst hs'
  exact ⟨hInv₂.of_parts_eq rfl rfl rfl rfl,
    (hPost₁.trans hPost₂).trans (Post.of_instructions_eq rfl)⟩


/-- Step lemma for `flatten_if_statement`: the `IfStatement` is
allocated with placeholder bounds, the blocks are flattened, and the
bounds are back-patched to the proper block boundaries. -/
theorem PIF_succ {n : Nat} (ihPC : PC n) (ihPIF : PIF n) : PIF (n + 1) := by
  intro ctx ce tb eb s u s' hInv h
  cases u
  simp only [flatten_if_statement, M.bind_eq_some] at h
  obtain ⟨condition, s₁, hc, h⟩ := h
  obtain ⟨hInv₁, hPost₁, hcond⟩ := (exprPost n).1 ctx ce s condition s₁ hInv hc
  set phI : Instruction := Instruction.ifStatement
    { condition := condition,
      then_start := none,
      then_end_else_start := none,
      else_end := none } with hphI
  obtain ⟨if_id, s₂, hal, h⟩ := h
  rw [allocInstr_eq] at hal
  cases hal
  have hInvB : INV ctx { s₁ with instructions := s₁.instructions ++ [phI] } :=
    hInv₁.alloc (by simpa [instrDeps, hphI] using hcond) (Or.inr ⟨rfl, rfl, rfl⟩)
  set B : FState := { s₁ with instructions := s₁.instructions ++ [phI] } with hB
  obtain ⟨then_start, s₃, hna, h⟩ := h
  rw [nextAllocId_eq] at hna
  cases hna
  obtain ⟨u₁, s₄, hthen, h⟩ := h
  obtain ⟨hInv₄, hPost₄⟩ := ihPC ctx tb B u₁ s₄ hInvB hthen
  obtain ⟨then_end, s₅, hna2, h⟩ := h
  rw [nextAllocId_eq] at hna2
  cases hna2
  cases eb with
  | noElse =>
    simp only [M.bind_eq_some] at h
    obtain ⟨u₂, s₆, hp, h⟩ := h
    rw [M.pure_eq] at hp
    cases hp
    obtain ⟨else_end, s₇, hna3, h⟩ := h
    rw [nextAllocId_eq] at hna3
    cases hna3
    obtain ⟨cur, s₈, hgi, h⟩ := h
    rw [getInstr_eq_some] at hgi
    obtain ⟨hcur, rfl⟩ := hgi
    have hgB : B.instructions[s₁.instructions.length]? = some phI := by
      rw [hB]
      exact List.getElem?_concat_length _ _
    obtain ⟨b, hb, ebv⟩ := hPost₄.evolves _ _ hgB
    rw [hphI] at ebv
    obtain ⟨st', hbeq, hcondeq⟩ := Evolves.ifStatement_shape ebv
    subst hbeq
    rw [hcur] at hb
    cases Option.some.inj hb
    simp only [setInstr_eq_some] at h
    obtain ⟨hbound, hs'⟩ := h
    subst hs'
    have hrange : RangeProper s₁.instructions.length
        (Instruction.ifStatement
          { st' with
            then_start := some B.instructions.length,
            then_end_else_start := some s₈.instructions.length,
            else_end := some s₈.instructions.length })
        s₈.instructions.length :=
      ⟨_, _, _, rfl, rfl, rfl, by simp [hB], hPost₄.len_le, le_refl _, le_refl _⟩
    refine ⟨hInv₄.set_ctrl hcur rfl ?_ hrange, ?_⟩
    · rfl
    · exact hPost₁.trans (Post.alloc_ctrl_patch hPost₄ hrange)
  | elseIf c2 t2 e2 =>
    simp only [M.bind_eq_some] at h
    obtain ⟨u₂, s₆, hel, h⟩ := h
    obtain ⟨hInv₆, hPost₆⟩ := ihPIF ctx c2 t2 e2 s₄ u₂ s₆ hInv₄ hel
    obtain ⟨else_end, s₇, hna3, h⟩ := h
    rw [nextAllocId_eq] at hna3
    cases hna3
    obtain ⟨cur, s₈, hgi, h⟩ := h
    rw [getInstr_eq_some] at hgi
    obtain ⟨hcur, rfl⟩ := hgi
    have hgB : B.instructions[s₁.instructions.length]? = some phI := by
      rw [hB]
      exact List.getElem?_concat_length _ _
    obtain ⟨b, hb, ebv⟩ := (hPost₄.trans hPost₆).evolves _ _ hgB
    rw [hphI] at ebv
    obtain ⟨st', hbeq, hcondeq⟩ := Evolves.ifStatement_shape ebv
    subst hbeq
    rw [hcur] at hb
    cases Option.some.inj hb
    simp only [setInstr_eq_some] at h
    obtain ⟨hbound, hs'⟩ := h
    subst hs'
    have hrange : RangeProper s₁.instructions.length
        (Instruction.ifStatement
          { st' with
            then_start := some B.instructions.length,
            then_end_else_start := some s₄.instructions.length,
            else_end := some s₈.instructions.length })
        s₈.instructions.length :=
      ⟨_, _, _, rfl, rfl, rfl, by simp [hB], hPost₄.len_le, hPost₆.len_le, le_refl _⟩
    refine ⟨hInv₆.set_ctrl hcur rfl ?_ hrange, ?_⟩
    · rfl
    · exact hPost₁.trans (Post.alloc_ctrl_patch (hPost₄.trans hPost₆) hrange)
  | elseBlock ebody =>
    simp only [M.bind_eq_some] at h
    obtain ⟨u₂, s₆, hel, h⟩ := h
    obtain ⟨hInv₆, hPost₆⟩ := ihPC ctx ebody s₄ u₂ s₆ hInv₄ hel
    obtain ⟨else_end, s₇, hna3, h⟩ := h
    rw [nextAllocId_eq] at hna3
    cases hna3
    obtain ⟨cur, s₈, hgi, h⟩ := h
    rw [getInstr_eq_some] at hgi
    obtain ⟨hcur, rfl⟩ := hgi
    have hgB : B.instructions[s₁.instructions.length]? = some phI := by
      rw [hB]
      exact List.getElem?_concat_length _ _
    obtain ⟨b, hb, ebv⟩ := (hPost₄.trans hPost₆).evolves _ _ hgB
    rw [hphI] at ebv
    obtain ⟨st', hbeq, hcondeq⟩ := Evolves.ifStatement_shape ebv
    subst hbeq
    rw [hcur] at hb
    cases Option.some.inj hb
    simp only [setInstr_eq_some] at h
    obtain ⟨hbound, hs'⟩ := h
    subst hs'
    have hrange : RangeProper s₁.instructions.length
        (Instruction.ifStatement
          { st' with
            then_start := some B.instructions.length,
            then_end_else_start := some s₄.instructions.length,
            else_end := some s₈.instructions.length })
        s₈.instructions.length :=
      ⟨_, _, _, rfl, rfl, rfl, by simp [hB], hPost₄.len_le, hPost₆.len_le, le_refl _⟩
    refine ⟨hInv₆.set_ctrl hcur rfl ?_ hrange, ?_⟩
    · rfl
    · exact hPost₁.trans (Post.alloc_ctrl_patch (hPost₄.trans hPost₆) hrange)

/-- The non-function-call branch of a `declAssign` statement in
`flatten_code_keep_context`: flatten the read side, diagnose a target
count other than one, emit the write for a present first target, and
continue with the rest of the statements. -/
theorem declAssign_default_spec {n : Nat} {ctx : Ctx} {av : Expr}
    {to_ : List (Option (WireReference × WriteModifiers))} {rest : List Stmt}
    {s₁ s' : FState} {u : Unit}
    (ihPKC : PKC n)
    (hInv₁ : INV ctx s₁) (hval₁ : ToValid to_ s₁.instructions.length)
    (h : (do
        let read_side ← flatten_expr n ctx av
        if to_.length ≠ 1 then
          pushErr (.nonFunctionAssignmentWrongTargetCount to_.length)
        match to_.head? with
        | some (some (to_ref, write_modifiers)) => do
          let _ ← allocInstr (.write
            { from_ := read_side, to_ := to_ref, write_modifiers := write_modifiers })
          pure ()
        | _ => pure ()
        flatten_code_keep_context n ctx rest) s₁ = some (u, s')) :
    INV ctx s' ∧ Post s₁ s' := by
  cases u
  simp only [M.bind_eq_some] at h
  obtain ⟨read_side, s₂, hre, h⟩ := h
  obtain ⟨hInv₂, hPost₂, hrs⟩ := (exprPost n).1 ctx _ _ _ _ hInv₁ hre
  have hval₂ : ToValid to_ s₂.instructions.length := hval₁.vmono hPost₂.len_le
  by_cases hlen : to_.length ≠ 1
  · rw [if_pos hlen] at h
    simp only [M.bind_eq_some] at h
    obtain ⟨u₂, s₃, hp, h⟩ := h
    rw [pushErr_eq] at hp
    simp only [Option.some.injEq, Prod.mk.injEq] at hp
    obtain ⟨-, hs₃⟩ := hp
    have hi₃ : s₃.instructions = s₂.instructions := by rw [← hs₃]
    have hInv₃ : INV ctx s₃ :=
      hInv₂.of_parts_eq hi₃ (by rw [← hs₃]) (by rw [← hs₃]) (by rw [← hs₃])
    have hPost₃ : Post s₂ s₃ := Post.of_instructions_eq hi₃
    cases hh : to_.head? with
    | none =>
      rw [hh] at h
      simp only [M.bind_eq_some] at h
      obtain ⟨u₃, s₄, hp2, h⟩ := h
      rw [M.pure_eq] at hp2
      cases hp2
      obtain ⟨hInvR, hPostR⟩ := ihPKC ctx rest _ _ s' hInv₃ h
      exact ⟨hInvR, (hPost₂.trans hPost₃).trans hPostR⟩
    | some entry =>
      cases entry with
      | none =>
        rw [hh] at h
        simp only [M.bind_eq_some] at h
        obtain ⟨u₃, s₄, hp2, h⟩ := h
        rw [M.pure_eq] at hp2
        cases hp2
        obtain ⟨hInvR, hPostR⟩ := ihPKC ctx rest _ _ s' hInv₃ h
        exact ⟨hInvR, (hPost₂.trans hPost₃).trans hPostR⟩
      | some p =>
        obtain ⟨to_ref, wm⟩ := p
        rw [hh] at h
        simp only [M.bind_eq_some] at h
        obtain ⟨wid, s₄, hw, h⟩ := h
        rw [allocInstr_eq] at hw
        cases hw
        set wInst : Instruction := Instruction.write
          { from_ := read_side,
            to_ := to_ref,
            write_modifiers := wm } with hwInst
        have hInvW : INV ctx { s₃ with instructions := s₃.instructions ++ [wInst] } :=
          hInv₃.alloc
            (by
              rw [hwInst]
              simp only [instrDeps]
              intro d hd
              rcases List.mem_cons.mp hd with hd | hd
              · subst hd
                rw [hi₃]
                exact hrs
              · rw [hi₃]
                exact hval₂ _ (List.mem_of_mem_head? hh) to_ref wm rfl d hd)
            (Or.inl (RangeProper.of_not_ctrl (by rfl)))
        have hPostW : Post s₃ { s₃ with instructions := s₃.instructions ++ [wInst] } :=
          Post.palloc (RangeProper.of_not_ctrl (by rfl))
        obtain ⟨u₃, s₅, hp2, h⟩ := h
        rw [M.pure_eq] at hp2
        cases hp2
        obtain ⟨hInvR, hPostR⟩ := ihPKC ctx rest _ _ s' hInvW h
        exact ⟨hInvR, ((hPost₂.trans hPost₃).trans hPostW).trans hPostR⟩
  · rw [if_neg hlen] at h
    simp only [M.bind_eq_some] at h
    obtain ⟨u₂, s₃, hp, h⟩ := h
    rw [M.pure_eq] at hp
    cases hp
    cases hh : to_.head? with
    | none =>
      rw [hh] at h
      simp only [M.bind_eq_some] at h
      obtain ⟨u₃, s₄, hp2, h⟩ := h
      rw [M.pure_eq] at hp2
      cases hp2
      obtain ⟨hInvR, hPostR⟩ := ihPKC ctx rest _ _ s' hInv₂ h
      exact ⟨hInvR, hPost₂.trans hPostR⟩
    | some entry =>
      cases entry with
      | none =>
        rw [hh] at h
        simp only [M.bind_eq_some] at h
        obtain ⟨u₃, s₄, hp2, h⟩ := h
        rw [M.pure_eq] at hp2
        cases hp2
        obtain ⟨hInvR, hPostR⟩ := ihPKC ctx rest _ _ s' hInv₂ h
        exact ⟨hInvR, hPost₂.trans hPostR⟩
      | some p =>
        obtain ⟨to_ref, wm⟩ := p
        rw [hh] at h
        simp only [M.bind_eq_some] at h
        obtain ⟨wid, s₄, hw, h⟩ := h
        rw [allocInstr_eq] at hw
        cases hw
        set wInst : Instruction := Instruction.write
          { from_ := read_side,
            to_ := to_ref,
            write_modifiers := wm } with hwInst
        have hInvW : INV ctx { s₂ with instructions := s₂.instructions ++ [wInst] } :=
          hInv₂.alloc
            (by
              rw [hwInst]
              simp only [instrDeps]
              intro d hd
              rcases List.mem_cons.mp hd with hd | hd
              · subst hd
                exact hrs
              · exact hval₂ _ (List.mem_of_mem_head? hh) to_ref wm rfl d hd)
            (Or.inl (RangeProper.of_not_ctrl (by rfl)))
        have hPostW : Post s₂ { s₂ with instructions := s₂.instructions ++ [wInst] } :=
          Post.palloc (RangeProper.of_not_ctrl (by rfl))
        obtain ⟨u₃, s₅, hp2, h⟩ := h
        rw [M.pure_eq] at hp2
        cases hp2
        obtain ⟨hInvR, hPostR⟩ := ihPKC ctx rest _ _ s' hInvW h
        exact ⟨hInvR, (hPost₂.trans hPostW).trans hPostR⟩

/-- Step lemma for `flatten_code_keep_context`: every statement form
preserves the invariant, including the `for` back-patch. -/
theorem PKC_succ {n : Nat} (ihPC : PC n) (ihPKC : PKC n) (ihPIF : PIF n) :
    PKC (n + 1) := by
  intro ctx body s u s' hInv h
  cases u
  cases body with
  | nil =>
    simp only [flatten_code_keep_context, M.pure_eq] at h
    cases h
    exact ⟨hInv, Post.prefl _⟩
  | cons stmt rest =>
    simp only [flatten_code_keep_context] at h
    cases stmt with
    | assignLeftSide items =>
      simp only [M.bind_eq_some] at h
      obtain ⟨u₁, s₁, hsd, h⟩ := h
      obtain ⟨hInv₁, hPost₁⟩ := flatten_standalone_decls_spec items true hInv hsd
      obtain ⟨hInvR, hPostR⟩ := ihPKC ctx rest s₁ _ s' hInv₁ h
      exact ⟨hInvR, hPost₁.trans hPostR⟩
    | declAssign assign_left assign_value =>
      simp only [M.bind_eq_some] at h
      obtain ⟨to_, s₁, hals, h⟩ := h
      obtain ⟨hInv₁, hPost₁, hval₁⟩ :=
        flatten_assignment_left_side_spec assign_left hInv hals
      cases assign_value
      case funcCall callee args =>
        simp only [M.bind_eq_some] at h
        obtain ⟨u₂, s₂, hfc, h⟩ := h
        obtain ⟨hInv₂, hPost₂⟩ := flatten_assign_function_call_spec hInv₁ hval₁ hfc
        obtain ⟨hInvR, hPostR⟩ := ihPKC ctx rest s₂ _ s' hInv₂ h
        exact ⟨hInvR, (hPost₁.trans hPost₂).trans hPostR⟩
      all_goals
        (obtain ⟨hInv', hPost'⟩ := declAssign_default_spec ihPKC hInv₁ hval₁ h
         exact ⟨hInv', hPost₁.trans hPost'⟩)
    | block bbody =>
      simp only [M.bind_eq_some] at h
      obtain ⟨u₁, s₁, hbl, h⟩ := h
      obtain ⟨hInv₁, hPost₁⟩ := ihPC ctx bbody s _ s₁ hInv hbl
      obtain ⟨hInvR, hPostR⟩ := ihPKC ctx rest s₁ _ s' hInv₁ h
      exact ⟨hInvR, hPost₁.trans hPostR⟩
    | ifStmt condition then_block else_block =>
      simp only [M.bind_eq_some] at h
      obtain ⟨u₁, s₁, hif, h⟩ := h
      obtain ⟨hInv₁, hPost₁⟩ := ihPIF ctx condition then_block else_block s _ s₁ hInv hif
      obtain ⟨hInvR, hPostR⟩ := ihPKC ctx rest s₁ _ s' hInv₁ h
      exact ⟨hInvR, hPost₁.trans hPostR⟩
    | interfaceStmt iname iports =>
      cases iports with
      | some ip =>
        simp only [M.bind_eq_some] at h
        obtain ⟨u₁, s₁, hfp, h⟩ := h
        obtain ⟨hInv₁, hPost₁⟩ := flatten_interface_ports_spec hInv hfp
        obtain ⟨hInvR, hPostR⟩ := ihPKC ctx rest s₁ _ s' hInv₁ h
        exact ⟨hInvR, hPost₁.trans hPostR⟩
      | none =>
        simp only [M.bind_eq_some] at h
        obtain ⟨u₁, s₁, hp, h⟩ := h
        rw [M.pure_eq] at hp
        cases hp
        obtain ⟨hInvR, hPostR⟩ := ihPKC ctx rest s _ s' hInv h
        exact ⟨hInvR, hPostR⟩
    | forStmt for_decl fromE toE fbody =>
      simp only [M.bind_eq_some] at h
      obtain ⟨u₁, s₁, hnf, h⟩ := h
      rw [newFrame_eq] at hnf
      simp only [Option.some.injEq, Prod.mk.injEq] at hnf
      obtain ⟨-, hs₁⟩ := hnf
      have hi₁ : s₁.instructions = s.instructions := by rw [← hs₁]
      have hInv₁ : INV ctx s₁ :=
        hInv.of_parts_eq hi₁ (by rw [← hs₁]) (by rw [← hs₁]) (by rw [← hs₁])
      have hPost₁ : Post s s₁ := Post.of_instructions_eq hi₁
      obtain ⟨loop_var_decl, s₂, hd, h⟩ := h
      obtain ⟨hInv₂, hPost₂, hlvd⟩ := flatten_declaration_spec hInv₁ hd
      obtain ⟨start, s₃, he1, h⟩ := h
      obtain ⟨hInv₃, hPost₃, hst⟩ := (exprPost n).1 ctx _ _ _ _ hInv₂ he1
      obtain ⟨end_id, s₄, he2, h⟩ := h
      obtain ⟨hInv₄, hPost₄, hen⟩ := (exprPost n).1 ctx _ _ _ _ hInv₃ he2
      set phF : Instruction := Instruction.forStatement
        { loop_var_decl := loop_var_decl,
          start := start,
          end_ := end_id,
          loop_body := none } with hphF
      obtain ⟨for_id, s₅, hal, h⟩ := h
      rw [allocInstr_eq] at hal
      cases hal
      have hInvB : INV ctx { s₄ with instructions := s₄.instructions ++ [phF] } :=
        hInv₄.alloc
          (by
            rw [hphF]
            simp only [instrDeps]
            intro d hd2
            have l2 := hPost₃.len_le
            have l3 := hPost₄.len_le
            simp only [List.mem_cons, List.not_mem_nil, or_false] at hd2
            rcases hd2 with rfl | rfl | rfl
            · omega
            · omega
            · omega)
          (Or.inr (by rw [hphF]; exact rfl))
      set B : FState := { s₄ with instructions := s₄.instructions ++ [phF] } with hB
      obtain ⟨code_start, s₆, hna, h⟩ := h
      rw [nextAllocId_eq] at hna
      cases hna
      obtain ⟨u₂, s₇, hkc, h⟩ := h
      obtain ⟨hInvC, hPostC⟩ := ihPKC ctx fbody B _ s₇ hInvB hkc
      obtain ⟨code_end, s₈, hna2, h⟩ := h
      rw [nextAllocId_eq] at hna2
      cases hna2
      obtain ⟨cur, s₉, hgi, h⟩ := h
      rw [getInstr_eq_some] at hgi
      obtain ⟨hcur, rfl⟩ := hgi
      have hgB : B.instructions[s₄.instructions.length]? = some phF := by
        rw [hB]
        exact List.getElem?_concat_length _ _
      obtain ⟨b, hb, ebv⟩ := hPostC.evolves _ _ hgB
      rw [hphF] at ebv
      obtain ⟨st', hbeq, h1', h2', h3'⟩ := Evolves.forStatement_shape ebv
      subst hbeq
      rw [hcur] at hb
      cases Option.some.inj hb
      simp only [M.bind_eq_some] at h
      obtain ⟨u₃, s₁₀, hset, h⟩ := h
      cases u₃
      simp only [setInstr_eq_some] at hset
      obtain ⟨hbound, hs₁₀⟩ := hset
      have hrange : RangeProper s₄.instructions.length
          (Instruction.forStatement
            { st' with loop_body := some (B.instructions.length, s₉.instructions.length) })
          s₉.instructions.length :=
        ⟨_, _, rfl, by simp [hB], hPostC.len_le, le_refl _⟩
      have hdepsF : instrDeps (Instruction.forStatement
          { st' with loop_body := some (B.instructions.length, s₉.instructions.length) }) =
          instrDeps (Instruction.forStatement st') := rfl
      have hInvSet : INV ctx s₁₀ := by
        rw [hs₁₀]
        exact hInvC.set_ctrl hcur rfl hdepsF hrange
      have hPostSet : Post s₄ s₁₀ := by
        rw [hs₁₀]
        exact Post.alloc_ctrl_patch hPostC hrange
      obtain ⟨u₄, s₁₁, hpf, h⟩ := h
      cases u₄
      rw [popFrame_eq_some] at hpf
      obtain ⟨fr, rest2, -, hs₁₁⟩ := hpf
      have hInvPop : INV ctx s₁₁ := by
        rw [hs₁₁]
        exact hInvSet.of_parts_eq rfl rfl rfl rfl
      have hPostPop : Post s₁₀ s₁₁ := by
        rw [hs₁₁]
        exact Post.of_instructions_eq rfl
      obtain ⟨hInvR, hPostR⟩ := ihPKC ctx rest s₁₁ _ s' hInvPop h
      have hPostPre : Post s s₄ :=
        ((hPost₁.trans hPost₂).trans hPost₃).trans hPost₄
      exact ⟨hInvR, ((hPostPre.trans hPostSet).trans hPostPop).trans hPostR⟩

/-- The statement-level flattening functions preserve the invariant at
every fuel level. -/
theorem stmtPost : ∀ n, PC n ∧ PKC n ∧ PIF n := by
  intro n
  induction n with
  | zero =>
    refine ⟨?_, ?_, ?_⟩
    · intro ctx body s u s' _ h
      exact Option.noConfusion h
    · intro ctx body s u s' _ h
      exact Option.noConfusion h
    · intro ctx ce tb eb s u s' _ h
      exact Option.noConfusion h
  | succ n ih =>
    obtain ⟨hPC, hPKC, hPIF⟩ := ih
    exact ⟨PC_succ hPKC, PKC_succ hPC hPKC hPIF, PIF_succ hPC hPIF⟩

/-- `flatten_module` preserves the invariant. -/
theorem flatten_module_spec {n : Nat} {ctx : Ctx} {m : ModuleAST}
    {s s' : FState} {u : Unit}
    (hInv : INV ctx s) (h : flatten_module n ctx m s = some (u, s')) :
    INV ctx s' ∧ Post s s' := by
  simp only [flatten_module, M.bind_eq_some] at h
  cases hip : m.interface_ports with
  | some ip =>
    rw [hip] at h
    simp only [M.bind_eq_some] at h
    obtain ⟨u₁, s₁, hfp, h⟩ := h
    obtain ⟨hInv₁, hPost₁⟩ := flatten_interface_ports_spec hInv hfp
    obtain ⟨hInv₂, hPost₂⟩ := (stmtPost n).1 ctx m.body s₁ _ s' hInv₁ h
    exact ⟨hInv₂, hPost₁.trans hPost₂⟩
  | none =>
    rw [hip] at h
    simp only [M.bind_eq_some] at h
    obtain ⟨u₁, s₁, hp, h⟩ := h
    rw [M.pure_eq] at hp
    cases hp
    exact (stmtPost n).1 ctx m.body s _ s' hInv h

/-- The initial state satisfies the invariant. -/
theorem INV.init (ctx : Ctx) : INV ctx (initFState ctx) where
  depsOk := by
    intro i inst hg
    simp [initFState] at hg
  rangesOk := by
    intro i inst hg
    simp [initFState] at hg
  portDeclsLen := by simp [initFState]
  portWritesLen := by simp [initFState]
  ports := by
    refine ⟨0, Nat.zero_le _, ?_, ?_, ?_⟩
    · simp [initFState, List.range_eq_range']
    · intro i hi
      exact absurd hi (Nat.not_lt_zero i)
    · intro i hi hlt
      constructor
      · simp [initFState, List.getElem?_replicate, hlt]
      · simp [initFState, List.getElem?_replicate, hlt]

/-- `flatten` succeeds only with an invariant-satisfying state whose
pending-port list is empty, reached from the empty state. -/
theorem flatten_spec {n : Nat} {ctx : Ctx} {m : ModuleAST} {s' : FState}
    (h : flatten n ctx m = some s') :
    INV ctx s' ∧ Post (initFState ctx) s' ∧ s'.portsToVisit = [] := by
  simp only [flatten] at h
  cases hm : flatten_module n ctx m (initFState ctx) with
  | none => rw [hm] at h; exact Option.noConfusion h
  | some r =>
    obtain ⟨u, sF⟩ := r
    rw [hm] at h
    by_cases hpv : sF.portsToVisit = []
    · simp only [if_pos hpv] at h
      cases h
      obtain ⟨hInv, hPost⟩ := flatten_module_spec (INV.init ctx) hm
      exact ⟨hInv, hPost, hpv⟩
    · simp only [if_neg hpv] at h
      exact Option.noConfusion h

/-! ## Concrete example data for the claim witnesses -/

/-- An input port `a`. -/
def wPortA : GPort := { pname := "a", name_span := 10, is_input := true }

/-- The declaration `input int a`. -/
def wDeclA : DeclAST :=
  { io_kw := none,
    modifiers := none,
    typ := .tglobal "int",
    dname := "a",
    name_span := 10,
    latency := none }

/-- `module p : int a` with an empty body. -/
def wModule1 : ModuleAST :=
  { mname := "p",
    interface_ports := some { inputs := some [wDeclA], outputs := none },
    body := [] }

/-- The flattening context of `wModule1`. -/
def wCtx1 : Ctx := { modules := [], globals := [("int", .typ 0)], ports := [wPortA] }

/-- The flattening result of `wModule1`. -/
def wS1 : FState := (flatten 40 wCtx1 wModule1).getD (initFState wCtx1)

/-- A module with two output ports and no inputs. -/
def wGm2 : GlobalModule :=
  { gname := "m2",
    gports := [{ pname := "o1", name_span := 1, is_input := false },
               { pname := "o2", name_span := 2, is_input := false }],
    interfaces := [{ iname := "m2",
                     func_call_inputs := { rstart := 0, rstop := 0 },
                     func_call_outputs := { rstart := 0, rstop := 2 } }] }

/-- A context exposing `wGm2` under the name `m2`. -/
def wCtx2 : Ctx := { modules := [wGm2], globals := [("m2", .module 0)], ports := [] }

/-- An empty flattening state with no pending ports. -/
def s_empty : FState :=
  { instructions := [], scopes := [[]], errors := [], portsToVisit := [],
    portDecls := [], portWrites := [] }

/-- A fresh wire reading an output port of a submodule. -/
def outPortWire (submodule_decl port : Nat) : Instruction :=
  Instruction.wire
    { source := WireSource.wireRef (WireReference.simple_port
        { submodule_decl := submodule_decl, port := port, is_input := false }) }

/-- A fresh error wire. -/
def errorWire : Instruction := Instruction.wire { source := WireSource.error }

/-- The state after `flatten_func_call` on a call of `m2`. -/
def wS3fc : FState :=
  ((flatten_func_call 19 wCtx2 (Expr.globalIdent "m2") [] s_empty).getD
    (none, s_empty)).2

/-- The state after `flatten_expr` on a call of `m2` (two outputs). -/
def wS3e : FState :=
  ((flatten_expr 20 wCtx2 (Expr.funcCall (Expr.globalIdent "m2") []) s_empty).getD
    (0, s_empty)).2

/-- The funcCall instruction stored for the call of `m2`. -/
def wFC3 : FuncCallInstruction :=
  { interface_reference := { submodule_decl := 0, submodule_interface := 0 },
    arguments := [],
    func_call_inputs := { rstart := 0, rstop := 0 },
    func_call_outputs := { rstart := 0, rstop := 2 } }

/-- `wGm2` paired with its main interface. -/
def wMI3 : GlobalModule × Interface :=
  (wGm2, { iname := "m2",
           func_call_inputs := { rstart := 0, rstop := 0 },
           func_call_outputs := { rstart := 0, rstop := 2 } })

/-! ## The claims -/

/-- C1: after `flatten` completes for a module, every FlatID referenced
inside any instruction points strictly backwards in the instruction
list, and the range bounds published on every `IfStatement` and
`ForStatement` are real (non-placeholder) indices that delimit blocks
lying after the control instruction and inside the list. -/
theorem claim_c1_backward_refs_and_proper_ranges {n : Nat} {ctx : Ctx}
    {m : ModuleAST} {s' : FState} (h : flatten n ctx m = some s') :
    ∀ (i : Nat) (inst : Instruction), s'.instructions[i]? = some inst →
      (∀ d ∈ instrDeps inst, d < i) ∧
      RangeProper i inst s'.instructions.length := by
  obtain ⟨hInv, hPost, -⟩ := flatten_spec h
  intro i inst hg
  exact ⟨hInv.depsOk i inst hg, hPost.newFilled i inst (by simp [initFState]) hg⟩

theorem claim_c1_witness :
    flatten 40 wCtx1 wModule1 = some wS1 ∧
      ∀ (i : Nat) (inst : Instruction), wS1.instructions[i]? = some inst →
        (∀ d ∈ instrDeps inst, d < i) ∧
        RangeProper i inst wS1.instructions.length :=
  ⟨by decide, @claim_c1_backward_refs_and_proper_ranges 40 wCtx1 wModule1 wS1 (by decide)⟩

/-- C2: when `flatten` finishes a module no pending ports remain, and
every port's `declaration_instruction` has been assigned exactly once
(its ghost write counter is 1), pointing at a declaration instruction
whose `name_span` matches the port's. -/
theorem claim_c2_ports_assigned_once {n : Nat} {ctx : Ctx} {m : ModuleAST}
    {s' : FState} (h : flatten n ctx m = some s') :
    s'.portsToVisit = [] ∧
    ∀ i, i < ctx.ports.length →
      s'.portWrites[i]? = some 1 ∧
      ∃ d p decl, s'.portDecls[i]? = some (some d) ∧ ctx.ports[i]? = some p ∧
        s'.instructions[d]? = some (.declaration decl) ∧
        decl.name_span = p.name_span := by
  obtain ⟨hInv, -, hpv⟩ := flatten_spec h
  obtain ⟨k, hk, hv, hassigned, -⟩ := hInv.ports
  have hkeq : k = ctx.ports.length := by
    rw [hpv] at hv
    have hz := List.range'_eq_nil.mp hv.symm
    omega
  subst hkeq
  exact ⟨hpv, fun i hi => hassigned i hi⟩

theorem claim_c2_witness :
    flatten 40 wCtx1 wModule1 = some wS1 ∧
      (wS1.portsToVisit = [] ∧
      ∀ i, i < wCtx1.ports.length →
        wS1.portWrites[i]? = some 1 ∧
        ∃ d p decl, wS1.portDecls[i]? = some (some d) ∧ wCtx1.ports[i]? = some p ∧
          wS1.instructions[d]? = some (.declaration decl) ∧
          decl.name_span = p.name_span) :=
  ⟨by decide, @claim_c2_ports_assigned_once 40 wCtx1 wModule1 wS1 (by decide)⟩

/-- C3 (corrected): for a function call in expression position whose
call desugars (`flatten_func_call` returns an instruction) and whose
interface resolves: with exactly one output the result is a fresh wire
referencing that output and no diagnostic is added; with two or more
outputs the `mustReturnOneResult` diagnostic is added but the result is
STILL a wire referencing the first output (not an error wire); only
with zero outputs is the diagnostic added and an error wire produced. -/
theorem claim_c3_expr_call_result {n : Nat} {ctx : Ctx} {callee : Expr}
    {args : List Expr} {s s₁ s' : FState} {fc_id : Nat} {r : Nat}
    {fc : FuncCallInstruction} {mi : GlobalModule × Interface}
    (h1 : flatten_func_call n ctx callee args s = some (some fc_id, s₁))
    (h2 : s₁.instructions[fc_id]? = some (.funcCall fc))
    (h3 : get_interface_reference ctx fc.interface_reference s₁ = some (mi, s₁))
    (h : flatten_expr (n + 1) ctx (.funcCall callee args) s = some (r, s')) :
    (mi.2.func_call_outputs.len = 1 →
      s'.errors = s₁.errors ∧
      s'.instructions = s₁.instructions ++
        [outPortWire fc.interface_reference.submodule_decl
          mi.2.func_call_outputs.rstart]) ∧
    (mi.2.func_call_outputs.len ≥ 2 →
      s'.errors = s₁.errors ++ [Diag.mustReturnOneResult] ∧
      s'.instructions = s₁.instructions ++
        [outPortWire fc.interface_reference.submodule_decl
          mi.2.func_call_outputs.rstart]) ∧
    (mi.2.func_call_outputs.len = 0 →
      s'.errors = s₁.errors ++ [Diag.mustReturnOneResult] ∧
      s'.instructions = s₁.instructions ++ [errorWire]) := by
  simp only [flatten_expr, M.bind_eq_some] at h
  obtain ⟨fc?, sx, hfc, h⟩ := h
  rw [h1] at hfc
  simp only [Option.some.injEq, Prod.mk.injEq] at hfc
  obtain ⟨hfc1, hfc2⟩ := hfc
  subst hfc1
  subst hfc2
  simp only [M.bind_eq_some, getInstr_eq_some] at h
  obtain ⟨a, s₂, ⟨ha, rfl⟩, h⟩ := h
  rw [h2] at ha
  cases Option.some.inj ha
  simp only [M.bind_eq_some] at h
  obtain ⟨mi', s₃, hgi, h⟩ := h
  rw [h3] at hgi
  simp only [Option.some.injEq, Prod.mk.injEq] at hgi
  obtain ⟨hgi1, hgi2⟩ := hgi
  subst hgi1
  subst hgi2
  by_cases hc : mi.2.func_call_outputs.len ≠ 1
  · rw [if_pos hc] at h
    simp only [M.bind_eq_some, pushErr_eq] at h
    obtain ⟨u, s₄, hif, halloc⟩ := h
    simp only [Option.some.injEq, Prod.mk.injEq] at hif
    obtain ⟨-, hs₄⟩ := hif
    by_cases hc2 : mi.2.func_call_outputs.len ≥ 1
    · rw [if_pos hc2] at halloc
      simp only [allocInstr_eq] at halloc
      simp only [Option.some.injEq, Prod.mk.injEq] at halloc
      obtain ⟨-, hs'⟩ := halloc
      subst hs'
      refine ⟨fun h1' => absurd h1' hc, fun h2' => ?_, fun h0' => by omega⟩
      rw [← hs₄]
      exact ⟨rfl, rfl⟩
    · rw [if_neg hc2] at halloc
      simp only [allocInstr_eq] at halloc
      simp only [Option.some.injEq, Prod.mk.injEq] at halloc
      obtain ⟨-, hs'⟩ := halloc
      subst hs'
      refine ⟨fun h1' => absurd h1' hc, fun h2' => by omega, fun h0' => ?_⟩
      rw [← hs₄]
      exact ⟨rfl, rfl⟩
  · rw [if_neg hc] at h
    simp only [M.bind_eq_some, M.pure_eq] at h
    obtain ⟨u, s₄, hif, halloc⟩ := h
    simp only [Option.some.injEq, Prod.mk.injEq] at hif
    obtain ⟨-, hs₄⟩ := hif
    have hc2 : mi.2.func_call_outputs.len ≥ 1 := by omega
    rw [if_pos hc2] at halloc
    simp only [allocInstr_eq] at halloc
    simp only [Option.some.injEq, Prod.mk.injEq] at halloc
    obtain ⟨-, hs'⟩ := halloc
    subst hs'
    refine ⟨fun h1' => ?_, fun h2' => by omega, fun h0' => by omega⟩
    rw [← hs₄]
    exact ⟨rfl, rfl⟩

theorem claim_c3_witness :
    wS3e.errors = wS3fc.errors ++ [Diag.mustReturnOneResult] ∧
    wS3e.instructions = wS3fc.instructions ++ [outPortWire 0 0] :=
  (@claim_c3_expr_call_result 19 wCtx2 (Expr.globalIdent "m2") [] s_empty wS3fc
    wS3e 1 2 wFC3 wMI3 (by decide) (by decide) (by decide) (by decide)).2.1
    (by decide)

/-- C3 counterexample to the original claim: calling the two-output
module `m2` in expression position records the `mustReturnOneResult`
diagnostic, yet the resulting wire reads the first output port — it is
not an error wire. -/
theorem claim_c3_counterexample :
    flatten_expr 20 wCtx2 (Expr.funcCall (Expr.globalIdent "m2") []) s_empty =
      some (2, wS3e) ∧
    wS3e.errors = [Diag.mustReturnOneResult] ∧
    wS3e.instructions.getLast? = some (outPortWire 0 0) ∧
    outPortWire 0 0 ≠ errorWire := by decide

/-- C4 (corrected): `flatten_write_modifiers` treats zero `initial`
keywords as a plain connection through the counted `reg`s, and exactly
one `initial` with zero `reg`s as an initial-value write; any other
combination — in particular `initial` together with `reg` — hits
`unreachable!()`, i.e. the model PANICS (`none`): no user diagnostic is
recorded for it. -/
theorem claim_c4_write_modifiers (lst : List WModKW) (s : FState) :
    (lst.countP (fun k => k = WModKW.initialKw) = 0 →
      flatten_write_modifiers (some lst) s =
        some (.connection (lst.countP (fun k => k = WModKW.reg)), s)) ∧
    (lst.countP (fun k => k = WModKW.initialKw) = 1 →
      lst.countP (fun k => k = WModKW.reg) = 0 →
      flatten_write_modifiers (some lst) s = some (.initialValue, s)) ∧
    (lst.countP (fun k => k = WModKW.initialKw) = 1 →
      lst.countP (fun k => k = WModKW.reg) ≥ 1 →
      flatten_write_modifiers (some lst) s = none) ∧
    (lst.countP (fun k => k = WModKW.initialKw) ≥ 2 →
      flatten_write_modifiers (some lst) s = none) := by
  refine ⟨?_, ?_, ?_, ?_⟩
  · intro h1
    simp [flatten_write_modifiers, h1, M.pure_eq]
  · intro h1 h2
    simp [flatten_write_modifiers, h1, h2, M.pure_eq]
  · intro h1 h2
    obtain ⟨m, hm⟩ : ∃ m, lst.countP (fun k => k = WModKW.reg) = m + 1 :=
      ⟨lst.countP (fun k => k = WModKW.reg) - 1, by omega⟩
    simp [flatten_write_modifiers, h1, hm, M.fail_eq]
  · intro h1
    obtain ⟨m, hm⟩ : ∃ m, lst.countP (fun k => k = WModKW.initialKw) = m + 2 :=
      ⟨lst.countP (fun k => k = WModKW.initialKw) - 2, by omega⟩
    simp [flatten_write_modifiers, hm, M.fail_eq]

theorem claim_c4_witness :
    flatten_write_modifiers (some [WModKW.initialKw, WModKW.initialKw]) s_empty =
      none :=
  (claim_c4_write_modifiers [WModKW.initialKw, WModKW.initialKw] s_empty).2.2.2
    (by decide)

/-- C4 counterexample to the original claim: `initial` together with
`reg` does not record a user diagnostic on the error bucket — the
function panics (`unreachable!()`, modelled as `none`). -/
theorem claim_c4_counterexample :
    flatten_write_modifiers (some [WModKW.initialKw, WModKW.reg]) s_empty = none := by
  decide

/-- `padWithErrorWires` leaves the diagnostics untouched, only appends
instructions, and appends exactly `missing` fresh error wires,
returning their indices. -/
theorem padWithErrorWires_shape : ∀ (missing : Nat) (args : List Nat)
    {s s' : FState} {rs : List Nat},
    padWithErrorWires args missing s = some (rs, s') →
    s'.errors = s.errors ∧
    (∃ tail, s'.instructions = s.instructions ++ tail) ∧
    ∃ extras, rs = args ++ extras ∧ extras.length = missing ∧
      ∀ e ∈ extras, s'.instructions[e]? = some errorWire := by
  intro missing
  induction missing with
  | zero =>
    intro args s s' rs h
    simp only [padWithErrorWires, M.pure_eq] at h
    cases h
    exact ⟨rfl, ⟨[], by simp⟩, [], by simp, rfl, by simp⟩
  | succ m ih =>
    intro args s s' rs h
    simp only [padWithErrorWires, alloc_error, M.bind_eq_some, allocInstr_eq] at h
    obtain ⟨e, s₁, hA, h⟩ := h
    cases hA
    obtain ⟨herr, ⟨tail, htail⟩, extras, hrs, hlen, hmem⟩ := ih _ h
    refine ⟨by rw [herr], ⟨errorWire :: tail, by rw [htail]; simp [errorWire]⟩,
      s.instructions.length :: extras, by rw [hrs]; simp, by simp [hlen], ?_⟩
    intro x hx
    rcases List.mem_cons.mp hx with hx | hx
    · subst hx
      rw [htail]
      rw [List.getElem?_append_left (by simp)]
      exact List.getElem?_concat_length _ _
    · exact hmem x hx

/-- C5: for a function call whose callee resolves (`get_or_alloc_module`
returns an interface reference) and whose interface resolves: the
`funcCall` instruction stored by `flatten_func_call` carries exactly the
interface's input-port count of arguments; equal arity leaves the
arguments unchanged with no arity diagnostic; excess arguments are
truncated with an `excessArgs` diagnostic; missing arguments are padded
with fresh error wires with a `tooFewArgs` diagnostic. -/
theorem claim_c5_arity_fixup {n : Nat} {ctx : Ctx} {callee : Expr}
    {args : List Expr} {s s₁ s₂ s' : FState} {r : Option Nat}
    {ir : ModuleInterfaceReference} {arguments : List Nat}
    {mi : GlobalModule × Interface}
    (h1 : get_or_alloc_module n ctx callee s = some (some ir, s₁))
    (h2 : flattenArgList n ctx args s₁ = some (arguments, s₂))
    (h3 : get_interface_reference ctx ir s₂ = some (mi, s₂))
    (h : flatten_func_call (n + 1) ctx callee args s = some (r, s')) :
    ∃ fc_id finalArgs,
      r = some fc_id ∧
      s'.instructions[fc_id]? = some (Instruction.funcCall
        { interface_reference := ir,
          arguments := finalArgs,
          func_call_inputs := mi.2.func_call_inputs,
          func_call_outputs := mi.2.func_call_outputs }) ∧
      finalArgs.length = mi.2.func_call_inputs.len ∧
      (arguments.length = mi.2.func_call_inputs.len →
        finalArgs = arguments ∧ s'.errors = s₂.errors) ∧
      (arguments.length > mi.2.func_call_inputs.len →
        finalArgs = arguments.take mi.2.func_call_inputs.len ∧
        s'.errors = s₂.errors ++
          [Diag.excessArgs mi.2.func_call_inputs.len arguments.length]) ∧
      (arguments.length < mi.2.func_call_inputs.len →
        (∃ extras, finalArgs = arguments ++ extras ∧
          ∀ e ∈ extras, s'.instructions[e]? = some errorWire) ∧
        s'.errors = s₂.errors ++
          [Diag.tooFewArgs mi.2.func_call_inputs.len arguments.length]) := by
  simp only [flatten_func_call, M.bind_eq_some] at h
  obtain ⟨ir?, sA, hga, h⟩ := h
  rw [h1] at hga
  simp only [Option.some.injEq, Prod.mk.injEq] at hga
  obtain ⟨hg1, hg2⟩ := hga
  subst hg1
  subst hg2
  obtain ⟨arguments', sB, hfa, h⟩ := h
  rw [h2] at hfa
  simp only [Option.some.injEq, Prod.mk.injEq] at hfa
  obtain ⟨hf1, hf2⟩ := hfa
  subst hf1
  subst hf2
  simp only [M.bind_eq_some] at h
  obtain ⟨mi', sC, hgi, h⟩ := h
  rw [h3] at hgi
  simp only [Option.some.injEq, Prod.mk.injEq] at hgi
  obtain ⟨hgi1, hgi2⟩ := hgi
  subst hgi1
  subst hgi2
  by_cases hne : arguments.length ≠ mi.2.func_call_inputs.len
  · rw [if_pos hne] at h
    by_cases hgt : arguments.length > mi.2.func_call_inputs.len
    · rw [if_pos hgt] at h
      cases hfe : arguments[mi.2.func_call_inputs.len]? <;>
        cases hgl : arguments.getLast? <;>
        simp only [hfe, hgl, M.bind_eq_some, M.fail_eq, false_and, exists_false,
          and_false] at h
      all_goals first
        | exact Option.noConfusion h
        | (obtain ⟨a0, s0, hcontra, -⟩ := h
           exact Option.noConfusion hcontra)
        | skip
      rename_i firstExcess lastArg
      obtain ⟨w1, sD, hw1g, h⟩ := h
      rw [getInstr_eq_some] at hw1g
      obtain ⟨hw1, rfl⟩ := hw1g
      obtain ⟨w2, sE, hw2g, h⟩ := h
      rw [getInstr_eq_some] at hw2g
      obtain ⟨hw2, rfl⟩ := hw2g
      cases w1 <;> cases w2 <;>
        simp only [M.bind_eq_some, M.fail_eq, false_and, exists_false, and_false] at h
      all_goals first
        | exact Option.noConfusion h
        | (obtain ⟨a1, s1x, hcontra, -⟩ := h
           exact Option.noConfusion hcontra)
        | skip
      obtain ⟨u, sF, h7, h⟩ := h
      rw [pushErr_eq] at h7
      simp only [Option.some.injEq, Prod.mk.injEq] at h7
      obtain ⟨-, hsF⟩ := h7
      obtain ⟨a2, sG, hp, h⟩ := h
      rw [M.pure_eq] at hp
      cases hp
      obtain ⟨fcid2, sH, hA, hP⟩ := h
      rw [allocInstr_eq] at hA
      cases hA
      rw [M.pure_eq] at hP
      cases hP
      refine ⟨sF.instructions.length, arguments.take mi.2.func_call_inputs.len,
        rfl, List.getElem?_concat_length _ _, ?_, ?_, ?_, ?_⟩
      · simp only [List.length_take]
        omega
      · intro he
        omega
      · intro hgt'
        refine ⟨rfl, ?_⟩
        rw [← hsF]
      · intro hlt
        omega
    · rw [if_neg hgt] at h
      simp only [M.bind_eq_some] at h
      obtain ⟨u, sF, h5, h⟩ := h
      rw [pushErr_eq] at h5
      simp only [Option.some.injEq, Prod.mk.injEq] at h5
      obtain ⟨-, hsF⟩ := h5
      obtain ⟨args', sG, hpad, h⟩ := h
      obtain ⟨herr, ⟨tail, htail⟩, extras, hrs, hlen, hmem⟩ :=
        padWithErrorWires_shape _ _ hpad
      subst hrs
      obtain ⟨fcid2, sH, hA, hP⟩ := h
      rw [allocInstr_eq] at hA
      cases hA
      rw [M.pure_eq] at hP
      cases hP
      refine ⟨sG.instructions.length, arguments ++ extras, rfl,
        List.getElem?_concat_length _ _, ?_, ?_, ?_, ?_⟩
      · simp only [List.length_append]
        omega
      · intro he
        omega
      · intro hgt'
        omega
      · intro hlt
        refine ⟨⟨extras, rfl, ?_⟩, ?_⟩
        · intro e he
          have hee := hmem e he
          have helt : e < sG.instructions.length := (List.getElem?_eq_some.mp hee).1
          rw [List.getElem?_append_left helt]
          exact hee
        · rw [herr, ← hsF]
  · rw [if_neg hne] at h
    simp only [M.bind_eq_some] at h
    obtain ⟨a2, sG, hp, h⟩ := h
    rw [M.pure_eq] at hp
    cases hp
    obtain ⟨fcid2, sH, hA, hP⟩ := h
    rw [allocInstr_eq] at hA
    cases hA
    rw [M.pure_eq] at hP
    cases hP
    refine ⟨s₂.instructions.length, arguments, rfl,
      List.getElem?_concat_length _ _, by omega, fun he => ⟨rfl, rfl⟩,
      fun hgt' => by omega, fun hlt => by omega⟩

/-- A module with one input port and one output port. -/
def wGm3 : GlobalModule :=
  { gname := "m3",
    gports := [{ pname := "i1", name_span := 1, is_input := true },
               { pname := "o1", name_span := 2, is_input := false }],
    interfaces := [{ iname := "m3",
                     func_call_inputs := { rstart := 0, rstop := 1 },
                     func_call_outputs := { rstart := 1, rstop := 2 } }] }

/-- A context exposing `wGm3` under the name `m3`. -/
def wCtx3 : Ctx := { modules := [wGm3], globals := [("m3", .module 0)], ports := [] }

/-- The state after resolving the callee `m3`. -/
def wS5a : FState :=
  ((get_or_alloc_module 19 wCtx3 (Expr.globalIdent "m3") s_empty).getD
    (none, s_empty)).2

/-- The state after flattening the two arguments. -/
def wS5b : FState :=
  ((flattenArgList 19 wCtx3 [Expr.num 1, Expr.num 2] wS5a).getD ([], s_empty)).2

/-- The final state of the excess-arity call of `m3`. -/
def wS5 : FState :=
  ((flatten_func_call 20 wCtx3 (Expr.globalIdent "m3") [Expr.num 1, Expr.num 2]
    s_empty).getD (none, s_empty)).2

/-- The interface reference of the call of `m3`. -/
def wIR5 : ModuleInterfaceReference := { submodule_decl := 0, submodule_interface := 0 }

/-- `wGm3` paired with its main interface. -/
def wMI5 : GlobalModule × Interface :=
  (wGm3, { iname := "m3",
           func_call_inputs := { rstart := 0, rstop := 1 },
           func_call_outputs := { rstart := 1, rstop := 2 } })

theorem claim_c5_witness :
    wS5.instructions[3]? = some (Instruction.funcCall
      { interface_reference := wIR5,
        arguments := [1],
        func_call_inputs := wMI5.2.func_call_inputs,
        func_call_outputs := wMI5.2.func_call_outputs }) ∧
    wS5.errors = wS5b.errors ++ [Diag.excessArgs 1 2] := by
  obtain ⟨fc_id, finalArgs, hr, hin, hlen, heq, hgt, hlt⟩ :=
    @claim_c5_arity_fixup 19 wCtx3 (Expr.globalIdent "m3") [Expr.num 1, Expr.num 2]
      s_empty wS5a wS5b wS5 (some 3) wIR5 [1, 2] wMI5
      (by decide) (by decide) (by decide) (by decide)
  cases hr
  obtain ⟨hfa, herr⟩ := hgt (by decide)
  subst hfa
  exact ⟨by exact hin, by exact herr⟩

/-- Setting the slot just past `xs` in `xs ++ [a]` replaces `a`. -/
theorem set_concat_length {α : Type} (xs : List α) (a b : α) :
    (xs ++ [a]).set xs.length b = xs ++ [b] := by
  induction xs with
  | nil => rfl
  | cons x xs ih =>
    show x :: ((xs ++ [a]).set xs.length b) = x :: (xs ++ [b])
    rw [ih]

/-- C7: `update_file` with the same source right after `add_file`
rebuilds the same file slot, so the linker — and hence the IR that
`recompile_all` produces from it — is identical to the one after
`add_file` alone. -/
theorem claim_c7_update_file_roundtrip (n : Nat) (asts : List ModuleAST)
    (l : Linker) :
    update_file n asts (add_file n asts l).2 (add_file n asts l).1 =
      (add_file n asts l).1 ∧
    recompile_all n (update_file n asts (add_file n asts l).2 (add_file n asts l).1) =
      recompile_all n (add_file n asts l).1 := by
  have hupd : update_file n asts (add_file n asts l).2 (add_file n asts l).1 =
      (add_file n asts l).1 := by
    simp only [update_file, add_file]
    rw [set_concat_length]
  exact ⟨hupd, by rw [hupd]⟩

/-- The data `recompile_all` actually depends on: each file's module
Initialization data and its parse tree. -/
def linkerInit (l : Linker) : List (List ModuleInit × List ModuleAST) :=
  l.files.map fun f => (f.modules.map (fun m => m.initData), f.srcAsts)

theorem allModuleInits_of_init {l₁ l₂ : Linker}
    (h : linkerInit l₁ = linkerInit l₂) :
    allModuleInits l₁ = allModuleInits l₂ := by
  have h' := congrArg (fun x => (x.map Prod.fst).flatten) h
  simpa [linkerInit, allModuleInits, List.map_map, Function.comp] using h'

theorem linkerInit_reset (l : Linker) : linkerInit (resetLinker l) = linkerInit l := by
  unfold linkerInit resetLinker
  generalize l.files = fs
  induction fs with
  | nil => rfl
  | cons f t ih =>
    simp only [List.map_cons, List.cons.injEq]
    refine ⟨?_, by simpa using ih⟩
    show (List.map (fun m => m.initData) (List.map resetModule f.modules),
      f.srcAsts) = _
    rw [List.map_map]
    rfl

/-- `flattenFileModules` on reset modules depends only on the modules'
Initialization data. -/
theorem flattenFileModules_reset_congr {n : Nat} {gms : List GlobalModule}
    {gls : List (String × NameElem)} :
    ∀ {mods₁ mods₂ : List LModule},
    mods₁.map (fun m => m.initData) = mods₂.map (fun m => m.initData) →
    flattenFileModules n gms gls (mods₁.map resetModule) =
      flattenFileModules n gms gls (mods₂.map resetModule) := by
  intro mods₁
  induction mods₁ with
  | nil =>
    intro mods₂ h
    cases mods₂ with
    | nil => rfl
    | cons m₂ t₂ => exact absurd h (by simp)
  | cons m₁ t₁ ih =>
    intro mods₂ h
    cases mods₂ with
    | nil => exact absurd h (by simp)
    | cons m₂ t₂ =>
      simp only [List.map_cons, List.cons.injEq] at h
      obtain ⟨hhd, htl⟩ := h
      simp only [List.map_cons, flattenFileModules]
      have hinit' : (resetModule m₁).initData = (resetModule m₂).initData := hhd
      have hinst : (resetModule m₁).instantiations =
        (resetModule m₂).instantiations := rfl
      rw [hinit', hinst, ih htl]

/-- `flattenFiles` on reset files depends only on the files'
Initialization data and parse trees. -/
theorem flattenFiles_reset_congr {n : Nat} {gms : List GlobalModule}
    {gls : List (String × NameElem)} :
    ∀ {fs₁ fs₂ : List LFile},
    fs₁.map (fun f => (f.modules.map (fun m => m.initData), f.srcAsts)) =
      fs₂.map (fun f => (f.modules.map (fun m => m.initData), f.srcAsts)) →
    flattenFiles n gms gls (fs₁.map (fun f =>
      { f with modules := f.modules.map resetModule })) =
    flattenFiles n gms gls (fs₂.map (fun f =>
      { f with modules := f.modules.map resetModule })) := by
  intro fs₁
  induction fs₁ with
  | nil =>
    intro fs₂ h
    cases fs₂ with
    | nil => rfl
    | cons f₂ t₂ => exact absurd h (by simp)
  | cons f₁ t₁ ih =>
    intro fs₂ h
    cases fs₂ with
    | nil => exact absurd h (by simp)
    | cons f₂ t₂ =>
      simp only [List.map_cons, List.cons.injEq, Prod.mk.injEq] at h
      obtain ⟨⟨hmods, hsrc⟩, htl⟩ := h
      simp only [List.map_cons, flattenFiles]
      have hmm : flattenFileModules n gms gls
          (({ f₁ with modules := f₁.modules.map resetModule } : LFile).modules) =
        flattenFileModules n gms gls
          (({ f₂ with modules := f₂.modules.map resetModule } : LFile).modules) :=
        flattenFileModules_reset_congr hmods
      have hsrc' : ({ f₁ with modules := f₁.modules.map resetModule } : LFile).srcAsts =
          ({ f₂ with modules := f₂.modules.map resetModule } : LFile).srcAsts := hsrc
      rw [hmm, hsrc', ih htl]

/-- `flatten_all_modules` after a reset depends only on `linkerInit`. -/
theorem flatten_all_modules_reset_congr {n : Nat} {l₁ l₂ : Linker}
    (h : linkerInit l₁ = linkerInit l₂) :
    flatten_all_modules n (resetLinker l₁) = flatten_all_modules n (resetLinker l₂) := by
  have hai : allModuleInits (resetLinker l₁) = allModuleInits (resetLinker l₂) :=
    allModuleInits_of_init (by rw [linkerInit_reset, linkerInit_reset, h])
  have h1 : gmodsOf (resetLinker l₁) = gmodsOf (resetLinker l₂) := by
    unfold gmodsOf
    rw [hai]
  have h2 : globalsOf (resetLinker l₁) = globalsOf (resetLinker l₂) := by
    unfold globalsOf
    rw [hai]
  unfold flatten_all_modules
  rw [h1, h2]
  rw [show flattenFiles n (gmodsOf (resetLinker l₂)) (globalsOf (resetLinker l₂))
      (resetLinker l₁).files = flattenFiles n (gmodsOf (resetLinker l₂))
      (globalsOf (resetLinker l₂)) (resetLinker l₂).files
    from flattenFiles_reset_congr h]

/-- `flattenFileModules` preserves each module's Initialization data. -/
theorem flattenFileModules_init {n : Nat} {gms : List GlobalModule}
    {gls : List (String × NameElem)} :
    ∀ {mods mods' : List LModule},
    flattenFileModules n gms gls mods = some mods' →
    mods'.map (fun m => m.initData) = mods.map (fun m => m.initData) := by
  intro mods
  induction mods with
  | nil =>
    intro mods' h
    simp only [flattenFileModules, Option.some.injEq] at h
    subst h
    rfl
  | cons md rest ih =>
    intro mods' h
    simp only [flattenFileModules] at h
    cases hfl : flatten n { modules := gms, globals := gls, ports := md.initData.portsInfo } md.initData.ast with
    | none =>
      rw [hfl] at h
      exact Option.noConfusion h
    | some s' =>
      simp only [hfl] at h
      cases hrest : flattenFileModules n gms gls rest with
      | none =>
        rw [hrest] at h
        exact Option.noConfusion h
      | some rest' =>
        simp only [hrest, Option.some.injEq] at h
        subst h
        simp only [List.map_cons, List.cons.injEq]
        exact ⟨trivial, ih hrest⟩

/-- `flattenFiles` preserves `linkerInit`-level data. -/
theorem flattenFiles_init {n : Nat} {gms : List GlobalModule}
    {gls : List (String × NameElem)} :
    ∀ {fs fs' : List LFile},
    flattenFiles n gms gls fs = some fs' →
    fs'.map (fun f => (f.modules.map (fun m => m.initData), f.srcAsts)) =
      fs.map (fun f => (f.modules.map (fun m => m.initData), f.srcAsts)) := by
  intro fs
  induction fs with
  | nil =>
    intro fs' h
    simp only [flattenFiles, Option.some.injEq] at h
    subst h
    rfl
  | cons f rest ih =>
    intro fs' h
    simp only [flattenFiles] at h
    cases hfm : flattenFileModules n gms gls f.modules with
    | none =>
      rw [hfm] at h
      exact Option.noConfusion h
    | some mods' =>
      simp only [hfm] at h
      cases hrest : flattenFiles n gms gls rest with
      | none =>
        rw [hrest] at h
        exact Option.noConfusion h
      | some rest' =>
        simp only [hrest, Option.some.injEq] at h
        subst h
        simp only [List.map_cons, List.cons.injEq, Prod.mk.injEq]
        exact ⟨⟨flattenFileModules_init hfm, trivial⟩, ih hrest⟩

/-- `flatten_all_modules` preserves `linkerInit`. -/
theorem linkerInit_flatten_all {n : Nat} {l l' : Linker}
    (h : flatten_all_modules n l = some l') : linkerInit l' = linkerInit l := by
  unfold flatten_all_modules at h
  cases hff : flattenFiles n (gmodsOf l) (globalsOf l) l.files with
  | none =>
    rw [hff] at h
    exact Option.noConfusion h
  | some files' =>
    simp only [hff, Option.some.injEq] at h
    subst h
    exact flattenFiles_init hff

/-- A pass that maps every module with an `initData`-preserving function
preserves `linkerInit`. -/
theorem linkerInit_mapModules (F : LModule → LModule)
    (hF : ∀ m, (F m).initData = m.initData) (l : Linker) :
    linkerInit { files := l.files.map fun f =>
      { f with modules := f.modules.map F } } = linkerInit l := by
  unfold linkerInit
  generalize l.files = fs
  induction fs with
  | nil => rfl
  | cons f t ih =>
    simp only [List.map_cons, List.cons.injEq]
    refine ⟨?_, by simpa using ih⟩
    simp only [Prod.mk.injEq]
    refine ⟨?_, trivial⟩
    show List.map (fun m => m.initData) (List.map F f.modules) = _
    rw [List.map_map]
    exact List.map_congr_left (fun m _ => hF m)

theorem linkerInit_typecheck (l : Linker) :
    linkerInit (typecheck_all_modules l) = linkerInit l :=
  linkerInit_mapModules _ (fun m => rfl) l

theorem linkerInit_instantiate (l : Linker) :
    linkerInit (instantiateAll l) = linkerInit l :=
  linkerInit_mapModules _ (fun m => by split <;> rfl) l

/-- C6: `recompile_all` is idempotent: a successful recompilation is a
fixed point, because the initial reset restores exactly the
`after_initial_parse_cp` data the first run started from. -/
theorem claim_c6_recompile_idempotent {n : Nat} {l l' : Linker}
    (h : recompile_all n l = some l') : recompile_all n l' = some l' := by
  unfold recompile_all at h ⊢
  cases hf : flatten_all_modules n (resetLinker l) with
  | none =>
    rw [hf] at h
    exact Option.noConfusion h
  | some lf =>
    simp only [hf, Option.some.injEq] at h
    subst h
    have hinit : linkerInit (instantiateAll (typecheck_all_modules lf)) =
        linkerInit l := by
      rw [linkerInit_instantiate, linkerInit_typecheck]
      rw [linkerInit_flatten_all hf, linkerInit_reset]
    have hcong := @flatten_all_modules_reset_congr n _ _ hinit
    simp only [hcong, hf]

/-- The linker holding `wModule1` as one file. -/
def wL0 : Linker := (add_file 60 [wModule1] { files := [] }).1

/-- The result of recompiling `wL0`. -/
def wL1 : Linker := (recompile_all 60 wL0).getD { files := [] }

theorem claim_c6_witness :
    recompile_all 60 wL0 = some wL1 ∧ recompile_all 60 wL1 = some wL1 :=
  ⟨by rfl, @claim_c6_recompile_idempotent 60 wL0 wL1 (by rfl)⟩

theorem runSDOps_append (h : TouchedSpansHistory) (l₁ l₂ : List SDOp) :
    runSDOps h (l₁ ++ l₂) = match runSDOps h l₁ with
      | some h' => runSDOps h' l₂
      | none => none := by
  induction l₁ generalizing h with
  | nil => rfl
  | cons op rest ih =>
    simp only [List.cons_append, runSDOps]
    cases runSDOp h op with
    | none => rfl
    | some h' => exact ih h'

/-- Running one guarded region from a free history succeeds and frees
the history again. -/
theorem guardedRegion_run (adds : List (Nat × Nat)) :
    ∀ (h : TouchedSpansHistory), h.in_use = false →
    ∃ h', runSDOps h (guardedRegion adds) = some h' ∧ h'.in_use = false := by
  have inner : ∀ (adds' : List (Nat × Nat)) (h : TouchedSpansHistory),
      h.in_use = true →
      ∃ h', runSDOps h (adds'.map SDOp.touch ++ [SDOp.defuseSD]) = some h' ∧
        h'.in_use = false := by
    intro adds'
    induction adds' with
    | nil =>
      intro h hin
      refine ⟨{ h with in_use := false }, ?_, rfl⟩
      simp [runSDOps, runSDOp, SpanDebugger_defuse, hin]
    | cons a rest ih =>
      intro h hin
      obtain ⟨h', hrun, hfree⟩ := ih (add_debug_span a h) (by simpa [add_debug_span] using hin)
      exact ⟨h', by simpa [runSDOps, runSDOp] using hrun, hfree⟩
  intro h hin
  obtain ⟨h', hrun, hfree⟩ := inner adds { h with in_use := true, num_spans := 0 } rfl
  refine ⟨h', ?_, hfree⟩
  simp only [guardedRegion, runSDOps, runSDOp, SpanDebugger_new, hin]
  simpa using hrun

/-- C9: at most one `SpanDebugger` per thread: `new` fails when the
history is in use, otherwise marks it in use and resets the counter;
`defuse` requires it to be in use and releases it; and a flow of
regions where each debugger is defused before the next is created never
fails an assertion and ends with the history free. -/
theorem claim_c9_span_debugger :
    (∀ h : TouchedSpansHistory, h.in_use = true → SpanDebugger_new h = none) ∧
    (∀ h : TouchedSpansHistory, h.in_use = false →
      SpanDebugger_new h = some { h with in_use := true, num_spans := 0 }) ∧
    (∀ h : TouchedSpansHistory, h.in_use = true →
      SpanDebugger_defuse h = some { h with in_use := false }) ∧
    (∀ h : TouchedSpansHistory, h.in_use = false → SpanDebugger_defuse h = none) ∧
    (∀ (regions : List (List (Nat × Nat))) (h : TouchedSpansHistory),
      h.in_use = false →
      ∃ h', runSDOps h (regionsOps regions) = some h' ∧ h'.in_use = false) := by
  refine ⟨?_, ?_, ?_, ?_, ?_⟩
  · intro h hin
    simp [SpanDebugger_new, hin]
  · intro h hin
    simp [SpanDebugger_new, hin]
  · intro h hin
    simp [SpanDebugger_defuse, hin]
  · intro h hin
    simp [SpanDebugger_defuse, hin]
  · intro regions
    induction regions with
    | nil =>
      intro h hin
      exact ⟨h, rfl, hin⟩
    | cons r rest ih =>
      intro h hin
      obtain ⟨h', hrun, hfree⟩ := guardedRegion_run r h hin
      obtain ⟨h'', hrun2, hfree2⟩ := ih h' hfree
      refine ⟨h'', ?_, hfree2⟩
      have happ := runSDOps_append h (guardedRegion r) (regionsOps rest)
      have : regionsOps (r :: rest) = guardedRegion r ++ regionsOps rest := by
        simp [regionsOps]
      rw [this, happ, hrun]
      exact hrun2

theorem claim_c9_witness :
    initSpansHistory.in_use = false ∧
    ∃ h', runSDOps initSpansHistory (regionsOps [[(1, 2)], [(3, 4)]]) = some h' ∧
      h'.in_use = false :=
  ⟨rfl, claim_c9_span_debugger.2.2.2.2 [[(1, 2)], [(3, 4)]] initSpansHistory rfl⟩

/-- The search loop returns the first matching index, offset by the
running counter. -/
theorem get_port_by_name_loop_spec (name_text : String) :
    ∀ (ports : List PortM) (k : Nat),
    get_port_by_name_loop name_text ports k =
      (ports.findIdx? (fun p => p.name = name_text)).map (fun i => i + k) := by
  intro ports
  induction ports with
  | nil =>
    intro k
    rfl
  | cons p rest ih =>
    intro k
    simp only [get_port_by_name_loop]
    by_cases hp : p.name = name_text
    · simp [List.findIdx?_cons, hp]
    · rw [if_neg hp, ih (k + 1)]
      cases hi : rest.findIdx? (fun p => p.name = name_text) with
      | none => simp [List.findIdx?_cons, hp, hi]
      | some i =>
        simp [List.findIdx?_cons, hp, hi]
        omega

/-- C10: `Module::get_port_by_name` returns the first port with the
given name when one exists (module and diagnostics unchanged), and
otherwise records exactly one `noSuchPort` diagnostic naming the port
and the module, returning `none` with the module unchanged. -/
theorem claim_c10_get_port_by_name (md : ModuleM) (name_text : String)
    (errors : List Diag) :
    (∀ i, md.ports.findIdx? (fun p => p.name = name_text) = some i →
      md.get_port_by_name name_text errors = (md, some i, errors)) ∧
    (md.ports.findIdx? (fun p => p.name = name_text) = none →
      md.get_port_by_name name_text errors =
        (md, none, errors ++ [Diag.noSuchPort name_text md.link_info_name])) := by
  constructor
  · intro i hi
    unfold ModuleM.get_port_by_name
    rw [get_port_by_name_loop_spec, hi]
    rfl
  · intro hnone
    unfold ModuleM.get_port_by_name
    rw [get_port_by_name_loop_spec, hnone]
    rfl

/-- A two-port module for the C10 witness. -/
def wMd : ModuleM := { link_info_name := "m", ports := [{ name := "a" }, { name := "b" }] }

theorem claim_c10_witness :
    wMd.get_port_by_name "b" [] = (wMd, some 1, []) ∧
    wMd.get_port_by_name "z" [] = (wMd, none, [Diag.noSuchPort "z" "m"]) :=
  ⟨(claim_c10_get_port_by_name wMd "b" []).1 1 (by decide),
   (claim_c10_get_port_by_name wMd "z" []).2 (by decide)⟩

/-- The sequence of buffer values `spansPrintLoop` visits, most recent
position first. -/
def readsDesc (sh : List (Nat × Nat)) (end_at : Nat) : Nat → List (Nat × Nat)
  | 0 => []
  | cur_i + 1 =>
    if cur_i + 1 > end_at then
      sh.getD (cur_i % SPAN_TOUCH_HISTORY_SIZE) DEFAULT_RANGE ::
        readsDesc sh end_at cur_i
    else []

theorem recordSpans_basic (rngs : List (Nat × Nat)) :
    (recordSpans rngs).in_use = true ∧
    (recordSpans rngs).num_spans = rngs.length ∧
    (recordSpans rngs).span_history.length = SPAN_TOUCH_HISTORY_SIZE := by
  induction rngs using List.reverseRecOn with
  | nil => exact ⟨rfl, rfl, by simp [recordSpans, initSpansHistory]⟩
  | append_singleton rs r ih =>
    obtain ⟨h1, h2, h3⟩ := ih
    have hrec : recordSpans (rs ++ [r]) = add_debug_span r (recordSpans rs) := by
      simp [recordSpans, List.foldl_append]
    refine ⟨?_, ?_, ?_⟩ <;> rw [hrec] <;>
      simp [add_debug_span, h1, h2, h3]

theorem recordSpans_slot : ∀ (rngs : List (Nat × Nat)) (p : Nat),
    p < rngs.length → rngs.length ≤ p + SPAN_TOUCH_HISTORY_SIZE →
    (recordSpans rngs).span_history.getD (p % SPAN_TOUCH_HISTORY_SIZE)
      DEFAULT_RANGE = rngs.getD p DEFAULT_RANGE := by
  intro rngs
  induction rngs using List.reverseRecOn with
  | nil =>
    intro p hp hle
    simp at hp
  | append_singleton rs r ih =>
    intro p hp hle
    have h256 : SPAN_TOUCH_HISTORY_SIZE = 256 := rfl
    have hrec : recordSpans (rs ++ [r]) = add_debug_span r (recordSpans rs) := by
      simp [recordSpans, List.foldl_append]
    obtain ⟨-, hnum, hlen⟩ := recordSpans_basic rs
    rw [hrec]
    simp only [add_debug_span, hnum]
    simp only [List.length_append, List.length_singleton] at hp hle
    by_cases hpe : p = rs.length
    · subst hpe
      have hlt : rs.length % SPAN_TOUCH_HISTORY_SIZE <
          (recordSpans rs).span_history.length := by
        rw [hlen, h256]
        omega
      rw [List.getD_eq_getElem?_getD, List.getElem?_set_self hlt]
      rw [List.getD_eq_getElem?_getD, List.getElem?_concat_length]
    · have hplt : p < rs.length := by omega
      have hne : rs.length % SPAN_TOUCH_HISTORY_SIZE ≠ p % SPAN_TOUCH_HISTORY_SIZE := by
        rw [h256] at hle ⊢
        omega
      rw [List.getD_eq_getElem?_getD, List.getElem?_set_ne hne,
        ← List.getD_eq_getElem?_getD]
      rw [show (rs ++ [r]).getD p DEFAULT_RANGE = rs.getD p DEFAULT_RANGE from by
        rw [List.getD_eq_getElem?_getD, List.getElem?_append_left hplt,
          ← List.getD_eq_getElem?_getD]]
      exact ih p hplt (by omega)

theorem spansPrintLoop_props (sh : List (Nat × Nat)) (end_at : Nat) :
    ∀ (cur_i : Nat) (acc : List (Nat × Nat)),
    acc.Nodup → acc.length < NUM_SPANS_TO_PRINT →
    ∃ added, spansPrintLoop sh end_at cur_i acc = acc ++ added ∧
      (acc ++ added).Nodup ∧
      (acc ++ added).length ≤ NUM_SPANS_TO_PRINT ∧
      added.Sublist (readsDesc sh end_at cur_i) := by
  intro cur_i
  induction cur_i with
  | zero =>
    intro acc hnd hlen
    exact ⟨[], by simp [spansPrintLoop], by simpa using hnd,
      by simp; omega, by simp [readsDesc]⟩
  | succ n ih =>
    intro acc hnd hlen
    have h10 : NUM_SPANS_TO_PRINT = 10 := rfl
    by_cases hgt : n + 1 > end_at
    · simp only [spansPrintLoop, if_pos hgt]
      by_cases hmem : sh.getD (n % SPAN_TOUCH_HISTORY_SIZE) DEFAULT_RANGE ∈ acc
      · rw [if_pos hmem, if_neg (by omega)]
        obtain ⟨added, hrun, hnd', hlen', hsub⟩ := ih acc hnd hlen
        refine ⟨added, hrun, hnd', hlen', ?_⟩
        simp only [readsDesc, if_pos hgt]
        exact hsub.cons _
      · rw [if_neg hmem]
        have hnd2 : (acc ++ [sh.getD (n % SPAN_TOUCH_HISTORY_SIZE) DEFAULT_RANGE]).Nodup := by
          simp [List.nodup_append, hnd]
          simpa using hmem
        by_cases hfull :
            (acc ++ [sh.getD (n % SPAN_TOUCH_HISTORY_SIZE) DEFAULT_RANGE]).length ≥
              NUM_SPANS_TO_PRINT
        · rw [if_pos hfull]
          refine ⟨[sh.getD (n % SPAN_TOUCH_HISTORY_SIZE) DEFAULT_RANGE], rfl,
            hnd2, ?_, ?_⟩
          · simp at hfull ⊢
            omega
          · simp only [readsDesc, if_pos hgt]
            exact (List.nil_sublist _).cons₂ _
        · rw [if_neg hfull]
          have hlen2 :
              (acc ++ [sh.getD (n % SPAN_TOUCH_HISTORY_SIZE) DEFAULT_RANGE]).length <
                NUM_SPANS_TO_PRINT := by
            omega
          obtain ⟨added, hrun, hnd', hlen', hsub⟩ := ih _ hnd2 hlen2
          refine ⟨sh.getD (n % SPAN_TOUCH_HISTORY_SIZE) DEFAULT_RANGE :: added,
            ?_, ?_, ?_, ?_⟩
          · rw [hrun]
            simp
          · simpa using hnd'
          · simpa using hlen'
          · simp only [readsDesc, if_pos hgt]
            exact hsub.cons₂ _
    · simp only [spansPrintLoop, if_neg hgt]
      exact ⟨[], by simp, by simpa using hnd, by simp; omega,
        by simp [readsDesc, if_neg hgt]⟩

theorem readsDesc_eq (rngs : List (Nat × Nat)) (end_at : Nat) :
    ∀ cur_i : Nat, cur_i ≤ rngs.length →
    rngs.length ≤ end_at + SPAN_TOUCH_HISTORY_SIZE →
    readsDesc (recordSpans rngs).span_history end_at cur_i =
      (List.range' end_at (cur_i - end_at)).reverse.map
        (fun p => rngs.getD p DEFAULT_RANGE) := by
  intro cur_i
  induction cur_i with
  | zero =>
    intro _ _
    simp [readsDesc]
  | succ n ih =>
    intro hle hwin
    by_cases hgt : n + 1 > end_at
    · simp only [readsDesc, if_pos hgt]
      have hrange : List.range' end_at (n + 1 - end_at) =
          List.range' end_at (n - end_at) ++ [n] := by
        rw [show n + 1 - end_at = (n - end_at) + 1 from by omega,
          List.range'_1_concat, show end_at + (n - end_at) = n from by omega]
      rw [hrange, List.reverse_append, List.reverse_singleton,
        List.singleton_append, List.map_cons,
        recordSpans_slot rngs n (by omega) (by omega), ih (by omega) hwin]
    · simp only [readsDesc, if_neg hgt]
      rw [show n + 1 - end_at = 0 from by omega]
      simp

theorem reverse_take_eq (l : List (Nat × Nat)) :
    ∀ (n e : Nat), e + n = l.length →
    (List.range' e n).reverse.map (fun p => l.getD p DEFAULT_RANGE) =
      l.reverse.take n := by
  intro n
  induction n with
  | zero =>
    intro e _
    simp
  | succ m ih =>
    intro e he
    rw [List.range'_succ, List.reverse_cons, List.map_append, List.map_singleton,
      ih (e + 1) (by omega), List.take_succ]
    have hm : m < l.length := by omega
    rw [List.getElem?_reverse hm, show l.length - 1 - m = e from by omega]
    have hel : e < l.length := by omega
    rw [List.getElem?_eq_getElem hel]
    rw [List.getD_eq_getElem?_getD, List.getElem?_eq_getElem hel]
    rfl

/-- C8: for any sequence of `add_debug_span` calls made inside a guarded
region, the panic-time span dump `print_most_recent_spans` succeeds and
yields a list of at most `NUM_SPANS_TO_PRINT` (= 10) spans, pairwise
distinct, and — most recent first — a sublist of the last
`SPAN_TOUCH_HISTORY_SIZE` (= 256) recorded byte-ranges (older entries
having been overwritten in the circular buffer). -/
theorem claim_c8_span_dump (rngs : List (Nat × Nat)) :
    ∃ l, print_most_recent_spans (recordSpans rngs) = some l ∧
      l.length ≤ NUM_SPANS_TO_PRINT ∧
      l.Nodup ∧
      l.Sublist (rngs.reverse.take SPAN_TOUCH_HISTORY_SIZE) := by
  obtain ⟨hin, hnum, -⟩ := recordSpans_basic rngs
  have h10 : NUM_SPANS_TO_PRINT = 10 := rfl
  have h256 : SPAN_TOUCH_HISTORY_SIZE = 256 := rfl
  unfold print_most_recent_spans
  rw [if_pos hin, hnum]
  obtain ⟨added, hrun, hnd, hlen10, hsub⟩ :=
    spansPrintLoop_props (recordSpans rngs).span_history
      (if rngs.length > SPAN_TOUCH_HISTORY_SIZE
        then rngs.length - SPAN_TOUCH_HISTORY_SIZE else 0)
      rngs.length [] (by simp) (by simp [NUM_SPANS_TO_PRINT])
  refine ⟨_, rfl, ?_, ?_, ?_⟩
  · rw [hrun]
    simpa using hlen10
  · rw [hrun]
    simpa using hnd
  · rw [hrun, List.nil_append]
    by_cases hbig : rngs.length > SPAN_TOUCH_HISTORY_SIZE
    · rw [if_pos hbig] at hsub
      rw [readsDesc_eq rngs _ rngs.length le_rfl (by omega)] at hsub
      rw [show rngs.length - (rngs.length - SPAN_TOUCH_HISTORY_SIZE) =
          SPAN_TOUCH_HISTORY_SIZE from by omega] at hsub
      rwa [reverse_take_eq rngs SPAN_TOUCH_HISTORY_SIZE
        (rngs.length - SPAN_TOUCH_HISTORY_SIZE) (by omega)] at hsub
    · rw [if_neg hbig] at hsub
      rw [readsDesc_eq rngs _ rngs.length le_rfl (by omega)] at hsub
      rw [Nat.sub_zero] at hsub
      rw [reverse_take_eq rngs rngs.length 0 (by omega)] at hsub
      rw [List.take_of_length_le (by simp)] at hsub
      rw [List.take_of_length_le
        (show rngs.reverse.length ≤ SPAN_TOUCH_HISTORY_SIZE from by simp; omega)]
      exact hsub
